import Mathlib

/-!
# ii (multiplexd fork): a shallow embedding of `ii.c`

Conventions of the embedding.

* A value of type `List Char` stands for the bytes of a C string before its
  terminator, except where a definition says that it models raw memory (then
  the list holds the bytes from a pointer on, terminators included).
* Characters are Lean `Char`s; `isalpha`/`tolower` are those of the C locale.
* Pointers into a string are rendered by the text they point at; pointers to
  heap records (`Channel *`, `Nick *`) are rendered by positions in the list
  that models the linked list.
* A call whose behaviour C leaves undefined (a read past the modelled bytes,
  `NULL` handed to a string function) yields `Stop.undef`; `exit(n)` yields
  `Stop.exit n`.
-/

namespace Ii

/-! ## Constants of `ii.c` -/

/-- The string terminator, `'\0'`. -/
def NUL : Char := Char.ofNat 0

def IRC_CHANNEL_MAX : Nat := 200
def IRC_NICK_MAX : Nat := 200
def IRC_MSG_MAX : Nat := 512
def UMODE_MAX : Nat := 10
def CMODE_MAX : Nat := 50

def TOK_NICKSRV : Nat := 0
def TOK_USER : Nat := 1
def TOK_CMD : Nat := 2
def TOK_CHAN : Nat := 3
def TOK_ARG : Nat := 4
def TOK_TEXT : Nat := 5
def TOK_LAST : Nat := 6

/-! ## C string primitives -/

/-- The C string that starts a block of memory: the bytes before the first
terminator. -/
def cstr (m : List Char) : List Char := m.takeWhile (fun c => c != NUL)

/-- Content of the destination after `strlcpy(dst, src, size)`: the source
string cut to `size - 1` bytes. -/
def strlcpy (src : List Char) (size : Nat) : List Char := (cstr src).take (size - 1)

/-- Text left in a buffer of `size` bytes by `snprintf(buf, size, ...)` when the
formatted text is `s`. -/
def snprintf (size : Nat) (s : List Char) : List Char := s.take (size - 1)

/-- `strchr(s, c)` as the offset of the first occurrence of `c`, `none` for
`NULL`. The terminator counts as part of the string, so `strchr(s, '\0')`
points at the end of `s`; the end of the list stands for the terminator when
`s` holds none. -/
def strchr : List Char → Char → Option Nat
  | [], c => if c = NUL then some 0 else none
  | x :: xs, c =>
    if x = c then some 0
    else if x = NUL then none
    else (strchr xs c).map (fun i => i + 1)

/-- C `isspace` in the C locale. -/
def isspace (c : Char) : Bool :=
  c = ' ' || c = '\t' || c = '\n' || c = Char.ofNat 11 || c = Char.ofNat 12 || c = '\r'

/-- `strtol(s, NULL, 10)` on a 64-bit `long`: optional white space, optional
sign, then the longest run of decimal digits; out-of-range values saturate. -/
def strtol (s : List Char) : Int :=
  let s1 := s.dropWhile isspace
  let neg := s1.head? = some '-'
  let s2 := if s1.head? = some '-' ∨ s1.head? = some '+' then s1.tail else s1
  let v : Nat := (s2.takeWhile Char.isDigit).foldl (fun a c => 10 * a + (c.toNat - 48)) 0
  if neg then max (-(v : Int)) (-(2 ^ 63 : Int)) else min (v : Int) (2 ^ 63 - 1 : Int)

/-- The tokens returned by `strtok(s, d)` followed by `strtok(NULL, d)` until
`NULL`, for a one-character delimiter set: the maximal delimiter-free runs of
`s`. `acc` is the token being scanned. -/
def strtok_all (d : Char) : List Char → List Char → List (List Char)
  | acc, [] => if acc = [] then [] else [acc]
  | acc, c :: s =>
    if c = d then
      if acc = [] then strtok_all d [] s else acc :: strtok_all d [] s
    else strtok_all d (acc ++ [c]) s

/-- `strncmp(pre, s, pre.length) == 0`. -/
def strncmp_eq (pre s : List Char) : Bool := s.take pre.length = pre

/-! ## Channel name normalisation (`ii.c` 172-202) -/

/-- `channel_normalize_path`, lines 172-181: the text left in the buffer. -/
def channel_normalize_path (s : List Char) : List Char :=
  s.map (fun c =>
    if c.isAlpha then c.toLower
    else if !c.isDigit && (strchr ".#&+!-".toList c).isNone then '_'
    else c)

/-- The first loop of `channel_normalize_name` (line 191): the number of bytes
`s` advances over, on the memory `mem` that starts at `s`. The loop has no
test for the terminator, and `strchr(upref, '\0')` is not `NULL`; it stops at
the first byte that is neither `&`, `#` nor found by `strchr` in `upref`.
`none` when it runs off the modelled memory. -/
def skip_lead (upref : List Char) : List Char → Option Nat
  | [] => none
  | c :: m =>
    if c = '&' ∨ c = '#' ∨ (strchr upref c).isSome then
      (skip_lead upref m).map (fun k => k + 1)
    else some 0

/-- The second loop of `channel_normalize_name` (lines 193-200): the bytes it
stores through `p`, reading the memory from `s` up to the next terminator.
`none` when there is no terminator in the modelled memory. -/
def copy_kept : List Char → Option (List Char)
  | [] => none
  | c :: m =>
    if c = NUL then some []
    else
      (copy_kept m).map (fun k =>
        if (strchr " ,&#\x07".toList c).isNone then
          (if c.isAlpha then c.toLower else c) :: k
        else k)

/-- `channel_normalize_name`, lines 183-202, on the memory `mem` that starts at
the caller's pointer: the memory afterwards. The bytes skipped by the first
loop stay where they are, the kept bytes are stored right behind them,
followed by a terminator (line 201); later bytes are untouched. -/
def channel_normalize_name (upref : List Char) (mem : List Char) : Option (List Char) :=
  match skip_lead upref mem with
  | none => none
  | some k =>
    match copy_kept (mem.drop k) with
    | none => none
    | some kept => some (mem.take k ++ kept ++ NUL :: mem.drop (k + kept.length + 1))

/-! ## The tokenizer (`ii.c` 671-714) -/

def reslen : Nat := TOK_LAST - TOK_CMD
def argoffset : Nat := TOK_ARG - TOK_CMD
def textoffset : Nat := TOK_TEXT - TOK_CMD

/-- The `result` array of `tokenize`: `TOK_LAST - TOK_CMD` string pointers,
`none` for `NULL`. -/
abbrev Tokens := List (Option (List Char))

/-- `result[i]`. -/
def tok (res : Tokens) (i : Nat) : Option (List Char) := res.getD i none

/-- The test `result[0] && strtol(result[0], NULL, 10) > 0` of line 688. -/
def numeric_cmd (res : Tokens) : Bool :=
  match tok res 0 with
  | none => false
  | some s => decide (strtol s > 0)

/-- The `while` loop of `tokenize`, lines 685-707, and the code after it.
`p` is the text between the pointers `p` and `n`, the last argument the text
from `n` on. A field stored at a delimiter ends there, because the delimiter
is overwritten by a terminator; a field stored by line 691 or 701 runs to the
end of the line. -/
def tokenize_loop (i : Nat) (res : Tokens) (p : List Char) : List Char → Tokens
  | [] => if i < reslen ∧ p ≠ [] then res.set i (some p) else res
  | c :: n =>
    if i ≥ reslen then res
    else if i > argoffset ∧ c = ' ' ∧ numeric_cmd res = true then
      res.set i (some (p ++ c :: n))
    else if i < textoffset ∧ c = ' ' then
      match n with
      | ':' :: d :: t => ((res.set i (some p)).set textoffset (some (d :: t)))
      | _ => tokenize_loop (i + 1) (res.set i (some p)) [] n
    else tokenize_loop i res (p ++ [c]) n

/-- `tokenize(result, str)` on a cleared `result` array. -/
def tokenize (str : List Char) : Tokens :=
  tokenize_loop 0 (List.replicate reslen none) [] ((cstr str).dropWhile (fun c => c = ' '))

/-! ## Records and session state (`ii.c` 43-115) -/

/-- How a call ends when it does not return: `exit(code)`, or behaviour that C
leaves undefined. -/
inductive Stop where
  | exit (code : Nat)
  | undef
deriving DecidableEq, Repr

deriving instance DecidableEq for Except

/-- `struct Nick`. The field `pfx` is the source's `prefix` (`'\0'` for none);
`next` is the list order. -/
structure Nick where
  name : List Char
  pfx : Char
deriving DecidableEq, Repr

/-- `struct Channel`. `id` stands for the address of the record, `next` is the
list order; the descriptor `fdin` is not modelled. -/
structure Channel where
  id : Nat
  name : List Char
  inpath : List Char
  outpath : List Char
  nicks : List Nick
deriving DecidableEq, Repr

/-- What the embedding takes from the environment: `PATH_MAX`, and whether
`channel_open` succeeds on a given `in` path. -/
structure Env where
  PATH_MAX : Nat
  fifo_ok : List Char → Bool

/-- The globals of `ii.c` (lines 104-115), the next free record address, the
records `channel_print` appends (`outpath`, text; the time stamp is left out,
`fopen` is taken to succeed) and the texts handed to `ewritestr`. `upref` and
`umodes` are the arrays of `UMODE_MAX` bytes. -/
structure State where
  isrunning : Bool
  channels : List Channel
  channelmaster : Option Nat
  nick : List Char
  _nick : List Char
  ircpath : List Char
  trackprefix : Bool
  upref : List Char
  umodes : List Char
  cmodes : List Char
  next_id : Nat
  log : List (List Char × List Char)
  wire : List (List Char)
deriving DecidableEq, Repr

/-- Apply `f` to the element at position `i`. -/
def modify_at {α : Type} (f : α → α) : Nat → List α → List α
  | _, [] => []
  | 0, x :: xs => f x :: xs
  | n + 1, x :: xs => x :: modify_at f n xs

/-- The state in which the channel at position `i` has the roster `ns` (an assignment
through `c->nicks` or to entries of that list). -/
def set_roster (st : State) (i : Nat) (ns : List Nick) : State :=
  { st with channels := modify_at (fun c => { c with nicks := ns }) i st.channels }

/-- `channel_print(c, buf)`, lines 716-726. -/
def channel_print (st : State) (c : Channel) (buf : List Char) : State :=
  { st with log := st.log ++ [(c.outpath, buf)] }

/-- `channel_print(channelmaster, buf)`: undefined when `channelmaster` is `NULL`
or points at a freed record. -/
def print_master (st : State) (buf : List Char) : Except Stop State :=
  match st.channelmaster with
  | none => .error .undef
  | some a =>
    match st.channels.find? (fun c => c.id = a) with
    | none => .error .undef
    | some c => .ok (channel_print st c buf)

/-- `ewritestr(fd, s)`, lines 128-144, when every `write` takes all it is offered. -/
def ewritestr (st : State) (s : List Char) : State :=
  { st with wire := st.wire ++ [s] }

/-! ## Directory (`ii.c` 204-366) -/

/-- `create_filepath`, lines 204-228: the path written, or `exit(1)` when it
does not fit `len` bytes. -/
def create_filepath (len : Nat) (path channel suffix : List Char) : Except Stop (List Char) :=
  if channel ≠ [] then
    if path.length + 1 + channel.length ≥ len then .error (.exit 1)
    else if (path ++ '/' :: channel ++ '/' :: suffix).length ≥ len then .error (.exit 1)
    else .ok (path ++ '/' :: channel ++ '/' :: suffix)
  else
    if (path ++ '/' :: suffix).length ≥ len then .error (.exit 1)
    else .ok (path ++ '/' :: suffix)

/-- The scan of `channel_find`, lines 294-297: position of the first channel
whose name equals `chan`. -/
def find_name (chan : List Char) : List Channel → Option Nat
  | [] => none
  | c :: cs => if chan = c.name then some 0 else (find_name chan cs).map (fun i => i + 1)

/-- `channel_find`, lines 286-299. The local buffer `chan` holds the copied name
and its terminator; the bytes behind them are not initialised, so a
normalisation that reads them is undefined. -/
def channel_find (st : State) (name : List Char) : Except Stop (Option Nat) :=
  match channel_normalize_name st.upref (strlcpy name IRC_CHANNEL_MAX ++ [NUL]) with
  | none => .error .undef
  | some m => .ok (find_name (cstr m) st.channels)

/-- `channel_new`, lines 262-284. The record is zeroed by `calloc`, so the name
array holds the copied name followed by terminators. -/
def channel_new (env : Env) (st : State) (name : List Char) : Except Stop Channel :=
  let channelpath := channel_normalize_path (strlcpy name env.PATH_MAX)
  let nm := strlcpy name IRC_CHANNEL_MAX
  match channel_normalize_name st.upref (nm ++ List.replicate (IRC_CHANNEL_MAX - nm.length) NUL) with
  | none => .error .undef
  | some m =>
    match create_filepath env.PATH_MAX st.ircpath channelpath "in".toList with
    | .error e => .error e
    | .ok inp =>
      match create_filepath env.PATH_MAX st.ircpath channelpath "out".toList with
      | .error e => .error e
      | .ok outp =>
        .ok { id := st.next_id, name := cstr m, inpath := inp, outpath := outp, nicks := [] }

/-- `channel_add`, lines 301-321: the new state and the position of the new
record (`none` for `NULL`). -/
def channel_add (env : Env) (st : State) (name : List Char) : Except Stop (State × Option Nat) :=
  match channel_new env st name with
  | .error e => .error e
  | .ok c =>
    if env.fifo_ok c.inpath = false then .ok ({ st with next_id := st.next_id + 1 }, none)
    else .ok ({ st with channels := c :: st.channels, next_id := st.next_id + 1 }, some 0)

/-- `channel_join`, lines 323-331. -/
def channel_join (env : Env) (st : State) (name : List Char) : Except Stop (State × Option Nat) :=
  match channel_find st name with
  | .error e => .error e
  | .ok (some i) => .ok (st, some i)
  | .ok none => channel_add env st name

/-- `channel_rm`, lines 333-354, for the record at position `i`. -/
def channel_rm (st : State) (i : Nat) : State :=
  { st with channels := st.channels.eraseIdx i }

/-! ## Rosters (`ii.c` 384-508, 594-607) -/

/-- `name_find`, lines 594-607, on the roster of a channel: position of the
first entry named `name`. -/
def name_find (name : List Char) : List Nick → Option Nat
  | [] => none
  | n :: ns => if name = n.name then some 0 else (name_find name ns).map (fun i => i + 1)

/-- The part of `name_add3` behind `channel_find` (lines 393-426), on the roster
of the channel found. `p[0]` of an empty name is its terminator, which `strchr`
finds in `upref`, so `name++` leaves the string: undefined. -/
def roster_add ( trackprefix : Bool) (upref : List Char) (nicks : List Nick)
    (name : List Char) (modes : Char) : Except Stop (List Nick) :=
  match name with
  | [] => .error .undef
  | c0 :: rest =>
    let moved := (strchr upref c0).isSome
    let nm := if moved then rest else name
    match name_find nm nicks with
    | some i =>
      if trackprefix ∧ moved then .ok (modify_at (fun n => { n with pfx := c0 }) i nicks)
      else .ok nicks
    | none =>
      .ok ({ name := strlcpy nm IRC_NICK_MAX, pfx := if trackprefix ∧ moved then c0 else modes } :: nicks)

/-- `name_add3`, lines 384-427. -/
def name_add3 (st : State) (chan name : List Char) (modes : Char) : Except Stop State :=
  match channel_find st chan with
  | .error e => .error e
  | .ok none => .ok st
  | .ok (some i) =>
    match st.channels.get? i with
    | none => .ok st
    | some c =>
      match roster_add st.trackprefix st.upref c.nicks name modes with
      | .error e => .error e
      | .ok ns => .ok (set_roster st i ns)

/-- `name_add(c, n)`, the macro of line 79. -/
def name_add (st : State) (chan name : List Char) : Except Stop State :=
  name_add3 st chan name NUL

/-- `name_rm3`, lines 450-467, on a roster: the roster without the first entry
named `name` and that entry's prefix, `none` when the function returns 0. -/
def name_rm3 (name : List Char) : List Nick → Option (List Nick × Char)
  | [] => none
  | n :: ns =>
    if name = n.name then some (ns, n.pfx)
    else (name_rm3 name ns).map (fun r => (n :: r.1, r.2))

/-- `name_rm`, lines 429-448: the new state and the return value. -/
def name_rm (st : State) (chan name : List Char) : Except Stop (State × Bool) :=
  match channel_find st chan with
  | .error e => .error e
  | .ok none => .ok (st, false)
  | .ok (some i) =>
    match st.channels.get? i with
    | none => .ok (st, false)
    | some c =>
      match name_rm3 name c.nicks with
      | none => .ok (st, false)
      | some r =>
        .ok (set_roster st i r.1, true)

/-- The loop of `name_quit`, lines 473-478, over the channel list: the list
afterwards and the records appended. -/
def name_quit_loop (name msg : List Char) :
    List Channel → List Channel × List (List Char × List Char)
  | [] => ([], [])
  | c :: cs =>
    let r := name_quit_loop name msg cs
    if c.name ≠ [] then
      match name_rm3 name c.nicks with
      | some q => ({ c with nicks := q.1 } :: r.1, (c.outpath, msg) :: r.2)
      | none => (c :: r.1, r.2)
    else (c :: r.1, r.2)

/-- `name_quit`, lines 469-479; `text` is `none` for `NULL`. -/
def name_quit (st : State) (name user : List Char) (text : Option (List Char)) : State :=
  let msg := snprintf IRC_MSG_MAX
    ("-!- ".toList ++ name ++ "(".toList ++ user ++ ") has quit ".toList
      ++ [Char.ofNat 34] ++ text.getD [] ++ [Char.ofNat 34])
  let r := name_quit_loop name msg st.channels
  { st with channels := r.1, log := st.log ++ r.2 }

/-- The loop of `name_nick`, lines 486-492: `k` channels are still to be
visited, the next one stands at position `i`. -/
def name_nick_loop (old new : List Char) : Nat → Nat → State → Except Stop State
  | 0, _, st => .ok st
  | k + 1, i, st =>
    match st.channels.get? i with
    | none => .ok st
    | some c =>
      if c.name ≠ [] then
        match name_rm3 old c.nicks with
        | some q =>
          match name_add3 (set_roster st i q.1) c.name new q.2 with
          | .error e => .error e
          | .ok st2 =>
            name_nick_loop old new k (i + 1)
              (channel_print st2 c (snprintf IRC_MSG_MAX
                ("-!- ".toList ++ old ++ " changed nick to ".toList
                  ++ [Char.ofNat 34] ++ new ++ [Char.ofNat 34])))
        | none => name_nick_loop old new k (i + 1) st
      else name_nick_loop old new k (i + 1) st

/-- `name_nick`, lines 481-493. -/
def name_nick (st : State) (old new : List Char) : Except Stop State :=
  name_nick_loop old new st.channels.length 0 st

/-- The loop of `name_menick`, lines 502-507. -/
def name_menick_loop (old new msg : List Char) : Nat → Nat → State → Except Stop State
  | 0, _, st => .ok st
  | k + 1, i, st =>
    match st.channels.get? i with
    | none => .ok st
    | some c =>
      if c.name ≠ [] then
        match name_rm3 old c.nicks with
        | some q =>
          match name_add3 (set_roster st i q.1) c.name new q.2 with
          | .error e => .error e
          | .ok st2 => name_menick_loop old new msg k (i + 1) (channel_print st2 c msg)
        | none => name_menick_loop old new msg k (i + 1) (channel_print st c msg)
      else name_menick_loop old new msg k (i + 1) (channel_print st c msg)

/-- `name_menick`, lines 495-508. -/
def name_menick (st : State) (old new : List Char) : Except Stop State :=
  name_menick_loop old new
    (snprintf IRC_MSG_MAX ("-!- changed nick to ".toList ++ [Char.ofNat 34] ++ new ++ [Char.ofNat 34]))
    st.channels.length 0 st

/-! ## Mode tracker (`ii.c` 510-592, 728-784, 1172-1177) -/

/-- `ptr_split`, lines 510-524; the pointers are offsets into `cmodes`. -/
def ptr_split (n p1 p2 p3 : Nat) : Nat :=
  if n < p1 then 1
  else if n > p1 ∧ n < p2 then 2
  else if n > p2 ∧ n < p3 then 3
  else 4

/-- The variables of the loop of `name_mode`: the flag `adding`, the current
token `p` (`none` for `NULL`), the tokens `strtok` has yet to return, and the
roster of the channel. -/
structure ModeWalk where
  adding : Bool
  p : Option (List Char)
  rest : List (List Char)
  nicks : List Nick
deriving DecidableEq, Repr

/-- The statement `p = strtok(NULL, " ")`. -/
def strtok_next (w : ModeWalk) : ModeWalk :=
  { w with p := w.rest.head?, rest := w.rest.tail }

/-- The assignments of lines 577-583 to the entry `n`; `pc` is
`upref[s - umodes]`. -/
def set_mode_pfx (adding : Bool) (pc : Char) (n : Nick) : Nick :=
  if adding ∧ n.pfx = NUL then { n with pfx := pc }
  else if ¬ adding ∧ n.pfx = pc then { n with pfx := NUL }
  else n

/-- The `for` loop of `name_mode`, lines 549-591; `c1`, `c2`, `c3` are the
offsets of the comma delimiters in `cmodes`. The `return` of line 573 ends the
walk with the variables as they are. -/
def name_mode_loop (cmodes umodes upref : List Char) (c1 c2 c3 : Nat) :
    List Char → ModeWalk → ModeWalk
  | [], w => w
  | m :: ms, w =>
    if m = '+' then name_mode_loop cmodes umodes upref c1 c2 c3 ms { w with adding := true }
    else if m = '-' then name_mode_loop cmodes umodes upref c1 c2 c3 ms { w with adding := false }
    else
      match strchr cmodes m, decide (m ≠ ',') with
      | some s, true =>
        match ptr_split s c1 c2 c3 with
        | 1 => name_mode_loop cmodes umodes upref c1 c2 c3 ms (strtok_next w)
        | 2 => name_mode_loop cmodes umodes upref c1 c2 c3 ms (strtok_next w)
        | 3 =>
          if w.adding then name_mode_loop cmodes umodes upref c1 c2 c3 ms (strtok_next w)
          else name_mode_loop cmodes umodes upref c1 c2 c3 ms w
        | _ => name_mode_loop cmodes umodes upref c1 c2 c3 ms w
      | _, _ =>
        match strchr umodes m with
        | some s =>
          match w.p with
          | none => w
          | some t =>
            match name_find t w.nicks with
            | some j =>
              let ns := modify_at (set_mode_pfx w.adding (upref.getD s NUL)) j w.nicks
              name_mode_loop cmodes umodes upref c1 c2 c3 ms (strtok_next { w with nicks := ns })
            | none => name_mode_loop cmodes umodes upref c1 c2 c3 ms (strtok_next w)
        | none => name_mode_loop cmodes umodes upref c1 c2 c3 ms w

/-- The part of `name_mode` behind the two early returns (lines 539-591), on the
roster of the channel found: the loop variables at the end. `strchr` finding no
comma makes the next `strchr` read from an invalid pointer: undefined. -/
def mode_walk (cmodes umodes upref : List Char) (mode args : List Char) (nicks : List Nick) :
    Except Stop ModeWalk :=
  match strtok_all ' ' [] args with
  | [] => .ok { adding := true, p := none, rest := [], nicks := nicks }
  | t :: ts =>
    match strchr cmodes ',' with
    | none => .error .undef
    | some c1 =>
      match strchr (cmodes.drop (c1 + 1)) ',' with
      | none => .error .undef
      | some d2 =>
        match strchr (cmodes.drop (c1 + 1 + d2 + 1)) ',' with
        | none => .error .undef
        | some d3 =>
          .ok (name_mode_loop cmodes umodes upref c1 (c1 + 1 + d2) (c1 + 1 + d2 + 1 + d3) mode
            { adding := true, p := some t, rest := ts, nicks := nicks })

/-- `name_mode`, lines 526-592; `none` is a `NULL` argument. `channel_find(NULL)`
and `strtok(NULL, " ")` with no string being scanned are undefined. -/
def name_mode (st : State) (chan mode args : Option (List Char)) : Except Stop State :=
  match chan with
  | none => .error .undef
  | some ch =>
    match channel_find st ch with
    | .error e => .error e
    | .ok none => .ok st
    | .ok (some i) =>
      match mode with
      | none => .ok st
      | some md =>
        match args with
        | none => .error .undef
        | some a =>
          match st.channels.get? i with
          | none => .ok st
          | some c =>
            match mode_walk st.cmodes st.umodes st.upref md a c.nicks with
            | .error e => .error e
            | .ok w => .ok (set_roster st i w.nicks)

/-- The loop of `parse_prefix`, line 762: `i`, the bytes from `m` on, the bytes
from `p` on, and the arrays `umodes` and `upref`. The validation of line 757
makes `m` reach `)` before either string ends. -/
def parse_prefix_loop : Nat → List Char → List Char → List Char × List Char → List Char × List Char
  | i, mc :: ms, pc :: ps, t =>
    if mc ≠ ')' ∧ i ≠ UMODE_MAX - 1 then parse_prefix_loop (i + 1) ms ps (t.1.set i mc, t.2.set i pc)
    else t
  | _, _, _, t => t

/-- `parse_prefix`, lines 747-766. -/
def parse_prefix (st : State) (buf : List Char) : State :=
  match strchr buf ')' with
  | none => st
  | some k =>
    if buf.length < 2 ∨ buf.head? ≠ some '(' ∨ k * 2 ≠ buf.length then st
    else
      let t := parse_prefix_loop 0 (buf.drop 1) (buf.drop (k + 1)) (st.umodes, st.upref)
      { st with umodes := t.1, upref := t.2 }

/-- `parse_cmodes`, lines 768-784. -/
def parse_cmodes (st : State) (buf : List Char) : State :=
  if buf.count ',' < 3 then st
  else { st with cmodes := strlcpy buf CMODE_MAX }

/-- The loop of `cap_parse`, lines 734-744, over the tokens of `buf`. -/
def cap_parse_loop : List (List Char) → State → State
  | [], st => st
  | p :: ps, st =>
    if strncmp_eq "PREFIX=".toList p then cap_parse_loop ps ( parse_prefix st (p.drop 7))
    else if strncmp_eq "CHANMODES=".toList p then cap_parse_loop ps (parse_cmodes st (p.drop 10))
    else cap_parse_loop ps st

/-- `cap_parse`, lines 728-745, on a string. -/
def cap_parse (st : State) (buf : List Char) : State :=
  cap_parse_loop (strtok_all ' ' [] buf) st

/-- The two calls of `setup`, lines 1176-1177. -/
def setup (st : State) : State :=
  parse_cmodes ( parse_prefix st "(qaohv)~&@%+".toList) "beI,k,l,imMnOPQRstVz".toList

/-! ## Dispatcher (`ii.c` 933-1110) -/

/-- The double quote, carriage return and line feed characters. -/
def DQ : Char := Char.ofNat 34
def CR : Char := Char.ofNat 13
def LF : Char := Char.ofNat 10

/-- A `%s` argument that must not be `NULL`. -/
def need (o : Option (List Char)) : Except Stop (List Char) :=
  match o with
  | none => .error .undef
  | some s => .ok s

/-- The `%s` argument `n ? &n->prefix : ""`: the prefix byte of a zeroed record
is followed by a terminator. -/
def pfx_text (n : Option Nick) : List Char :=
  match n with
  | none => []
  | some k => if k.pfx = NUL then [] else [k.pfx]

/-- The loop of `proc_names`, lines 1107-1109, over the tokens of `names`. -/
def proc_names_loop (chan : List Char) : List (List Char) → State → Except Stop State
  | [], st => .ok st
  | p :: ps, st =>
    match name_add st chan p with
    | .error e => .error e
    | .ok st1 => proc_names_loop chan ps st1

/-- `proc_names`, lines 1101-1110. With `names` `NULL`, `strtok` goes on with the
string it was scanning, whose remaining tokens are `pending`. -/
def proc_names (st : State) (chan : List Char) (names : Option (List Char))
    (pending : List (List Char)) : Except Stop State :=
  proc_names_loop chan
    (match names with
     | some s => strtok_all ' ' [] s
     | none => pending) st

/-- Lines 949-964 of `proc_server_cmd`: the source nick, the source user and the
command text, `none` when the function returns at line 952. -/
def split_source (buf : List Char) :
    Option (Option (List Char) × Option (List Char) × List Char) :=
  if buf.head? = some ':' then
    match strchr buf ' ' with
    | none => none
    | some k =>
      let src := buf.take k
      let cmd := (buf.drop (k + 1)).dropWhile (fun c => c = ' ')
      match strchr src '!' with
      | none => some (some (src.drop 1), none, cmd)
      | some j => some (some ((src.take j).drop 1), some (src.drop (j + 1)), cmd)
  else some (none, none, buf)

/-- Lines 1065-1098 of `proc_server_cmd`: choice of the channel, the text of a
NOTICE or PRIVMSG, and the record appended. -/
def route (env : Env) (st : State) (nicksrv chan text : Option (List Char))
    (isnotice isprivmsg : Bool) (msg : List Char) : Except Stop State :=
  let pick : Except Stop (Option (List Char) × List Char) :=
    if chan = some st.nick then
      if isnotice then
        .ok (nicksrv, snprintf IRC_MSG_MAX ("-!- ".toList ++ [DQ] ++ text.getD [] ++ [DQ]))
      else if isprivmsg then
        match nicksrv with
        | none => .error .undef
        | some s => .ok (nicksrv, snprintf IRC_MSG_MAX ("<".toList ++ s ++ "> ".toList ++ text.getD []))
      else .ok (nicksrv, msg)
    else
      let look : Except Stop (Option Nick) :=
        if st.trackprefix then
          match chan with
          | none => .error .undef
          | some ch =>
            match channel_find st ch, nicksrv with
            | .error e, _ => .error e
            | .ok (some i), some s =>
              .ok (match st.channels.get? i with
                   | none => none
                   | some c => (name_find s c.nicks).bind (fun j => c.nicks.get? j))
            | .ok _, _ => .ok none
        else .ok none
      match look with
      | .error e => .error e
      | .ok n =>
        if isnotice then
          .ok (chan, snprintf IRC_MSG_MAX ("-!- ".toList ++ pfx_text n ++ nicksrv.getD []
            ++ "/".toList ++ chan.getD [] ++ " -> ".toList ++ [DQ] ++ text.getD [] ++ [DQ]))
        else if isprivmsg then
          match nicksrv with
          | none => .error .undef
          | some s =>
            .ok (chan, snprintf IRC_MSG_MAX ("<".toList ++ pfx_text n ++ s ++ "> ".toList ++ text.getD []))
        else .ok (chan, msg)
  match pick with
  | .error e => .error e
  | .ok (channel, m) =>
    if channel = none ∨ channel = some [] then
      match st.channelmaster with
      | none => .ok st
      | some _ => print_master st m
    else
      match channel_join env st (channel.getD []) with
      | .error e => .error e
      | .ok (st1, none) => .ok st1
      | .ok (st1, some i) =>
        match st1.channels.get? i with
        | none => .ok st1
        | some c => .ok (channel_print st1 c m)

/-- Lines 974-1064 of `proc_server_cmd`: the dispatch on the tokenised command. -/
def dispatch (env : Env) (st : State) (nicksrv user : Option (List Char)) (argv : Tokens) :
    Except Stop State :=
  let chan := tok argv (TOK_CHAN - TOK_CMD)
  let arg := tok argv (TOK_ARG - TOK_CMD)
  let text := tok argv (TOK_TEXT - TOK_CMD)
  match tok argv 0 with
  | none => .ok st
  | some cmd =>
    if cmd = "PONG".toList then .ok st
    else if cmd = "PING".toList then
      match text with
      | none => .error .undef
      | some t => .ok (ewritestr st (snprintf IRC_MSG_MAX ("PONG ".toList ++ t ++ [CR, LF])))
    else if cmd = "353".toList then
      match arg with
      | none => .error .undef
      | some a =>
        match strtok_all ' ' [] a with
        | t1 :: p :: pending =>
          match print_master st (snprintf IRC_MSG_MAX
              (a.takeWhile (fun c => c = ' ') ++ t1 ++ text.getD [])) with
          | .error e => .error e
          | .ok st1 => proc_names st1 p text pending
        | _ => .ok st
    else if cmd = "005".toList then
      match print_master st (snprintf IRC_MSG_MAX (arg.getD [] ++ " ".toList ++ text.getD [])) with
      | .error e => .error e
      | .ok st1 =>
        match arg with
        | none => .error .undef
        | some a =>
          match text with
          | none => .ok (cap_parse st1 a)
          | some t => .ok (cap_parse (cap_parse st1 a) t)
    else if cmd = "MODE".toList then
      match need nicksrv with
      | .error e => .error e
      | .ok src =>
        match (if st.trackprefix then name_mode st chan arg text else .ok st) with
        | .error e => .error e
        | .ok st1 =>
          route env st1 nicksrv chan text false false (snprintf IRC_MSG_MAX
            ("-!- ".toList ++ src ++ " changed mode/".toList ++ chan.getD [] ++ " -> ".toList
              ++ arg.getD [] ++ " ".toList ++ text.getD []))
    else if cmd = "KICK".toList ∧ arg ≠ none then
      match need nicksrv, need chan with
      | .ok src, .ok ch =>
        match name_rm st ch (arg.getD []) with
        | .error e => .error e
        | .ok r =>
          route env r.1 nicksrv chan text false false (snprintf IRC_MSG_MAX
            ("-!- ".toList ++ src ++ " kicked ".toList ++ arg.getD [] ++ " (".toList ++ [DQ]
              ++ text.getD [] ++ [DQ] ++ ")".toList))
      | _, _ => .error .undef
    else if cmd = "TOPIC".toList then
      match need nicksrv with
      | .error e => .error e
      | .ok src =>
        route env st nicksrv chan text false false (snprintf IRC_MSG_MAX
          ("-!- ".toList ++ src ++ " changed topic to ".toList ++ [DQ] ++ text.getD [] ++ [DQ]))
    else if nicksrv = none ∨ user = none then
      print_master st (snprintf IRC_MSG_MAX
        (arg.getD [] ++ (if arg ≠ none ∧ text ≠ none then " ".toList else []) ++ text.getD []))
    else if cmd = "ERROR".toList then
      route env st nicksrv chan text false false (snprintf IRC_MSG_MAX
        ("-!- error ".toList ++ text.getD "unknown".toList))
    else if cmd = "JOIN".toList ∧ (chan ≠ none ∨ text ≠ none) then
      let ch := if text ≠ none then text else chan
      match name_add st (ch.getD []) (nicksrv.getD []) with
      | .error e => .error e
      | .ok st1 =>
        route env st1 nicksrv ch text false false (snprintf IRC_MSG_MAX
          ("-!- ".toList ++ nicksrv.getD [] ++ "(".toList ++ user.getD [] ++ ") has joined ".toList
            ++ ch.getD []))
    else if cmd = "PART".toList ∧ chan ≠ none then
      if nicksrv = some st.nick then .ok st
      else
        match name_rm st (chan.getD []) (nicksrv.getD []) with
        | .error e => .error e
        | .ok r =>
          route env r.1 nicksrv chan text false false (snprintf IRC_MSG_MAX
            ("-!- ".toList ++ nicksrv.getD [] ++ "(".toList ++ user.getD [] ++ ") has left ".toList
              ++ chan.getD [] ++ ": ".toList ++ [DQ] ++ text.getD [] ++ [DQ]))
    else if cmd = "QUIT".toList then
      .ok (name_quit st (nicksrv.getD []) (user.getD []) text)
    else if cmd = "NICK".toList ∧ text = some st._nick then
      name_menick { st with nick := strlcpy st._nick 32 } (nicksrv.getD []) (text.getD [])
    else if cmd = "NICK".toList ∧ text ≠ none then
      name_nick st (nicksrv.getD []) (text.getD [])
    else if cmd = "NOTICE".toList then route env st nicksrv chan text true false []
    else if cmd = "PRIVMSG".toList then route env st nicksrv chan text false true []
    else .ok st

/-- `proc_server_cmd`, lines 933-1099, on the line `buf`. -/
def proc_server_cmd (env : Env) (st : State) (buf : List Char) : Except Stop State :=
  if cstr buf = [] then .ok st
  else
    match split_source (cstr buf) with
    | none => .ok st
    | some (nicksrv, user, cmd) =>
      dispatch env st nicksrv user (tokenize (cmd.takeWhile (fun c => c ≠ CR ∧ c ≠ LF)))

/-! ## Vocabulary of the statements -/

/-- The test of the first loop of `channel_normalize_name` (line 191) on the byte `c`. -/
def advances (upref : List Char) (c : Char) : Prop :=
  c = '&' ∨ c = '#' ∨ (strchr upref c).isSome = true

instance (upref : List Char) (c : Char) : Decidable (advances upref c) := by
  unfold advances
  infer_instance

/-- A sigil or prefix-table character: `&`, `#`, or a character of the string in `upref`. -/
def is_lead (upref : List Char) (c : Char) : Bool :=
  c = '&' || c = '#' || (cstr upref).contains c

/-- A character that `channel_normalize_name` deletes behind the leading run: space, comma,
`&`, `#` or bell. -/
def is_noise (c : Char) : Bool :=
  c = ' ' || c = ',' || c = '&' || c = '#' || c = Char.ofNat 7

/-- The text `channel_normalize_name` makes of the part of a name behind its leading run. -/
def canon (r : List Char) : List Char :=
  (r.filter (fun c => !is_noise c)).map Char.toLower

/-- An ordinary character of a name: not a terminator, not a sigil or prefix-table character
(nor is its lower-case form one), and not deleted by the normalisation. -/
def ordinary (upref : List Char) (c : Char) : Bool :=
  !(c == NUL) && !is_lead upref c && !is_noise c && !is_lead upref c.toLower

/-- Two texts that differ only in letter case and in characters that
`channel_normalize_name` deletes (space, comma, `&`, `#`, bell). -/
inductive same_modulo_noise : List Char → List Char → Prop
  | nil : same_modulo_noise [] []
  | letter (c d : Char) (a b : List Char) :
      c.toLower = d.toLower → same_modulo_noise a b → same_modulo_noise (c :: a) (d :: b)
  | left (c : Char) (a b : List Char) :
      is_noise c = true → same_modulo_noise a b → same_modulo_noise (c :: a) b
  | right (c : Char) (a b : List Char) :
      is_noise c = true → same_modulo_noise a b → same_modulo_noise a (c :: b)

/-- The normal form that claim C4 words: leading run removed, then spaces, commas and
bells deleted and letters lower-cased. -/
def claimed_normal_form (upref x : List Char) : List Char :=
  ((x.dropWhile (is_lead upref)).filter
    (fun c => !(c = ' ' || c = ',' || c = Char.ofNat 7))).map Char.toLower

/-! ## Scenario states -/

/-- An environment in which every `in` pipe can be opened. -/
def std_env : Env := { PATH_MAX := 4096, fifo_ok := fun _ => true }

/-- The session as `main` leaves it before `setup` (lines 1313-1316): zeroed tables, the
master channel, prefix tracking enabled. -/
def session0 : State :=
  { isrunning := true,
    channels := [{ id := 0, name := [], inpath := "irc/in".toList, outpath := "irc/out".toList,
                   nicks := [] }],
    channelmaster := some 0,
    nick := "me".toList,
    _nick := [],
    ircpath := "irc".toList,
    trackprefix := true,
    upref := List.replicate UMODE_MAX NUL,
    umodes := List.replicate UMODE_MAX NUL,
    cmodes := [],
    next_id := 1,
    log := [],
    wire := [] }

/-- The session after `setup` and `channel_join("#chat")`. -/
def chat_session : State :=
  match channel_join std_env (setup session0) "#chat".toList with
  | .ok r => r.1
  | .error _ => setup session0

/-- The session after the capability tokens `PREFIX=(ov)@+` and `CHANMODES=b,k,l,imnt`. -/
def negotiated (st : State) : State :=
  parse_cmodes ( parse_prefix st "(ov)@+".toList) "b,k,l,imnt".toList

/-- The session `chat_session` after `name_add("#chat", "alice")` and
`name_add("#chat", "+bob")`. -/
def roster_session : State :=
  match name_add chat_session "#chat".toList "alice".toList with
  | .ok st =>
    match name_add st "#chat".toList "+bob".toList with
    | .ok st1 => st1
    | .error _ => st
  | .error _ => chat_session

/-! ## Argument consumption as the specification words it -/

/-- The group of a declared channel-mode letter: the first of the four comma-separated
groups that contains it; 0 for a comma and for a letter in no group. -/
def mode_group (g1 g2 g3 g4 : List Char) (x : Char) : Nat :=
  if x = ',' then 0
  else if x ∈ g1 then 1
  else if x ∈ g2 then 2
  else if x ∈ g3 then 3
  else if x ∈ g4 then 4
  else 0

/-- Whether a letter other than `+` and `-` consumes an argument token: a declared
channel-mode letter does in group 1 and 2, and in group 3 while adding; otherwise a
prefix-mode letter does, and an unrecognised letter does not. -/
def letter_consumes (g1 g2 g3 g4 umodes : List Char) (adding : Bool) (x : Char) : Bool :=
  match mode_group g1 g2 g3 g4 x with
  | 1 => true
  | 2 => true
  | 3 => adding
  | 4 => false
  | _ => (strchr umodes x).isSome

/-- One letter of the mode string, on the pair of the add/remove flag and the number of
argument-consuming letters so far. -/
def scan_step (g1 g2 g3 g4 umodes : List Char) (s : Bool × Nat) (x : Char) : Bool × Nat :=
  if x = '+' then (true, s.2)
  else if x = '-' then (false, s.2)
  else (s.1, if letter_consumes g1 g2 g3 g4 umodes s.1 x then s.2 + 1 else s.2)

/-- The add/remove flag behind the letters `pre` of a mode string. -/
def adding_at (g1 g2 g3 g4 umodes : List Char) (pre : List Char) : Bool :=
  (pre.foldl (scan_step g1 g2 g3 g4 umodes) (true, 0)).1

/-- The number of argument-consuming letters among the letters `pre` of a mode string. -/
def consumed_before (g1 g2 g3 g4 umodes : List Char) (pre : List Char) : Nat :=
  (pre.foldl (scan_step g1 g2 g3 g4 umodes) (true, 0)).2

/-- The roster after a mode string, in the words of the specification: `pre` are the
letters already walked, and each prefix-mode letter acts on the nick named by the argument
token whose index is the number of argument-consuming letters before it (on none when
there is no such token). -/
def mode_spec (g1 g2 g3 g4 umodes upref : List Char) (toks : List (List Char)) :
    List Char → List Char → List Nick → List Nick
  | _, [], ns => ns
  | pre, x :: post, ns =>
    if x = '+' ∨ x = '-' ∨ mode_group g1 g2 g3 g4 x ≠ 0 then
      mode_spec g1 g2 g3 g4 umodes upref toks (pre ++ [x]) post ns
    else
      match strchr umodes x, toks.get? (consumed_before g1 g2 g3 g4 umodes pre) with
      | some s, some t =>
        match name_find t ns with
        | some j =>
          mode_spec g1 g2 g3 g4 umodes upref toks (pre ++ [x]) post
            (modify_at (set_mode_pfx (adding_at g1 g2 g3 g4 umodes pre) (upref.getD s NUL)) j ns)
        | none => mode_spec g1 g2 g3 g4 umodes upref toks (pre ++ [x]) post ns
      | _, _ => mode_spec g1 g2 g3 g4 umodes upref toks (pre ++ [x]) post ns

/-! ## Command interpreter (`ii.c` 356-366, 787-931) -/

/-- `channel_leave`, lines 356-366, for the record at position `i`; the descriptor and the
`in` file are not modelled. -/
def channel_leave (st : State) (i : Nat) : State := channel_rm st i

/-- `proc_channels_privmsg`, lines 787-800. `ci` is the channel pointer, `none` for `NULL`,
which `channel_print` dereferences. -/
def proc_channels_privmsg (st : State) (ci : Option Nat) (buf : List Char) : Except Stop State :=
  match ci.bind (fun i => st.channels.get? i) with
  | none => .error .undef
  | some c =>
    let n := if st.trackprefix then (name_find st.nick c.nicks).bind (fun j => c.nicks.get? j)
      else none
    .ok (ewritestr
      (channel_print st c
        (snprintf IRC_MSG_MAX ("<".toList ++ pfx_text n ++ st.nick ++ "> ".toList ++ buf)))
      (snprintf IRC_MSG_MAX ("PRIVMSG ".toList ++ c.name ++ " :".toList ++ buf ++ [CR, LF])))

/-- The test for one of the sigils `#`, `&`, `+`, `!` (lines 826-827 and 872-873) on the
first byte of a string, `none` being its terminator. -/
def is_sigil (c : Option Char) : Bool :=
  c = some '#' || c = some '&' || c = some '+' || c = some '!'

/-- The branch `case 'j'` of `proc_channels_input`, lines 821-843, for a line of three bytes
or more; `arg` is the text at `&buf[3]`. -/
def input_join (env : Env) (st : State) (arg : List Char) : Except Stop State :=
  let name := arg.takeWhile (fun c => c ≠ ' ')
  let p := arg.dropWhile (fun c => c ≠ ' ')
  if is_sigil name.head? then
    match channel_join env st name with
    | .error e => .error e
    | .ok r =>
      .ok (ewritestr r.1 (snprintf IRC_MSG_MAX
        (if p ≠ [] then "JOIN ".toList ++ name ++ " ".toList ++ p.drop 1 ++ [CR, LF]
         else "JOIN ".toList ++ name ++ [CR, LF])))
  else
    match channel_join env st name with
    | .error e => .error e
    | .ok r => if p ≠ [] then proc_channels_privmsg r.1 r.2 (p.drop 1) else .ok r.1

/-- The branch `case 'l'` of `proc_channels_input`, lines 864-888; `long` is `buflen >= 3`. -/
def input_leave (st : State) (i : Nat) (long : Bool) (arg : List Char) : Except Stop State :=
  match st.channels.get? i with
  | none => .error .undef
  | some c =>
    if st.channelmaster = some c.id then .ok st
    else if is_sigil c.name.head? then
      let st1 := ewritestr st (snprintf IRC_MSG_MAX
        (if long then "PART ".toList ++ c.name ++ " :".toList ++ arg ++ [CR, LF]
         else "PART ".toList ++ c.name ++ " :leaving".toList ++ [CR, LF]))
      let st2 := channel_print st1 c (snprintf IRC_MSG_MAX
        (if long then "-!- Leaving ".toList ++ c.name ++ ": ".toList ++ [DQ] ++ arg ++ [DQ]
         else "-!- Leaving ".toList ++ c.name ++ ": ".toList ++ [DQ] ++ "leaving".toList ++ [DQ]))
      .ok (channel_leave st2 i)
    else .ok (channel_leave st i)

/-- The branch `case 'q'` of `proc_channels_input`, lines 899-920. -/
def input_quit (st : State) (long : Bool) (arg : List Char) : State :=
  let st1 := ewritestr st (snprintf IRC_MSG_MAX
    (if long then "QUIT :".toList ++ arg ++ [CR, LF] else "QUIT bye".toList ++ [CR, LF]))
  let msg := snprintf IRC_MSG_MAX
    (if long then "-!- Quitting: ".toList ++ arg else "-!- Quitting: bye".toList)
  { st1 with log := st1.log ++ st1.channels.map (fun c => (c.outpath, msg)), isrunning := false }

/-- `proc_channels_input`, lines 802-931, on the line `buf` read from the channel at
position `i`. -/
def proc_channels_input (env : Env) (st : State) (i : Nat) (buf : List Char) : Except Stop State :=
  match buf with
  | [] => .ok st
  | b0 :: b1s =>
    if b0 ≠ '/' then proc_channels_privmsg st (some i) buf
    else
      match b1s with
      | [] => .ok st
      | b1 :: b2s =>
        let long : Bool := decide (b2s ≠ [])
        let arg := b2s.drop 1
        if b2s.head? = some ' ' ∨ b2s = [] then
          if b1 = 'j' then
            if long then input_join env st arg else .ok st
          else if b1 = 't' then
            if long then
              match st.channels.get? i with
              | none => .error .undef
              | some c =>
                .ok (ewritestr st (snprintf IRC_MSG_MAX
                  ("TOPIC ".toList ++ c.name ++ " :".toList ++ arg ++ [CR, LF])))
            else .ok st
          else if b1 = 'a' then
            if long then
              match st.channels.get? i with
              | none => .error .undef
              | some c =>
                .ok (ewritestr
                  (channel_print st c (snprintf IRC_MSG_MAX
                    ("-!- ".toList ++ st.nick ++ " is away ".toList ++ [DQ] ++ arg ++ [DQ])))
                  (snprintf IRC_MSG_MAX ("AWAY :".toList ++ arg ++ [CR, LF])))
            else .ok (ewritestr st (snprintf IRC_MSG_MAX ("AWAY".toList ++ [CR, LF])))
          else if b1 = 'n' then
            if long then
              .ok (ewritestr { st with _nick := strlcpy arg 32 }
                (snprintf IRC_MSG_MAX ("NICK ".toList ++ arg ++ [CR, LF])))
            else .ok st
          else if b1 = 'l' then input_leave st i long arg
          else if b1 = 'o' then
            match st.channels.get? i with
            | none => .error .undef
            | some c =>
              if st.channelmaster = some c.id then .ok st
              else if long then
                .ok (ewritestr
                  (channel_print st c (snprintf IRC_MSG_MAX
                    ("-!- -> ".toList ++ [DQ] ++ arg ++ [DQ])))
                  (snprintf IRC_MSG_MAX
                    ("NOTICE ".toList ++ c.name ++ " :".toList ++ arg ++ [CR, LF])))
              else .ok st
          else if b1 = 'q' then .ok (input_quit st long arg)
          else .ok (ewritestr st (snprintf IRC_MSG_MAX (b1s ++ [CR, LF])))
        else .ok (ewritestr st (snprintf IRC_MSG_MAX (b1s ++ [CR, LF])))

/-! ## Event loop (`ii.c` 1127-1228, 1318-1327) -/

/-- What `select`, `read_line` and `channel_reopen` deliver in one turn of the loop of
`run`. -/
inductive Turn where
  /-- `select` fails with `EINTR`; `term` says that the signal was `SIGTERM` or `SIGINT`, for
  which `sighandler` (lines 1155-1160) clears `isrunning`. -/
  | interrupted (term : Bool)
  /-- `select` fails otherwise. -/
  | select_failed
  /-- `select` returns 0; `expired` is the test of line 1208. -/
  | idle (expired : Bool)
  /-- `select` returns a positive count. `server` is `none` when the server descriptor is not
  in the set, otherwise what `read_line` delivers, `none` for -1. `inputs` lists the channels
  whose descriptor is in the set: the `id` of the record, what `read_line` delivers, and
  whether `channel_reopen` succeeds if it is called. -/
  | ready (server : Option (Option (List Char))) (inputs : List (Nat × Option (List Char) × Bool))

/-- `handle_server_output`, lines 1140-1153; `r` is what `read_line` delivers. -/
def handle_server_output (env : Env) (st : State) (r : Option (List Char)) : Except Stop State :=
  match r with
  | none => .error (.exit 1)
  | some buf => proc_server_cmd env st buf

/-- `handle_channels_input`, lines 1127-1138, for the record at position `i`; `r` is what
`read_line` delivers and `reopen_ok` whether `channel_reopen` succeeds. -/
def handle_channels_input (env : Env) (st : State) (i : Nat) (r : Option (List Char))
    (reopen_ok : Bool) : Except Stop State :=
  match r with
  | none => if reopen_ok then .ok st else .ok (channel_rm st i)
  | some buf => proc_channels_input env st i (cstr buf)

/-- The `for` loop of lines 1222-1226. It follows the `next` pointers saved before each call,
so it visits the records `ids` that the list held when the loop began; a record that has left
the list by the time it is visited has been freed. -/
def run_inputs (env : Env) (inputs : List (Nat × Option (List Char) × Bool)) :
    List Nat → State → Except Stop State
  | [], st => .ok st
  | a :: rest, st =>
    match st.channels.findIdx? (fun c => c.id = a) with
    | none => .error .undef
    | some i =>
      match inputs.lookup a with
      | none => run_inputs env inputs rest st
      | some io =>
        match handle_channels_input env st i io.1 io.2 with
        | .error e => .error e
        | .ok st1 => run_inputs env inputs rest st1

/-- One turn of the loop of `run`, lines 1191-1226. The records that lines 1209-1212 write
before `exit(2)` are not part of the result, which is the exit status alone. -/
def run_turn (env : Env) (host : List Char) (t : Turn) (st : State) : Except Stop State :=
  match t with
  | .interrupted term => .ok (if term then { st with isrunning := false } else st)
  | .select_failed => .error (.exit 1)
  | .idle expired =>
    if expired then .error (.exit 2)
    else .ok (ewritestr st (snprintf IRC_MSG_MAX ("PING ".toList ++ host ++ [CR, LF])))
  | .ready server inputs =>
    let first : Except Stop State :=
      match server with
      | none => .ok st
      | some r => handle_server_output env st r
    match first with
    | .error e => .error e
    | .ok st1 => run_inputs env inputs (st1.channels.map (fun c => c.id)) st1

/-- The loop of `run`, lines 1190-1227, over the turns `ts`: the state with which `run`
returns, `none` when the turns are used up while the flag is still set (the loop is waiting
in `select`). -/
def run (env : Env) (host : List Char) : List Turn → State → Except Stop (Option State)
  | [], st => if st.isrunning then .ok none else .ok (some st)
  | t :: ts, st =>
    if st.isrunning then
      match run_turn env host t st with
      | .error e => .error e
      | .ok st1 => run env host ts st1
    else .ok (some st)

/-- The end of `main`, lines 1319-1327, once `run` has returned: the exit status.
`channel_leave(channelmaster)` on a record that has left the list uses freed memory. -/
def main_exit (st : State) : Except Stop Nat :=
  match st.channelmaster with
  | none => .ok 0
  | some a => if st.channels.any (fun c => c.id = a) = false then .error .undef else .ok 0

/-! ## Vocabulary for server lines and rosters -/

/-- The line `buf` reaches the dispatch of `proc_server_cmd` with the source nick `nicksrv`,
the source user `user` and the fields `argv`. -/
def server_line (buf : List Char) (nicksrv user : Option (List Char)) (argv : Tokens) : Prop :=
  cstr buf ≠ [] ∧ ∃ cmd, split_source (cstr buf) = some (nicksrv, user, cmd) ∧
    tokenize (cmd.takeWhile (fun c => c ≠ CR ∧ c ≠ LF)) = argv

/-- The roster `ns` has an entry named `n`. -/
def holds (n : List Char) (ns : List Nick) : Bool := ns.any (fun k => decide (n = k.name))

/-- The roster `ns` without its first entry named `n`. -/
def without (n : List Char) (ns : List Nick) : List Nick :=
  ns.eraseP (fun k => decide (n = k.name))

/-- The prefix of the first entry named `n` in the roster `ns` (`'\0'` when there is none). -/
def pfx_of (n : List Char) (ns : List Nick) : Char :=
  match ns.find? (fun k => decide (n = k.name)) with
  | some k => k.pfx
  | none => NUL

/-- A channel that `name_quit` and `name_nick` act on for the nick `n`: its name is not empty
(it is not the master) and its roster has an entry named `n`. -/
def reached (n : List Char) (c : Channel) : Bool := decide (c.name ≠ []) && holds n c.nicks

/-- The text of the `%s` argument `n ? &n->prefix : ""` when `n` is the first entry named
`s` of the roster `ns`: its prefix character, or nothing when there is no such entry or the
entry has no prefix. -/
def stored_prefix (s : List Char) (ns : List Nick) : List Char :=
  pfx_text (ns.find? (fun k => decide (s = k.name)))

/-- What the scenarios show of a state: name and roster of every channel, in directory
order, and the records appended to the logs (`out` path and text). -/
structure Outcome where
  rosters : List (List Char × List Nick)
  log : List (List Char × List Char)
deriving DecidableEq, Repr

/-- The rosters and the log of a state. -/
def rosters_and_log (st : State) : Outcome :=
  { rosters := st.channels.map (fun c => (c.name, c.nicks)), log := st.log }

/-- What `name_nick` makes of a channel: where the channel is reached, the first entry named
`old` leaves the roster and an entry named `new` (cut to the bytes of the name array) with
the prefix of that entry is put at its head. -/
def rename_in (old new : List Char) (c : Channel) : Channel :=
  if reached old c then
    { c with nicks :=
        { name := strlcpy new IRC_NICK_MAX, pfx := pfx_of old c.nicks } :: without old c.nicks }
  else c

/-- The state in which the channels from position `i` on, `k` of them, have been visited by
a loop that turns each channel `c` into `f c` and appends the records `g c`. -/
def visited (f : Channel → Channel) (g : Channel → List (List Char × List Char))
    (k i : Nat) (st : State) : State :=
  { st with
    channels := st.channels.take i ++ ((st.channels.drop i).take k).map f ++ st.channels.drop (i + k),
    log := st.log ++ (((st.channels.drop i).take k).map g).flatten }

/-- The session `roster_session` after the input line `/n newme` on its first channel. -/
def rename_session : State :=
  match proc_channels_input std_env roster_session 0 "/n newme".toList with
  | .ok st => st
  | .error _ => roster_session

/-- The names of a roster. -/
def roster_names (ns : List Nick) : List (List Char) := ns.map (fun k => k.name)

/-- Every channel other than the master is found by `channel_find` under its stored name, at
its own position: the stored names are normal forms and unique keys. -/
def names_are_keys (st : State) : Prop :=
  ∀ i c, st.channels.get? i = some c → c.name ≠ [] → channel_find st c.name = .ok (some i)

/-! ## The loops on raw memory (`ii.c` 128-144, 172-181, 671-714) -/

/-- The loop of `channel_normalize_path`, lines 175-180, on the memory from `s` on: the
memory afterwards. The bytes up to the terminator are rewritten in place, the terminator
and what lies behind it stay. -/
def channel_normalize_path_loop : List Char → List Char
  | [] => []
  | c :: m =>
    if c = NUL then c :: m
    else
      (if c.isAlpha then c.toLower
       else if !c.isDigit && (strchr ".#&+!-".toList c).isNone then '_'
       else c) :: channel_normalize_path_loop m

/-- The array `result` of `tokenize` as offsets into the line (`none` for `NULL`), and the
bytes of the line, which `tokenize` overwrites at the delimiters. The end of the list
stands for the terminator. -/
structure TokMem where
  result : List (Option Nat)
  buf : List Char
deriving DecidableEq, Repr

/-- The string that starts at offset `o` of the bytes `buf`. -/
def str_at (buf : List Char) (o : Nat) : List Char := cstr (buf.drop o)

/-- The test `result[0] && strtol(result[0], NULL, 10) > 0` of lines 688-689 on the
line as it stands. -/
def numeric_at (m : TokMem) : Bool :=
  match m.result.getD 0 none with
  | none => false
  | some o => decide (strtol (str_at m.buf o) > 0)

/-- Lines 709-711 of `tokenize`: the last entry. -/
def tokenize_last (i p n : Nat) (m : TokMem) : TokMem :=
  if i < reslen ∧ p < n ∧ m.buf.getD p NUL ≠ NUL then { m with result := m.result.set i (some p) }
  else m

/-- The `while` loop of `tokenize`, lines 685-707, and the code after it, with the
pointers `p` and `n` as offsets into the line; `k` bounds the number of bytes from `n` to
the end of the line. -/
def tokenize_mem_loop : Nat → Nat → Nat → Nat → TokMem → TokMem
  | 0, i, p, n, m => tokenize_last i p n m
  | k + 1, i, p, n, m =>
    if m.buf.getD n NUL = NUL then tokenize_last i p n m
    else if i ≥ reslen then m
    else if i > argoffset ∧ m.buf.getD n NUL = ' ' ∧ numeric_at m = true then
      { m with result := m.result.set i (some p) }
    else if i < textoffset ∧ m.buf.getD n NUL = ' ' then
      if m.buf.getD (n + 1) NUL = ':' ∧ m.buf.getD (n + 2) NUL ≠ NUL then
        { result := (m.result.set i (some p)).set textoffset (some (n + 2)),
          buf := (m.buf.set n NUL).set (n + 1) NUL }
      else
        tokenize_mem_loop k (i + 1) (n + 1) (n + 1)
          { result := m.result.set i (some p), buf := m.buf.set n NUL }
    else tokenize_mem_loop k i p (n + 1) m

/-- `tokenize(result, str)`, lines 671-714, on a cleared `result` array and the bytes
`str` of the line: the array and the line afterwards. -/
def tokenize_mem (str : List Char) : TokMem :=
  tokenize_mem_loop (str.length - (str.takeWhile (fun c => c = ' ')).length) 0
    (str.takeWhile (fun c => c = ' ')).length (str.takeWhile (fun c => c = ' ')).length
    { result := List.replicate reslen none, buf := str }

/-- The `for` loop of `ewritestr`, lines 135-139, from the offset `off`. `ws` lists what
the calls of `write` return, `none` for -1; a call for which the list has no entry takes
all it is offered. `out` collects the bytes the calls have taken. The offset advances by
`w` in the body (line 138) and again in the loop header (line 135). -/
def ewritestr_loop (s : List Char) : Nat → List (Option Nat) → List Char → Except Stop (List Char)
  | off, [], out => if off < s.length then .ok (out ++ s.drop off) else .ok out
  | off, none :: _, out => if off < s.length then .error (.exit 1) else .ok out
  | off, some w :: ws, out =>
    if off < s.length then ewritestr_loop s (off + w + w) ws (out ++ (s.drop off).take w)
    else .ok out

/-- `ewritestr(fd, s)`, lines 128-144: the bytes that the calls of `write` take, in order.
With an empty string the loop is not entered and `w` keeps its initial value -1. -/
def ewritestr_bytes (s : List Char) (ws : List (Option Nat)) : Except Stop (List Char) :=
  if s = [] then .error (.exit 1) else ewritestr_loop s 0 ws []

/-! ## Sequences of directory and roster operations -/

/-- One operation on the directory: `channel_join(name)`, `channel_rm` of the record at a
position (`channel_leave` ends in it), or `parse_prefix(text)`. -/
inductive DirOp where
  | join (name : List Char)
  | rm (i : Nat)
  | table (text : List Char)
deriving DecidableEq, Repr

/-- The state after one directory operation. -/
def dir_step (env : Env) (st : State) : DirOp → Except Stop State
  | .join name =>
    match channel_join env st name with
    | .error e => .error e
    | .ok r => .ok r.1
  | .rm i => .ok (channel_rm st i)
  | .table text => .ok ( parse_prefix st text)

/-- The state after a sequence of directory operations. -/
def dir_run (env : Env) : List DirOp → State → Except Stop State
  | [], st => .ok st
  | op :: ops, st =>
    match dir_step env st op with
    | .error e => .error e
    | .ok st1 => dir_run env ops st1

/-- One call of a roster function: `name_add3`, `name_rm`, `name_quit`, `name_nick`,
`name_menick` or `name_mode`, with its arguments (`none` for `NULL`). -/
inductive RosterOp where
  | add3 (chan name : List Char) (modes : Char)
  | rm (chan name : List Char)
  | quit (name user : List Char) (text : Option (List Char))
  | nick (old new : List Char)
  | menick (old new : List Char)
  | mode (chan mode args : Option (List Char))
deriving DecidableEq, Repr

/-- The state after one call of a roster function. -/
def roster_step (st : State) : RosterOp → Except Stop State
  | .add3 chan name modes => name_add3 st chan name modes
  | .rm chan name =>
    match name_rm st chan name with
    | .error e => .error e
    | .ok r => .ok r.1
  | .quit name user text => .ok (name_quit st name user text)
  | .nick old new => name_nick st old new
  | .menick old new => name_menick st old new
  | .mode chan md args => name_mode st chan md args

/-- The state after a sequence of calls of roster functions. -/
def roster_run : List RosterOp → State → Except Stop State
  | [], st => .ok st
  | op :: ops, st =>
    match roster_step st op with
    | .error e => .error e
    | .ok st1 => roster_run ops st1

/-- The name that a call hands to `name_add3` for storing, if it hands one. -/
def RosterOp.stores : RosterOp → Option (List Char)
  | .add3 _ name _ => some name
  | .nick _ new => some new
  | .menick _ new => some new
  | _ => none

/-- A name that the array `name` of a `Nick` holds in full: a string of fewer than
`IRC_NICK_MAX` bytes. -/
def fits_nick (n : List Char) : Prop := (∀ c ∈ n, c ≠ NUL) ∧ n.length < IRC_NICK_MAX

instance (n : List Char) : Decidable (fits_nick n) := by
  unfold fits_nick
  infer_instance

/-- No roster of the directory has two entries with the same name. -/
def rosters_unique (st : State) : Prop :=
  ∀ c ∈ st.channels, (roster_names c.nicks).Nodup

/-- No two channels of the directory have the same stored name. -/
def names_unique (st : State) : Prop := (st.channels.map (fun c => c.name)).Nodup

/-- The identities of the records of the directory, in list order. -/
def dir_ids (st : State) : List Nat := st.channels.map (fun c => c.id)

/-- From `st` to `st'` the pointer `channelmaster` is the same and no record has left the
directory. -/
def ids_kept (st st' : State) : Prop :=
  st'.channelmaster = st.channelmaster ∧ ∀ a ∈ dir_ids st, a ∈ dir_ids st'

/-- The master channel is in the directory. -/
def master_present (st : State) : Bool :=
  match st.channelmaster with
  | none => false
  | some a => st.channels.any (fun c => c.id = a)

/-- From `st` to `st'` the pointer `channelmaster` is the same, and the master channel is
in the directory of `st'` if it is in that of `st`. -/
def master_stays (st st' : State) : Prop :=
  st'.channelmaster = st.channelmaster ∧ (master_present st = true → master_present st' = true)

/-- A turn of the loop in which it does not happen that the read from the pipe of the
record `master` fails and `channel_reopen` fails as well. -/
def master_pipe_ok (master : Option Nat) : Turn → Bool
  | .ready _ inputs =>
    match master with
    | none => true
    | some a => decide (inputs.lookup a ≠ some (none, false))
  | _ => true

/-! ## The specification's wording of the path characters and of the plain tokenizer -/

/-- What the specification makes of one character of a path: letters in lower case, digits
and the characters `.#&+!-` kept, `_` for everything else. -/
def sanitized (c : Char) : Char :=
  if c.isAlpha then c.toLower
  else if c.isDigit ∨ c ∈ ".#&+!-".toList then c
  else '_'

/-- A lowercase letter, a digit or one of `.#&+!-_`. -/
def path_char (c : Char) : Bool := c.isLower || c.isDigit || ".#&+!-_".toList.contains c

/-- The loop `tokenize_loop` without the branch of lines 688-692. -/
def tokenize_loop_plain (i : Nat) (res : Tokens) (p : List Char) : List Char → Tokens
  | [] => if i < reslen ∧ p ≠ [] then res.set i (some p) else res
  | c :: n =>
    if i ≥ reslen then res
    else if i < textoffset ∧ c = ' ' then
      match n with
      | ':' :: d :: t => ((res.set i (some p)).set textoffset (some (d :: t)))
      | _ => tokenize_loop_plain (i + 1) (res.set i (some p)) [] n
    else tokenize_loop_plain i res (p ++ [c]) n

/-- The function `tokenize` without the branch of lines 688-692. -/
def tokenize_plain (str : List Char) : Tokens :=
  tokenize_loop_plain 0 (List.replicate reslen none) [] ((cstr str).dropWhile (fun c => c = ' '))

/-- The loop `tokenize_mem_loop` without the branch of lines 688-692. -/
def tokenize_mem_loop_plain : Nat → Nat → Nat → Nat → TokMem → TokMem
  | 0, i, p, n, m => tokenize_last i p n m
  | k + 1, i, p, n, m =>
    if m.buf.getD n NUL = NUL then tokenize_last i p n m
    else if i ≥ reslen then m
    else if i < textoffset ∧ m.buf.getD n NUL = ' ' then
      if m.buf.getD (n + 1) NUL = ':' ∧ m.buf.getD (n + 2) NUL ≠ NUL then
        { result := (m.result.set i (some p)).set textoffset (some (n + 2)),
          buf := (m.buf.set n NUL).set (n + 1) NUL }
      else
        tokenize_mem_loop_plain k (i + 1) (n + 1) (n + 1)
          { result := m.result.set i (some p), buf := m.buf.set n NUL }
    else tokenize_mem_loop_plain k i p (n + 1) m

/-- The function `tokenize_mem` without the branch of lines 688-692. -/
def tokenize_mem_plain (str : List Char) : TokMem :=
  tokenize_mem_loop_plain (str.length - (str.takeWhile (fun c => c = ' ')).length) 0
    (str.takeWhile (fun c => c = ' ')).length (str.takeWhile (fun c => c = ' ')).length
    { result := List.replicate reslen none, buf := str }

/-! ## Further scenario states -/

/-- The state in which `main` calls `channel_add("")` (line 1313): no channel yet, zeroed
tables. -/
def boot_state : State :=
  { session0 with channels := [], channelmaster := none, next_id := 0 }

/-- A sequence of directory operations: joins under several spellings, a new prefix table,
a leave. -/
def directory_ops : List DirOp :=
  [.join "#chat".toList, .join "#Chat".toList, .table "(ov)@+".toList, .join "&help".toList,
   .join "bob".toList, .rm 1, .join "+CHAT".toList, .join "# c,hat".toList]

/-- The session after `setup` and the operations `directory_ops`. -/
def directory_session : State :=
  match dir_run std_env directory_ops (setup session0) with
  | .ok st => st
  | .error _ => setup session0

/-- A channel-mode text whose first group has fifty letters: three commas, all of them
behind the 49 bytes that `cmodes` holds. -/
def long_modes : List Char := List.replicate 50 'x' ++ ",k,l,imnt".toList

/-- A nick name of two hundred bytes, one more than the array `name` of a `Nick` holds. -/
def long_nick : List Char := List.replicate 200 'a'

/-- A sequence of calls of roster functions on the channel `#chat`. -/
def roster_ops : List RosterOp :=
  [.add3 "#chat".toList "alice".toList NUL, .add3 "#chat".toList "+bob".toList NUL,
   .add3 "#chat".toList "@alice".toList NUL, .add3 "#chat".toList "carol".toList NUL,
   .nick "alice".toList "bob".toList, .nick "carol".toList "dave".toList,
   .mode (some "#chat".toList) (some "+v".toList) (some "dave".toList),
   .quit "erin".toList "u@h".toList none, .rm "#chat".toList "zed".toList,
   .menick "dave".toList "erin".toList]

/-- The session `chat_session` after the calls `roster_ops`. -/
def unique_session : State :=
  match roster_run roster_ops chat_session with
  | .ok st => st
  | .error _ => chat_session

/-! # Theorems -/

/-! ## Character facts -/

/-- `tolower` either leaves a character alone or maps one of `A`-`Z` 32 places up. -/
theorem toLower_cases (c : Char) :
    c.toLower = c ∨ ∃ n, 65 ≤ n ∧ n ≤ 90 ∧ c = Char.ofNat n ∧ c.toLower = Char.ofNat (n + 32) := by
  unfold Char.toLower
  by_cases h : c.toNat ≥ 65 ∧ c.toNat ≤ 90
  · right
    exact ⟨c.toNat, h.1, h.2, (Char.ofNat_toNat c).symm, by simp [h]⟩
  · left
    simp [h]

theorem toLower_idem (c : Char) : c.toLower.toLower = c.toLower := by
  rcases toLower_cases c with h | ⟨n, h1, h2, _, h4⟩
  · rw [h, h]
  · rw [h4]
    interval_cases n <;> decide

theorem toLower_ne_nul (c : Char) (hc : c ≠ NUL) : c.toLower ≠ NUL := by
  rcases toLower_cases c with h | ⟨n, h1, h2, _, h4⟩
  · rwa [h]
  · rw [h4]
    interval_cases n <;> decide

/-- The model's `isalpha(c) ? tolower(c) : c` is `tolower(c)`. -/
theorem low_eq (c : Char) : (if c.isAlpha then c.toLower else c) = c.toLower := by
  rcases toLower_cases c with h | ⟨n, h1, h2, h3, h4⟩
  · simp [h]
  · have : c.isAlpha = true := by
      rw [h3]
      interval_cases n <;> decide
    simp [this]

/-! ## Tokenizer lemmas -/

theorem cstr_eq_self {l : List Char} (h : ∀ c ∈ l, c ≠ NUL) : cstr l = l := by
  unfold cstr
  rw [List.takeWhile_eq_self_iff]
  intro c hc
  simpa using h c hc

/-- The loop on a byte that is not the delimiter: the byte joins the field being scanned. -/
theorem tokenize_loop_other (i : Nat) (hi : i < reslen) (res : Tokens) (p : List Char) (c : Char)
    (hc : c ≠ ' ') (n : List Char) :
    tokenize_loop i res p (c :: n) = tokenize_loop i res (p ++ [c]) n := by
  have h1 : ¬ i ≥ reslen := by omega
  by_cases h : ∃ d t, n = ':' :: d :: t
  · obtain ⟨d, t, rfl⟩ := h
    rw [tokenize_loop]
    simp only [h1, hc, if_false, false_and, and_false]
  · rw [tokenize_loop]
    · simp only [h1, hc, if_false, false_and, and_false]
    · intro d t hd
      exact h ⟨d, t, hd⟩

/-- The loop on a delimiter that is followed by a colon and one more byte, within the field
budget: the field ends and the trailing text is stored. -/
theorem tokenize_loop_delim_colon (i : Nat) (hi : i < textoffset) (res : Tokens) (p : List Char)
    (d : Char) (t : List Char) :
    tokenize_loop i res p (' ' :: ':' :: d :: t)
      = (res.set i (some p)).set textoffset (some (d :: t)) := by
  have h1 : ¬ i ≥ reslen := by unfold reslen TOK_LAST TOK_CMD; unfold textoffset TOK_TEXT TOK_CMD at hi; omega
  have h2 : ¬ i > argoffset := by unfold argoffset TOK_ARG TOK_CMD; unfold textoffset TOK_TEXT TOK_CMD at hi; omega
  rw [tokenize_loop]
  simp only [h1, h2, hi, if_false, false_and, true_and, if_true]

/-- The loop on a delimiter within the field budget, colon rule not firing: the field ends
and the next one starts behind the delimiter. -/
theorem tokenize_loop_delim (i : Nat) (hi : i < textoffset) (res : Tokens) (p n : List Char)
    (hn : ∀ d t, n ≠ ':' :: d :: t) :
    tokenize_loop i res p (' ' :: n) = tokenize_loop (i + 1) (res.set i (some p)) [] n := by
  have h1 : ¬ i ≥ reslen := by unfold reslen TOK_LAST TOK_CMD; unfold textoffset TOK_TEXT TOK_CMD at hi; omega
  have h2 : ¬ i > argoffset := by unfold argoffset TOK_ARG TOK_CMD; unfold textoffset TOK_TEXT TOK_CMD at hi; omega
  rw [tokenize_loop]
  · simp only [h1, h2, hi, if_false, false_and, true_and, if_true]
  · intro d t hd
    exact hn d t hd

/-- Scanning a space-free field up to its delimiter, colon rule not firing. -/
theorem tokenize_loop_field (f : List Char) (hf : ∀ c ∈ f, c ≠ ' ') (i : Nat) (hi : i < textoffset)
    (res : Tokens) (p n : List Char) (hn : ∀ d t, n ≠ ':' :: d :: t) :
    tokenize_loop i res p (f ++ ' ' :: n) = tokenize_loop (i + 1) (res.set i (some (p ++ f))) [] n := by
  induction f generalizing p with
  | nil => simpa using tokenize_loop_delim i hi res p n hn
  | cons c f ih =>
    have hr : i < reslen := by unfold reslen TOK_LAST TOK_CMD; unfold textoffset TOK_TEXT TOK_CMD at hi; omega
    simp only [List.cons_append]
    rw [tokenize_loop_other i hr res p c (hf c (List.mem_cons_self _ _)),
      ih (fun x hx => hf x (List.mem_cons_of_mem _ hx))]
    simp

/-- Scanning a space-free field up to its delimiter, colon rule firing. -/
theorem tokenize_loop_colon (f : List Char) (hf : ∀ c ∈ f, c ≠ ' ') (i : Nat) (hi : i < textoffset)
    (res : Tokens) (p : List Char) (d : Char) (t : List Char) :
    tokenize_loop i res p (f ++ ' ' :: ':' :: d :: t)
      = (res.set i (some (p ++ f))).set textoffset (some (d :: t)) := by
  induction f generalizing p with
  | nil => simpa using tokenize_loop_delim_colon i hi res p d t
  | cons c f ih =>
    have hr : i < reslen := by unfold reslen TOK_LAST TOK_CMD; unfold textoffset TOK_TEXT TOK_CMD at hi; omega
    simp only [List.cons_append]
    rw [tokenize_loop_other i hr res p c (hf c (List.mem_cons_self _ _)),
      ih (fun x hx => hf x (List.mem_cons_of_mem _ hx))]
    simp

/-- With the field budget used up (`i = textoffset`), the rest of the line is one field,
whether or not the command is numeric. -/
theorem tokenize_loop_tail (res : Tokens) (p n : List Char) (h : p ++ n ≠ []) :
    tokenize_loop textoffset res p n = res.set textoffset (some (p ++ n)) := by
  induction n generalizing p with
  | nil =>
    have hp : p ≠ [] := by simpa using h
    rw [tokenize_loop]
    simp [reslen, textoffset, TOK_TEXT, TOK_LAST, TOK_CMD, hp]
  | cons c n ih =>
    have hr : textoffset < reslen := by unfold reslen textoffset TOK_TEXT TOK_LAST TOK_CMD; omega
    by_cases hc : c = ' '
    · subst hc
      have h1 : ¬ textoffset ≥ reslen := by omega
      have h2 : textoffset > argoffset := by unfold argoffset textoffset TOK_TEXT TOK_ARG TOK_CMD; omega
      have h3 : ¬ textoffset < textoffset := by omega
      by_cases hnum : numeric_cmd res = true
      · by_cases h : ∃ d t, n = ':' :: d :: t
        · obtain ⟨d, t, rfl⟩ := h
          rw [tokenize_loop]
          simp only [h1, h2, hnum, if_false, true_and, if_true]
        · rw [tokenize_loop]
          · simp only [h1, h2, hnum, if_false, true_and, if_true]
          · intro d t hd
            exact h ⟨d, t, hd⟩
      · have key : tokenize_loop textoffset res p (' ' :: n) = tokenize_loop textoffset res (p ++ [' ']) n := by
          by_cases h : ∃ d t, n = ':' :: d :: t
          · obtain ⟨d, t, rfl⟩ := h
            rw [tokenize_loop]
            simp [h1, h3, hnum]
          · rw [tokenize_loop]
            · simp [h1, h3, hnum]
            · intro d t hd
              exact h ⟨d, t, hd⟩
        rw [key, ih (p ++ [' ']) (by simp)]
        simp
    · rw [tokenize_loop_other textoffset hr res p c hc, ih (p ++ [c]) (by simp)]
      simp

theorem not_colon_form (g x : List Char) (hg : g.head? ≠ some ':') :
    ∀ d t, g ++ ' ' :: x ≠ ':' :: d :: t := by
  intro d t h
  cases g with
  | nil => simp at h
  | cons c g =>
    simp only [List.cons_append, List.cons.injEq] at h
    exact hg (by simp [h.1])

theorem tok_set_self (res : Tokens) (i : Nat) (v : Option (List Char)) (h : i < res.length) :
    tok (res.set i v) i = v := by
  simp [tok, List.getD, h]

theorem dropWhile_spaces (k : Nat) (l : List Char) (h : l.head? ≠ some ' ') :
    (List.replicate k ' ' ++ l).dropWhile (fun c => c = ' ') = l := by
  induction k with
  | zero =>
    cases l with
    | nil => rfl
    | cons c l =>
      have : c ≠ ' ' := fun hc => h (by simp [hc])
      simp [List.dropWhile, this]
  | succ k ih => simpa [List.replicate_succ, List.dropWhile] using ih

/-- The trailing text is found behind up to three fields. -/
theorem fields_then_colon (d : Char) (t : List Char) (fs : List (List Char)) :
    ∀ (i : Nat) (res : Tokens) (p f : List Char), i + fs.length < textoffset →
      res.length = reslen → (∀ c ∈ f, c ≠ ' ') →
      (∀ g ∈ fs, (∀ c ∈ g, c ≠ ' ') ∧ g.head? ≠ some ':') →
      tok (tokenize_loop i res p (f ++ ' ' :: ((fs.map (fun g => g ++ [' '])).flatten ++ ':' :: d :: t)))
        textoffset = some (d :: t) := by
  induction fs with
  | nil =>
    intro i res p f hi hres hf _
    simp only [List.map_nil, List.flatten_nil, List.nil_append]
    rw [tokenize_loop_colon f hf i (by simpa using hi)]
    apply tok_set_self
    simp [hres, reslen, textoffset, TOK_TEXT, TOK_LAST, TOK_CMD]
  | cons g fs ih =>
    intro i res p f hi hres hf hfs
    have hg := hfs g (List.mem_cons_self _ _)
    simp only [List.length_cons] at hi
    simp only [List.map_cons, List.flatten_cons, List.append_assoc, List.singleton_append, List.cons_append]
    rw [tokenize_loop_field f hf i (by omega) res p _ (not_colon_form g _ hg.2)]
    exact ih (i + 1) _ [] g (by omega) (by simpa using hres) hg.1
      (fun g' hg' => hfs g' (List.mem_cons_of_mem _ hg'))

theorem tokenize_line (k : Nat) (l : List Char) (hl : l.head? ≠ some ' ')
    (hnul : ∀ c ∈ l, c ≠ NUL) :
    tokenize (List.replicate k ' ' ++ l) = tokenize_loop 0 (List.replicate reslen none) [] l := by
  unfold tokenize
  rw [cstr_eq_self, dropWhile_spaces k l hl]
  intro c hc
  rcases List.mem_append.1 hc with h | h
  · rw [List.eq_of_mem_replicate h]
    decide
  · exact hnul c h

/-! ## Lemmas on C strings -/

theorem cstr_nil : cstr [] = [] := rfl

theorem cstr_cons_nul (l : List Char) : cstr (NUL :: l) = [] := by
  simp [cstr, List.takeWhile_cons]

theorem cstr_cons_ne (x : Char) (l : List Char) (h : x ≠ NUL) : cstr (x :: l) = x :: cstr l := by
  simp [cstr, List.takeWhile_cons, h]

theorem strchr_nul (s : List Char) : (strchr s NUL).isSome = true := by
  induction s with
  | nil => simp [strchr]
  | cons x xs ih =>
    unfold strchr
    by_cases h : x = NUL
    · simp [h]
    · simp [h, ih]

theorem strchr_isSome_iff (s : List Char) (c : Char) (hc : c ≠ NUL) :
    (strchr s c).isSome = true ↔ c ∈ cstr s := by
  induction s with
  | nil => simp [strchr, cstr, hc]
  | cons x xs ih =>
    unfold strchr
    by_cases h1 : x = c
    · subst h1
      simp [cstr_cons_ne x xs hc]
    · by_cases h2 : x = NUL
      · subst h2
        simp [h1, cstr_cons_nul]
      · simp only [h1, h2, if_false, Option.isSome_map']
        rw [ih, cstr_cons_ne x xs h2, List.mem_cons]
        constructor
        · exact fun h => Or.inr h
        · rintro (h | h)
          · exact absurd h.symm h1
          · exact h

theorem advances_nul (upref : List Char) : advances upref NUL :=
  Or.inr (Or.inr (strchr_nul upref))

theorem advances_iff (upref : List Char) (c : Char) (hc : c ≠ NUL) :
    advances upref c ↔ is_lead upref c = true := by
  unfold advances is_lead
  rw [strchr_isSome_iff upref c hc]
  simp [or_assoc]

theorem noise_str : " ,&#\x07".toList = [' ', ',', '&', '#', Char.ofNat 7] := by decide

theorem kept_iff (c : Char) (hc : c ≠ NUL) :
    (strchr " ,&#\x07".toList c).isNone = (!is_noise c) := by
  rw [noise_str]
  have n1 : ¬ (' ' = NUL) := by decide
  have n2 : ¬ (',' = NUL) := by decide
  have n3 : ¬ ('&' = NUL) := by decide
  have n4 : ¬ ('#' = NUL) := by decide
  have n5 : ¬ (Char.ofNat 7 = NUL) := by decide
  by_cases h1 : c = ' '
  · subst h1; decide
  by_cases h2 : c = ','
  · subst h2; decide
  by_cases h3 : c = '&'
  · subst h3; decide
  by_cases h4 : c = '#'
  · subst h4; decide
  by_cases h5 : c = Char.ofNat 7
  · subst h5; decide
  have e1 : ¬ (' ' = c) := fun h => h1 h.symm
  have e2 : ¬ (',' = c) := fun h => h2 h.symm
  have e3 : ¬ ('&' = c) := fun h => h3 h.symm
  have e4 : ¬ ('#' = c) := fun h => h4 h.symm
  have e5 : ¬ (Char.ofNat 7 = c) := fun h => h5 h.symm
  simp [strchr, is_noise, e1, e2, e3, e4, e5, n1, n2, n3, n4, n5, h1, h2, h3, h4, h5, hc]

theorem cstr_append_nul (l r : List Char) (h : ∀ c ∈ l, c ≠ NUL) : cstr (l ++ NUL :: r) = l := by
  induction l with
  | nil => simp [cstr_cons_nul]
  | cons x xs ih =>
    rw [List.cons_append, cstr_cons_ne x _ (h x (List.mem_cons_self _ _)),
      ih (fun c hc => h c (List.mem_cons_of_mem _ hc))]

/-- The string at the start of a block ends at the first terminator, whatever follows. -/
theorem cstr_through_nul (l r r' : List Char) : cstr (l ++ NUL :: r) = cstr (l ++ NUL :: r') := by
  induction l with
  | nil => simp [cstr_cons_nul]
  | cons x xs ih =>
    by_cases hx : x = NUL
    · subst hx
      simp [cstr_cons_nul]
    · rw [List.cons_append, List.cons_append, cstr_cons_ne x _ hx, cstr_cons_ne x _ hx, ih]

/-! ## The two loops of `channel_normalize_name` -/

theorem skip_lead_cons_adv (upref : List Char) (c : Char) (m : List Char) (h : advances upref c) :
    skip_lead upref (c :: m) = (skip_lead upref m).map (fun k => k + 1) := by
  have h' : c = '&' ∨ c = '#' ∨ (strchr upref c).isSome = true := h
  rw [skip_lead]
  simp only [h', if_true]

theorem skip_lead_cons_stop (upref : List Char) (c : Char) (m : List Char) (h : ¬ advances upref c) :
    skip_lead upref (c :: m) = some 0 := by
  have h' : ¬ (c = '&' ∨ c = '#' ∨ (strchr upref c).isSome = true) := h
  rw [skip_lead]
  simp only [h', if_false]

theorem skip_lead_append (upref : List Char) (L Z : List Char) (hL : ∀ a ∈ L, advances upref a) :
    skip_lead upref (L ++ Z) = (skip_lead upref Z).map (fun k => k + L.length) := by
  induction L with
  | nil => simp
  | cons a L ih =>
    rw [List.cons_append, skip_lead_cons_adv upref a _ (hL a (List.mem_cons_self _ _)),
      ih (fun x hx => hL x (List.mem_cons_of_mem _ hx))]
    cases skip_lead upref Z <;> simp [Nat.add_assoc]

theorem skip_lead_inv (upref : List Char) (m : List Char) (k : Nat) (h : skip_lead upref m = some k) :
    ∃ A b R, m = A ++ b :: R ∧ (∀ a ∈ A, advances upref a) ∧ ¬ advances upref b ∧ A.length = k := by
  induction m generalizing k with
  | nil => simp [skip_lead] at h
  | cons c m ih =>
    by_cases hc : advances upref c
    · rw [skip_lead_cons_adv upref c m hc] at h
      cases hk : skip_lead upref m with
      | none => simp [hk] at h
      | some j =>
        simp only [hk, Option.map_some', Option.some.injEq] at h
        obtain ⟨A, b, R, h1, h2, h3, h4⟩ := ih j hk
        refine ⟨c :: A, b, R, by simp [h1], ?_, h3, by simp [h4, h]⟩
        intro a ha
        rcases List.mem_cons.1 ha with rfl | ha
        · exact hc
        · exact h2 a ha
    · rw [skip_lead_cons_stop upref c m hc] at h
      refine ⟨[], c, m, rfl, by simp, hc, ?_⟩
      simpa using h

theorem canon_nil : canon [] = [] := rfl

theorem canon_cons (c : Char) (r : List Char) :
    canon (c :: r) = if is_noise c then canon r else c.toLower :: canon r := by
  unfold canon
  by_cases h : is_noise c = true
  · simp [List.filter_cons, h]
  · simp [List.filter_cons, h]

theorem copy_kept_eq (C D : List Char) (hC : ∀ c ∈ C, c ≠ NUL) :
    copy_kept (C ++ NUL :: D) = some (canon C) := by
  induction C with
  | nil => simp [copy_kept, canon_nil]
  | cons c C ih =>
    have hc : c ≠ NUL := hC c (List.mem_cons_self _ _)
    rw [List.cons_append, copy_kept]
    simp only [hc, if_false]
    rw [ih (fun x hx => hC x (List.mem_cons_of_mem _ hx)), kept_iff c hc, low_eq, canon_cons]
    by_cases h : is_noise c = true
    · simp [h]
    · simp [h]

theorem copy_kept_inv (m K : List Char) (h : copy_kept m = some K) :
    ∃ C D, m = C ++ NUL :: D ∧ (∀ c ∈ C, c ≠ NUL) ∧ K = canon C := by
  induction m generalizing K with
  | nil => simp [copy_kept] at h
  | cons c m ih =>
    by_cases hc : c = NUL
    · subst hc
      rw [copy_kept] at h
      simp only [if_true, Option.some.injEq] at h
      exact ⟨[], m, rfl, by simp, by simp [← h, canon_nil]⟩
    · have h0 := h
      rw [copy_kept] at h
      simp only [hc, if_false] at h
      cases hk : copy_kept m with
      | none => simp [hk] at h
      | some K' =>
        obtain ⟨C, D, h1, h2, h3⟩ := ih K' hk
        refine ⟨c :: C, D, by simp [h1], ?_, ?_⟩
        · intro x hx
          rcases List.mem_cons.1 hx with rfl | hx
          · exact hc
          · exact h2 x hx
        · have := copy_kept_eq (c :: C) D (by
            intro x hx
            rcases List.mem_cons.1 hx with rfl | hx
            · exact hc
            · exact h2 x hx)
          rw [List.cons_append, ← h1, h0] at this
          exact Option.some.inj this

theorem canon_length_le (r : List Char) : (canon r).length ≤ r.length := by
  unfold canon
  rw [List.length_map]
  exact List.length_filter_le _ _

theorem canon_ne_nul (r : List Char) (h : ∀ c ∈ r, c ≠ NUL) : ∀ c ∈ canon r, c ≠ NUL := by
  intro c hc
  unfold canon at hc
  obtain ⟨a, ha, rfl⟩ := List.mem_map.1 hc
  exact toLower_ne_nul a (h a (List.mem_filter.1 ha).1)

/-- `channel_normalize_name` on a block whose first byte outside the leading run lies before
a terminator. -/
theorem normalize_eq (upref A C D : List Char) (hA : ∀ a ∈ A, advances upref a)
    (hb : ∃ b C', C = b :: C' ∧ ¬ advances upref b) (hC : ∀ c ∈ C, c ≠ NUL) :
    channel_normalize_name upref (A ++ C ++ NUL :: D)
      = some (A ++ canon C ++ NUL :: (C ++ NUL :: D).drop ((canon C).length + 1)) := by
  obtain ⟨b, C', rfl, hb⟩ := hb
  unfold channel_normalize_name
  have hs : skip_lead upref (A ++ (b :: C') ++ NUL :: D) = some A.length := by
    rw [List.append_assoc, skip_lead_append upref A _ hA, List.cons_append,
      skip_lead_cons_stop upref b _ hb]
    simp
  rw [hs]
  simp only
  have hd : (A ++ (b :: C') ++ NUL :: D).drop A.length = (b :: C') ++ NUL :: D := by
    rw [List.append_assoc, List.drop_left]
  rw [hd, copy_kept_eq (b :: C') D hC]
  simp only
  have ht : (A ++ (b :: C') ++ NUL :: D).take A.length = A := by
    rw [List.append_assoc, List.take_left]
  have hd2 : (A ++ (b :: C') ++ NUL :: D).drop (A.length + (canon (b :: C')).length + 1)
      = ((b :: C') ++ NUL :: D).drop ((canon (b :: C')).length + 1) := by
    rw [List.append_assoc, Nat.add_assoc, ← List.drop_drop, List.drop_left]
  rw [ht, hd2]

theorem normalize_inv (upref m m1 : List Char) (h : channel_normalize_name upref m = some m1) :
    ∃ A C D, m = A ++ C ++ NUL :: D ∧ (∀ a ∈ A, advances upref a) ∧
      (∃ b C', C = b :: C' ∧ ¬ advances upref b) ∧ (∀ c ∈ C, c ≠ NUL) ∧
      m1 = A ++ canon C ++ NUL :: (C ++ NUL :: D).drop ((canon C).length + 1) := by
  unfold channel_normalize_name at h
  cases hk : skip_lead upref m with
  | none => simp [hk] at h
  | some k =>
    obtain ⟨A, b, R, h1, h2, h3, h4⟩ := skip_lead_inv upref m k hk
    simp only [hk] at h
    have hd : m.drop k = b :: R := by rw [h1, ← h4, List.drop_left]
    rw [hd] at h
    cases hc : copy_kept (b :: R) with
    | none => simp [hc] at h
    | some K =>
      obtain ⟨C, D, e1, e2, e3⟩ := copy_kept_inv (b :: R) K hc
      have hbn : b ≠ NUL := fun hb => h3 (hb ▸ advances_nul upref)
      have hC : ∃ b' C', C = b' :: C' ∧ ¬ advances upref b' := by
        cases C with
        | nil =>
          simp only [List.nil_append, List.cons.injEq] at e1
          exact absurd e1.1 hbn
        | cons c C' =>
          simp only [List.cons_append, List.cons.injEq] at e1
          exact ⟨c, C', rfl, e1.1 ▸ h3⟩
      have hm : m = A ++ C ++ NUL :: D := by rw [h1, e1, List.append_assoc]
      refine ⟨A, C, D, hm, h2, hC, e2, ?_⟩
      have := normalize_eq upref A C D h2 hC e2
      rw [← hm] at this
      unfold channel_normalize_name at this
      simp only [hk, hd, hc] at h this
      rw [← Option.some.inj h, Option.some.inj this]

/-! ## Normal forms -/

theorem noise_toLower (c : Char) : is_noise c.toLower = is_noise c := by
  rcases toLower_cases c with h | ⟨n, h1, h2, h3, h4⟩
  · rw [h]
  · rw [h4, h3]
    interval_cases n <;> decide

/-- A text on which the second loop of `channel_normalize_name` changes nothing. -/
theorem canon_fixed (K : List Char) (h : ∀ c ∈ K, is_noise c = false ∧ c.toLower = c) :
    canon K = K := by
  induction K with
  | nil => rfl
  | cons c K ih =>
    have hc := h c (List.mem_cons_self _ _)
    rw [canon_cons, hc.1, ih (fun x hx => h x (List.mem_cons_of_mem _ hx)), hc.2]
    simp

theorem canon_settled (r : List Char) : ∀ c ∈ canon r, is_noise c = false ∧ c.toLower = c := by
  intro c hc
  unfold canon at hc
  obtain ⟨a, ha, rfl⟩ := List.mem_map.1 hc
  have := (List.mem_filter.1 ha).2
  refine ⟨?_, toLower_idem a⟩
  rw [noise_toLower]
  simpa using this

theorem mem_canon (r : List Char) (s : Char) (hs : s ∈ r) (hn : is_noise s = false) :
    s.toLower ∈ canon r := by
  unfold canon
  exact List.mem_map.2 ⟨s, List.mem_filter.2 ⟨hs, by simp [hn]⟩, rfl⟩

/-- A list either consists of bytes the first loop advances over, or splits at the first
byte at which the loop stops. -/
theorem first_stop (upref : List Char) (m : List Char) :
    (∀ a ∈ m, advances upref a) ∨
      ∃ A b R, m = A ++ b :: R ∧ (∀ a ∈ A, advances upref a) ∧ ¬ advances upref b := by
  induction m with
  | nil => left; simp
  | cons c m ih =>
    by_cases hc : advances upref c
    · rcases ih with h | ⟨A, b, R, h1, h2, h3⟩
      · left
        intro a ha
        rcases List.mem_cons.1 ha with rfl | ha
        · exact hc
        · exact h a ha
      · right
        refine ⟨c :: A, b, R, by simp [h1], ?_, h3⟩
        intro a ha
        rcases List.mem_cons.1 ha with rfl | ha
        · exact hc
        · exact h2 a ha
    · right
      exact ⟨[], c, m, rfl, by simp, hc⟩

theorem nul_split (l : List Char) (h : NUL ∈ l) :
    ∃ C D, l = C ++ NUL :: D ∧ ∀ c ∈ C, c ≠ NUL := by
  induction l with
  | nil => simp at h
  | cons c l ih =>
    by_cases hc : c = NUL
    · exact ⟨[], l, by simp [hc], by simp⟩
    · have : NUL ∈ l := by
        rcases List.mem_cons.1 h with h | h
        · exact absurd h.symm hc
        · exact h
      obtain ⟨C, D, h1, h2⟩ := ih this
      refine ⟨c :: C, D, by simp [h1], ?_⟩
      intro x hx
      rcases List.mem_cons.1 hx with rfl | hx
      · exact hc
      · exact h2 x hx

/-- A block that holds a byte at which the first loop stops and that ends with a terminator
splits into leading run, name part and rest. -/
theorem block_split (upref m : List Char) (hs : ∃ s ∈ m, ¬ advances upref s)
    (hend : m.getLast? = some NUL) :
    ∃ A C D, m = A ++ C ++ NUL :: D ∧ (∀ a ∈ A, advances upref a) ∧
      (∃ b C', C = b :: C' ∧ ¬ advances upref b) ∧ (∀ c ∈ C, c ≠ NUL) := by
  rcases first_stop upref m with h | ⟨A, b, R, h1, h2, h3⟩
  · obtain ⟨s, hs1, hs2⟩ := hs
    exact absurd (h s hs1) hs2
  · have hbn : b ≠ NUL := fun hb => h3 (hb ▸ advances_nul upref)
    have hl : (b :: R).getLast? = some NUL := by
      rw [h1, List.getLast?_append_of_ne_nil _ (by simp)] at hend
      exact hend
    have hmem : NUL ∈ b :: R := List.mem_of_getLast?_eq_some hl
    obtain ⟨C, D, e1, e2⟩ := nul_split (b :: R) hmem
    refine ⟨A, C, D, by rw [h1, e1, List.append_assoc], h2, ?_, e2⟩
    cases C with
    | nil =>
      simp only [List.nil_append, List.cons.injEq] at e1
      exact absurd e1.1 hbn
    | cons c C' =>
      simp only [List.cons_append, List.cons.injEq] at e1
      exact ⟨c, C', rfl, e1.1 ▸ h3⟩

theorem ordinary_stops (upref : List Char) (s : Char) (h : ordinary upref s = true) :
    s ≠ NUL ∧ ¬ advances upref s ∧ is_noise s = false ∧ ¬ advances upref s.toLower := by
  unfold ordinary at h
  simp only [Bool.and_eq_true, Bool.not_eq_true', beq_eq_false_iff_ne, ne_eq] at h
  obtain ⟨⟨⟨h1, h2⟩, h3⟩, h4⟩ := h
  refine ⟨h1, ?_, h3, ?_⟩
  · rw [advances_iff upref s h1]
    simp [h2]
  · rw [advances_iff upref _ (toLower_ne_nul s h1)]
    simp [h4]

/-- Second application of `channel_normalize_name` to an already normalised block. -/
theorem normalize_twice (upref A C D : List Char) (hA : ∀ a ∈ A, advances upref a)
    (hC : ∀ c ∈ C, c ≠ NUL)
    (hord : ∃ s ∈ C ++ D, ordinary upref s = true)
    (hend : (A ++ C ++ NUL :: D).getLast? = some NUL) :
    ∃ m2, channel_normalize_name upref
        (A ++ canon C ++ NUL :: (C ++ NUL :: D).drop ((canon C).length + 1)) = some m2 ∧
      cstr m2 = cstr (A ++ canon C ++ NUL :: (C ++ NUL :: D).drop ((canon C).length + 1)) := by
  have hK := canon_settled C
  have hKn := canon_ne_nul C hC
  rcases first_stop upref (canon C) with hall | ⟨K1, s, K2, e, hK1, hs⟩
  · -- the normalised name part consists of leading characters: the loop runs on
    obtain ⟨s, hs1, hs2⟩ := hord
    obtain ⟨o1, o2, o3, o4⟩ := ordinary_stops upref s hs2
    have hsD : s ∈ D := by
      rcases List.mem_append.1 hs1 with h | h
      · exact absurd (hall _ (mem_canon C s h o3)) o4
      · exact h
    have hD' : (C ++ NUL :: D).drop ((canon C).length + 1)
        = (C ++ [NUL]).drop ((canon C).length + 1) ++ D := by
      have : C ++ NUL :: D = (C ++ [NUL]) ++ D := by simp
      rw [this, List.drop_append_of_le_length]
      have := canon_length_le C
      simp
      omega
    have hDne : D ≠ [] := List.ne_nil_of_mem hsD
    have hDlast : D.getLast? = some NUL := by
      have : A ++ C ++ NUL :: D = (A ++ C ++ [NUL]) ++ D := by simp
      rw [this, List.getLast?_append_of_ne_nil _ hDne] at hend
      exact hend
    obtain ⟨A3, C3, D3, e3, hA3, hb3, hC3⟩ := block_split upref
      ((C ++ NUL :: D).drop ((canon C).length + 1)) ⟨s, by rw [hD']; exact List.mem_append_right _ hsD, o2⟩
      (by rw [hD', List.getLast?_append_of_ne_nil _ hDne]; exact hDlast)
    have hlead : ∀ a ∈ A ++ canon C ++ NUL :: A3, advances upref a := by
      intro a ha
      rcases List.mem_append.1 ha with h | h
      · rcases List.mem_append.1 h with h | h
        · exact hA a h
        · exact hall a h
      · rcases List.mem_cons.1 h with rfl | h
        · exact advances_nul upref
        · exact hA3 a h
    have hm1 : A ++ canon C ++ NUL :: (C ++ NUL :: D).drop ((canon C).length + 1)
        = (A ++ canon C ++ NUL :: A3) ++ C3 ++ NUL :: D3 := by
      rw [e3]
      simp
    refine ⟨_, by rw [hm1]; exact normalize_eq upref _ C3 D3 hlead hb3 hC3, ?_⟩
    rw [hm1]
    have e4 : ∀ X : List Char, (A ++ canon C ++ NUL :: A3) ++ X = (A ++ canon C) ++ NUL :: (A3 ++ X) := by
      intro X
      simp
    rw [List.append_assoc (A ++ canon C ++ NUL :: A3), List.append_assoc (A ++ canon C ++ NUL :: A3),
      e4, e4]
    exact cstr_through_nul _ _ _
  · -- the normalised name part holds a byte at which the loop stops: nothing changes
    have hK2 : canon (s :: K2) = s :: K2 := by
      apply canon_fixed
      intro c hc
      exact hK c (by rw [e]; exact List.mem_append_right _ hc)
    have hlead : ∀ a ∈ A ++ K1, advances upref a := by
      intro a ha
      rcases List.mem_append.1 ha with h | h
      · exact hA a h
      · exact hK1 a h
    have hn : ∀ c ∈ s :: K2, c ≠ NUL := fun c hc => hKn c (by rw [e]; exact List.mem_append_right _ hc)
    have hm1 : A ++ canon C ++ NUL :: (C ++ NUL :: D).drop ((canon C).length + 1)
        = (A ++ K1) ++ (s :: K2) ++ NUL :: (C ++ NUL :: D).drop ((canon C).length + 1) := by
      rw [e]
      simp
    have := normalize_eq upref (A ++ K1) (s :: K2)
      ((C ++ NUL :: D).drop ((canon C).length + 1)) hlead ⟨s, K2, rfl, hs⟩ hn
    rw [hK2] at this
    have hdrop : ((s :: K2) ++ NUL :: (C ++ NUL :: D).drop ((canon C).length + 1)).drop
        ((s :: K2).length + 1) = (C ++ NUL :: D).drop ((canon C).length + 1) := by
      have : (s :: K2) ++ NUL :: (C ++ NUL :: D).drop ((canon C).length + 1)
          = ((s :: K2) ++ [NUL]) ++ (C ++ NUL :: D).drop ((canon C).length + 1) := by simp
      rw [this]
      exact List.drop_left' (by simp)
    rw [hdrop] at this
    exact ⟨_, by rw [hm1]; exact this, by rw [hm1]⟩

/-! ## Lemmas on records in lists -/

theorem modify_at_length {α : Type} (f : α → α) (i : Nat) (l : List α) :
    (modify_at f i l).length = l.length := by
  induction l generalizing i with
  | nil => cases i <;> rfl
  | cons x xs ih =>
    cases i with
    | zero => rfl
    | succ i => simp [modify_at, ih]

theorem get?_modify_at_eq {α : Type} (f : α → α) (i : Nat) (l : List α) :
    (modify_at f i l).get? i = (l.get? i).map f := by
  induction l generalizing i with
  | nil => cases i <;> rfl
  | cons x xs ih =>
    cases i with
    | zero => rfl
    | succ i => simpa [modify_at] using ih i

theorem get?_modify_at_ne {α : Type} (f : α → α) (i j : Nat) (l : List α) (h : j ≠ i) :
    (modify_at f i l).get? j = l.get? j := by
  induction l generalizing i j with
  | nil => cases i <;> rfl
  | cons x xs ih =>
    cases i with
    | zero =>
      cases j with
      | zero => exact absurd rfl h
      | succ j => rfl
    | succ i =>
      cases j with
      | zero => rfl
      | succ j => simpa [modify_at] using ih i j (fun e => h (by rw [e]))

theorem modify_at_modify_at {α : Type} (f g : α → α) (i : Nat) (l : List α) :
    modify_at g i (modify_at f i l) = modify_at (fun x => g (f x)) i l := by
  induction l generalizing i with
  | nil => cases i <;> rfl
  | cons x xs ih =>
    cases i with
    | zero => rfl
    | succ i => simp [modify_at, ih]

theorem modify_at_fixed {α : Type} (f : α → α) (i : Nat) (l : List α)
    (h : ∀ x, l.get? i = some x → f x = x) : modify_at f i l = l := by
  induction l generalizing i with
  | nil => cases i <;> rfl
  | cons x xs ih =>
    cases i with
    | zero => simp [modify_at, h x rfl]
    | succ i =>
      simp only [modify_at, List.cons.injEq, true_and]
      exact ih i (fun y hy => h y (by simpa using hy))

theorem modify_at_congr {α : Type} (f g : α → α) (i : Nat) (l : List α)
    (h : ∀ x, l.get? i = some x → f x = g x) : modify_at f i l = modify_at g i l := by
  induction l generalizing i with
  | nil => cases i <;> rfl
  | cons x xs ih =>
    cases i with
    | zero => simp [modify_at, h x rfl]
    | succ i =>
      simp only [modify_at, List.cons.injEq, true_and]
      exact ih i (fun y hy => h y (by simpa using hy))

theorem name_find_modify_at (t : List Char) (f : Nick → Nick) (hf : ∀ n, (f n).name = n.name)
    (j : Nat) (l : List Nick) : name_find t (modify_at f j l) = name_find t l := by
  induction l generalizing j with
  | nil => cases j <;> rfl
  | cons x xs ih =>
    cases j with
    | zero => simp [modify_at, name_find, hf]
    | succ j => simp [modify_at, name_find, ih]

theorem find_name_modify_at (t : List Char) (f : Channel → Channel)
    (hf : ∀ c, (f c).name = c.name) (j : Nat) (l : List Channel) :
    find_name t (modify_at f j l) = find_name t l := by
  induction l generalizing j with
  | nil => cases j <;> rfl
  | cons x xs ih =>
    cases j with
    | zero => simp [modify_at, find_name, hf]
    | succ j => simp [modify_at, find_name, ih]

theorem name_find_lt (t : List Char) (l : List Nick) (j : Nat) (h : name_find t l = some j) :
    j < l.length := by
  induction l generalizing j with
  | nil => simp [name_find] at h
  | cons x xs ih =>
    rw [name_find] at h
    by_cases hx : t = x.name
    · simp only [hx, if_true, Option.some.injEq] at h
      rw [← h]
      simp
    · simp only [hx, if_false] at h
      cases hk : name_find t xs with
      | none => simp [hk] at h
      | some k =>
        simp only [hk, Option.map_some', Option.some.injEq] at h
        have := ih k hk
        rw [← h]
        simp
        omega

theorem name_find_append (t : List Char) (pre post : List Nick) (a : Nick)
    (hpre : name_find t pre = none) (ha : t = a.name) :
    name_find t (pre ++ a :: post) = some pre.length := by
  induction pre with
  | nil => simp [name_find, ha]
  | cons x xs ih =>
    rw [name_find] at hpre
    by_cases hx : t = x.name
    · simp [hx] at hpre
    · simp only [hx, if_false, Option.map_eq_none'] at hpre
      simp [name_find, hx, ih hpre]

theorem modify_at_append {α : Type} (f : α → α) (pre post : List α) (a : α) :
    modify_at f pre.length (pre ++ a :: post) = pre ++ f a :: post := by
  induction pre with
  | nil => rfl
  | cons x xs ih => simp [modify_at, ih]

/-! ## One step of the loop of `name_mode` -/

theorem loop_plus (cm um up : List Char) (c1 c2 c3 : Nat) (ms : List Char) (w : ModeWalk) :
    name_mode_loop cm um up c1 c2 c3 ('+' :: ms) w
      = name_mode_loop cm um up c1 c2 c3 ms { w with adding := true } := by
  rw [name_mode_loop]
  simp

theorem loop_minus (cm um up : List Char) (c1 c2 c3 : Nat) (ms : List Char) (w : ModeWalk) :
    name_mode_loop cm um up c1 c2 c3 ('-' :: ms) w
      = name_mode_loop cm um up c1 c2 c3 ms { w with adding := false } := by
  rw [name_mode_loop]
  simp

/-- A declared channel-mode letter: the argument pointer moves on according to the group
that `ptr_split` computes. -/
theorem loop_cmode (cm um up : List Char) (c1 c2 c3 : Nat) (x : Char) (ms : List Char)
    (w : ModeWalk) (s : Nat) (hplus : x ≠ '+') (hminus : x ≠ '-')
    (hs : strchr cm x = some s) (hx : x ≠ ',') :
    name_mode_loop cm um up c1 c2 c3 (x :: ms) w
      = name_mode_loop cm um up c1 c2 c3 ms
          (if ptr_split s c1 c2 c3 = 1 ∨ ptr_split s c1 c2 c3 = 2
              ∨ (ptr_split s c1 c2 c3 = 3 ∧ w.adding = true)
            then strtok_next w else w) := by
  rw [name_mode_loop]
  simp only [hplus, hminus, if_false, hs, hx, ne_eq, not_false_eq_true, decide_True]
  split
  · simp_all
  · simp_all
  · rename_i h3
    by_cases ha : w.adding = true
    · simp [ha, h3]
    · simp [ha, h3]
  · rename_i h1 h2 h3
    have : ¬ (ptr_split s c1 c2 c3 = 1 ∨ ptr_split s c1 c2 c3 = 2
        ∨ (ptr_split s c1 c2 c3 = 3 ∧ w.adding = true)) := by
      rintro (h | h | h)
      · exact h1 h
      · exact h2 h
      · exact h3 h.1
    simp [this]

/-- A prefix-mode letter with the argument pointer at a nick of the roster. -/
theorem loop_prefix_found (cm um up : List Char) (c1 c2 c3 : Nat) (x : Char) (ms : List Char)
    (w : ModeWalk) (t : List Char) (j s : Nat) (hplus : x ≠ '+') (hminus : x ≠ '-')
    (hcm : ¬ ((strchr cm x).isSome = true ∧ x ≠ ','))
    (hum : strchr um x = some s) (hp : w.p = some t) (hj : name_find t w.nicks = some j) :
    name_mode_loop cm um up c1 c2 c3 (x :: ms) w
      = name_mode_loop cm um up c1 c2 c3 ms
          (strtok_next { w with nicks := modify_at (set_mode_pfx w.adding (up.getD s NUL)) j w.nicks }) := by
  rw [name_mode_loop]
  simp only [hplus, hminus, if_false]
  split
  · rename_i s' h1 h2
    exact absurd ⟨by simp [h1], by simpa using h2⟩ hcm
  · simp only [hum, hp, hj]

/-- A prefix-mode letter with the argument pointer at a token that names no nick of the
roster. -/
theorem loop_prefix_absent (cm um up : List Char) (c1 c2 c3 : Nat) (x : Char) (ms : List Char)
    (w : ModeWalk) (t : List Char) (s : Nat) (hplus : x ≠ '+') (hminus : x ≠ '-')
    (hcm : ¬ ((strchr cm x).isSome = true ∧ x ≠ ','))
    (hum : strchr um x = some s) (hp : w.p = some t) (hj : name_find t w.nicks = none) :
    name_mode_loop cm um up c1 c2 c3 (x :: ms) w
      = name_mode_loop cm um up c1 c2 c3 ms (strtok_next w) := by
  rw [name_mode_loop]
  simp only [hplus, hminus, if_false]
  split
  · rename_i s' h1 h2
    exact absurd ⟨by simp [h1], by simpa using h2⟩ hcm
  · simp only [hum, hp, hj]

/-- A prefix-mode letter with no argument left: the walk ends. -/
theorem loop_prefix_exhausted (cm um up : List Char) (c1 c2 c3 : Nat) (x : Char) (ms : List Char)
    (w : ModeWalk) (s : Nat) (hplus : x ≠ '+') (hminus : x ≠ '-')
    (hcm : ¬ ((strchr cm x).isSome = true ∧ x ≠ ','))
    (hum : strchr um x = some s) (hp : w.p = none) :
    name_mode_loop cm um up c1 c2 c3 (x :: ms) w = w := by
  rw [name_mode_loop]
  simp only [hplus, hminus, if_false]
  split
  · rename_i s' h1 h2
    exact absurd ⟨by simp [h1], by simpa using h2⟩ hcm
  · simp only [hum, hp]

/-- A letter that is neither declared as channel mode nor as prefix mode. -/
theorem loop_unknown (cm um up : List Char) (c1 c2 c3 : Nat) (x : Char) (ms : List Char)
    (w : ModeWalk) (hplus : x ≠ '+') (hminus : x ≠ '-')
    (hcm : ¬ ((strchr cm x).isSome = true ∧ x ≠ ','))
    (hum : strchr um x = none) :
    name_mode_loop cm um up c1 c2 c3 (x :: ms) w = name_mode_loop cm um up c1 c2 c3 ms w := by
  rw [name_mode_loop]
  simp only [hplus, hminus, if_false]
  split
  · rename_i s' h1 h2
    exact absurd ⟨by simp [h1], by simpa using h2⟩ hcm
  · simp only [hum]

/-! ## The assignment to a roster entry -/

theorem set_mode_pfx_name (a : Bool) (pc : Char) (n : Nick) : (set_mode_pfx a pc n).name = n.name := by
  unfold set_mode_pfx
  split
  · rfl
  · split <;> rfl

theorem set_mode_pfx_pfx (a : Bool) (pc : Char) (n : Nick) :
    (set_mode_pfx a pc n).pfx
      = if a = true then (if n.pfx = NUL then pc else n.pfx)
        else (if n.pfx = pc then NUL else n.pfx) := by
  cases n with
  | mk nm pf =>
    unfold set_mode_pfx
    cases a
    · simp only [Bool.false_eq_true, false_and, if_false, not_false_eq_true, true_and]
      split_ifs <;> rfl
    · simp only [true_and, not_true_eq_false, false_and, if_false, if_true]
      split_ifs <;> rfl

theorem set_mode_pfx_noop (pc : Char) (n : Nick) (h : n.pfx = NUL) :
    set_mode_pfx false pc n = n := by
  have h1 := set_mode_pfx_name false pc n
  have h2 := set_mode_pfx_pfx false pc n
  cases hr : set_mode_pfx false pc n with
  | mk a b =>
    cases n with
    | mk nm pf =>
      rw [hr] at h1 h2
      simp only at h1 h2 h
      subst h
      rw [h1, h2]
      by_cases hp : NUL = pc
      · rw [if_neg (by decide), if_pos hp]
      · rw [if_neg (by decide), if_neg hp]

/-! ## Comma delimiters of `cmodes` -/

theorem strchr_cons_self (c : Char) (l : List Char) : strchr (c :: l) c = some 0 := by
  simp [strchr]

theorem strchr_append_of_not_mem (a b : List Char) (c : Char) (hc : c ∉ a)
    (hn : ∀ x ∈ a, x ≠ NUL) : strchr (a ++ b) c = (strchr b c).map (fun i => i + a.length) := by
  induction a with
  | nil => cases h : strchr b c <;> simp [h]
  | cons x xs ih =>
    have hx : x ≠ c := fun h => hc (by simp [h])
    have hxn : x ≠ NUL := hn x (List.mem_cons_self _ _)
    rw [List.cons_append, strchr]
    simp only [hx, hxn, if_false]
    rw [ih (fun h => hc (List.mem_cons_of_mem _ h)) (fun y hy => hn y (List.mem_cons_of_mem _ hy))]
    cases strchr b c <;> simp [Nat.add_assoc]

theorem strchr_of_mem (a b : List Char) (c : Char) (hc : c ∈ a) (hn : ∀ x ∈ a, x ≠ NUL) :
    ∃ i, i < a.length ∧ strchr (a ++ b) c = some i := by
  induction a with
  | nil => simp at hc
  | cons x xs ih =>
    by_cases hx : x = c
    · exact ⟨0, by simp, by simp [hx, strchr]⟩
    · have hxn : x ≠ NUL := hn x (List.mem_cons_self _ _)
      have hc' : c ∈ xs := by
        rcases List.mem_cons.1 hc with h | h
        · exact absurd h.symm hx
        · exact h
      obtain ⟨i, hi, e⟩ := ih hc' (fun y hy => hn y (List.mem_cons_of_mem _ hy))
      refine ⟨i + 1, by simp; omega, ?_⟩
      rw [List.cons_append, strchr]
      simp [hx, hxn, e]

theorem strchr_none_of_not_mem (l : List Char) (c : Char) (hc : c ∉ l) (hcn : c ≠ NUL)
    (hn : ∀ x ∈ l, x ≠ NUL) : strchr l c = none := by
  have := strchr_append_of_not_mem l [] c hc hn
  simpa [strchr, hcn] using this

theorem strchr_isSome_of_nul_free (l : List Char) (c : Char) (hcn : c ≠ NUL)
    (hn : ∀ x ∈ l, x ≠ NUL) : (strchr l c).isSome = true ↔ c ∈ l := by
  rw [strchr_isSome_iff l c hcn, cstr_eq_self hn]

/-- The three `strchr` calls of lines 545-547 on a mode string with three commas. -/
theorem commas_found (g1 g2 g3 g4 : List Char)
    (h1 : ',' ∉ g1) (h2 : ',' ∉ g2) (h3 : ',' ∉ g3)
    (hn : ∀ x ∈ g1 ++ ',' :: (g2 ++ ',' :: (g3 ++ ',' :: g4)), x ≠ NUL) :
    strchr (g1 ++ ',' :: (g2 ++ ',' :: (g3 ++ ',' :: g4))) ',' = some g1.length ∧
    strchr ((g1 ++ ',' :: (g2 ++ ',' :: (g3 ++ ',' :: g4))).drop (g1.length + 1)) ','
      = some g2.length ∧
    strchr ((g1 ++ ',' :: (g2 ++ ',' :: (g3 ++ ',' :: g4))).drop
      (g1.length + 1 + g2.length + 1)) ',' = some g3.length := by
  have n1 : ∀ x ∈ g1, x ≠ NUL := fun x hx => hn x (List.mem_append_left _ hx)
  have n2 : ∀ x ∈ g2, x ≠ NUL := fun x hx =>
    hn x (List.mem_append_right _ (List.mem_cons_of_mem _ (List.mem_append_left _ hx)))
  have n3 : ∀ x ∈ g3, x ≠ NUL := fun x hx =>
    hn x (List.mem_append_right _ (List.mem_cons_of_mem _ (List.mem_append_right _
      (List.mem_cons_of_mem _ (List.mem_append_left _ hx)))))
  have d1 : (g1 ++ ',' :: (g2 ++ ',' :: (g3 ++ ',' :: g4))).drop (g1.length + 1)
      = g2 ++ ',' :: (g3 ++ ',' :: g4) := by
    have : g1 ++ ',' :: (g2 ++ ',' :: (g3 ++ ',' :: g4))
        = (g1 ++ [',']) ++ (g2 ++ ',' :: (g3 ++ ',' :: g4)) := by simp
    rw [this]
    exact List.drop_left' (by simp)
  have d2 : (g1 ++ ',' :: (g2 ++ ',' :: (g3 ++ ',' :: g4))).drop (g1.length + 1 + g2.length + 1)
      = g3 ++ ',' :: g4 := by
    have : g1 ++ ',' :: (g2 ++ ',' :: (g3 ++ ',' :: g4))
        = (g1 ++ ',' :: (g2 ++ [','])) ++ (g3 ++ ',' :: g4) := by simp
    rw [this]
    exact List.drop_left' (by simp; omega)
  refine ⟨?_, ?_, ?_⟩
  · rw [strchr_append_of_not_mem g1 _ ',' h1 n1, strchr_cons_self]
    simp
  · rw [d1, strchr_append_of_not_mem g2 _ ',' h2 n2, strchr_cons_self]
    simp
  · rw [d2, strchr_append_of_not_mem g3 _ ',' h3 n3, strchr_cons_self]
    simp

theorem comma_split (l : List Char) (h : 0 < l.count ',') :
    ∃ g r, l = g ++ ',' :: r ∧ ',' ∉ g ∧ r.count ',' = l.count ',' - 1 := by
  induction l with
  | nil => simp at h
  | cons c l ih =>
    by_cases hc : c = ','
    · exact ⟨[], l, by simp [hc], by simp, by simp [hc]⟩
    · have hcount : (c :: l).count ',' = l.count ',' := by
        rw [List.count_cons]
        simp [hc]
      rw [hcount] at h
      obtain ⟨g, r, e1, e2, e3⟩ := ih h
      refine ⟨c :: g, r, by simp [e1], ?_, by rw [hcount]; exact e3⟩
      intro hm
      rcases List.mem_cons.1 hm with h' | h'
      · exact hc h'.symm
      · exact e2 h'

theorem three_commas_split (l : List Char) (h : 3 ≤ l.count ',') :
    ∃ g1 g2 g3 g4, l = g1 ++ ',' :: (g2 ++ ',' :: (g3 ++ ',' :: g4)) ∧
      ',' ∉ g1 ∧ ',' ∉ g2 ∧ ',' ∉ g3 := by
  obtain ⟨g1, r1, e1, m1, k1⟩ := comma_split l (by omega)
  obtain ⟨g2, r2, e2, m2, k2⟩ := comma_split r1 (by omega)
  obtain ⟨g3, r3, e3, m3, _⟩ := comma_split r2 (by omega)
  exact ⟨g1, g2, g3, r3, by rw [e1, e2, e3], m1, m2, m3⟩

/-- `mode_walk` on a mode string with three commas and at least one argument token. -/
theorem mode_walk_eq (g1 g2 g3 g4 um up mode args : List Char) (nicks : List Nick)
    (t : List Char) (ts : List (List Char))
    (h1 : ',' ∉ g1) (h2 : ',' ∉ g2) (h3 : ',' ∉ g3)
    (hn : ∀ x ∈ g1 ++ ',' :: (g2 ++ ',' :: (g3 ++ ',' :: g4)), x ≠ NUL)
    (ht : strtok_all ' ' [] args = t :: ts) :
    mode_walk (g1 ++ ',' :: (g2 ++ ',' :: (g3 ++ ',' :: g4))) um up mode args nicks
      = .ok (name_mode_loop (g1 ++ ',' :: (g2 ++ ',' :: (g3 ++ ',' :: g4))) um up
          g1.length (g1.length + 1 + g2.length) (g1.length + 1 + g2.length + 1 + g3.length) mode
          { adding := true, p := some t, rest := ts, nicks := nicks }) := by
  obtain ⟨e1, e2, e3⟩ := commas_found g1 g2 g3 g4 h1 h2 h3 hn
  unfold mode_walk
  rw [ht]
  simp only [e1, e2, e3]

theorem strtok_all_plain (d : Char) (s acc : List Char) (hs : ∀ c ∈ s, c ≠ d) :
    strtok_all d acc s = if acc ++ s = [] then [] else [acc ++ s] := by
  induction s generalizing acc with
  | nil => simp [strtok_all]
  | cons c s ih =>
    have hc : c ≠ d := hs c (List.mem_cons_self _ _)
    rw [strtok_all]
    simp only [hc, if_false]
    rw [ih (acc ++ [c]) (fun x hx => hs x (List.mem_cons_of_mem _ hx))]
    simp

/-- `name_mode` with the channel found and the walk carried out. -/
theorem name_mode_eq (st : State) (chan md a : List Char) (i : Nat) (c : Channel) (w : ModeWalk)
    (hfind : channel_find st chan = .ok (some i)) (hc : st.channels.get? i = some c)
    (hw : mode_walk st.cmodes st.umodes st.upref md a c.nicks = .ok w) :
    name_mode st (some chan) (some md) (some a) = .ok (set_roster st i w.nicks) := by
  unfold name_mode
  simp only [hfind, hc, hw]

/-! ## The argument field holds no space -/

theorem tok_set (res : Tokens) (i j : Nat) (v : Option (List Char)) :
    tok (res.set i v) j = if i = j ∧ i < res.length then v else tok res j := by
  unfold tok
  rw [List.getD_eq_getElem?_getD, List.getD_eq_getElem?_getD, List.getElem?_set]
  by_cases h : i = j
  · subst h
    by_cases h2 : i < res.length
    · simp [h2]
    · have : res[i]? = none := List.getElem?_eq_none (by omega)
      simp [h2, this]
  · simp [h]

/-- Every field that the loop of `tokenize` stores below `TOK_TEXT - TOK_CMD` is free of
spaces. -/
theorem fields_space_free (n : List Char) :
    ∀ (i : Nat) (res : Tokens) (p : List Char),
      (i < textoffset → ∀ c ∈ p, c ≠ ' ') →
      (∀ j, j < textoffset → ∀ a, tok res j = some a → ∀ c ∈ a, c ≠ ' ') →
      ∀ j, j < textoffset → ∀ a, tok (tokenize_loop i res p n) j = some a → ∀ c ∈ a, c ≠ ' ' := by
  induction n with
  | nil =>
    intro i res p hp hres j hj a ha
    rw [tokenize_loop] at ha
    split_ifs at ha with h
    · rw [tok_set] at ha
      split_ifs at ha with h2
      · cases ha
        exact hp (by rw [h2.1]; exact hj)
      · exact hres j hj a ha
    · exact hres j hj a ha
  | cons c n ih =>
    intro i res p hp hres j hj a ha
    by_cases hc : c = ' '
    · subst hc
      by_cases hi : i < textoffset
      · have hset : ∀ j, j < textoffset → ∀ a, tok (res.set i (some p)) j = some a →
            ∀ c ∈ a, c ≠ ' ' := by
          intro j' hj' a' ha'
          rw [tok_set] at ha'
          split_ifs at ha' with h2
          · cases ha'
            exact hp hi
          · exact hres j' hj' a' ha'
        by_cases hcol : ∃ d t, n = ':' :: d :: t
        · obtain ⟨d, t, rfl⟩ := hcol
          rw [tokenize_loop_delim_colon i hi] at ha
          rw [tok_set] at ha
          split_ifs at ha with h2
          · exact absurd h2.1 (by omega)
          · exact hset j hj a ha
        · rw [tokenize_loop_delim i hi res p n (fun d t h => hcol ⟨d, t, h⟩)] at ha
          exact ih (i + 1) _ [] (fun _ => by simp) hset j hj a ha
      · -- the field budget is used up: nothing below `textoffset` is stored any more
        have hnot : ¬ (i + 0 < textoffset) := by simpa using hi
        by_cases hr : i ≥ reslen
        · by_cases hcol : ∃ d t, n = ':' :: d :: t
          · obtain ⟨d, t, rfl⟩ := hcol
            rw [tokenize_loop] at ha
            simp only [hr, if_true] at ha
            exact hres j hj a ha
          · rw [tokenize_loop] at ha
            · simp only [hr, if_true] at ha
              exact hres j hj a ha
            · exact fun d t h => hcol ⟨d, t, h⟩
        · have hi3 : i = textoffset := by
            unfold reslen TOK_LAST TOK_CMD at hr
            unfold textoffset TOK_TEXT TOK_CMD at hi ⊢
            omega
          subst hi3
          rw [tokenize_loop_tail res p (' ' :: n) (by simp), tok_set] at ha
          split_ifs at ha with h2
          · exact absurd h2.1 (by omega)
          · exact hres j hj a ha
    · by_cases hr : i < reslen
      · rw [tokenize_loop_other i hr res p c hc n] at ha
        refine ih i res (p ++ [c]) ?_ hres j hj a ha
        intro hi x hx
        rcases List.mem_append.1 hx with h | h
        · exact hp hi x h
        · rw [List.mem_singleton.1 h]
          exact hc
      · have hr' : i ≥ reslen := by omega
        by_cases hcol : ∃ d t, n = ':' :: d :: t
        · obtain ⟨d, t, rfl⟩ := hcol
          rw [tokenize_loop] at ha
          simp only [hr', if_true] at ha
          exact hres j hj a ha
        · rw [tokenize_loop] at ha
          · simp only [hr', if_true] at ha
            exact hres j hj a ha
          · exact fun d t h => hcol ⟨d, t, h⟩

theorem tok_replicate_none (k j : Nat) : tok (List.replicate k none) j = none := by
  unfold tok
  rw [List.getD_eq_getElem?_getD]
  by_cases h : j < k
  · simp [h]
  · simp [h]

/-- The argument field of a tokenised line holds no space. -/
theorem arg_field_space_free (line a : List Char)
    (h : tok (tokenize line) (TOK_ARG - TOK_CMD) = some a) : ∀ c ∈ a, c ≠ ' ' := by
  unfold tokenize at h
  exact fields_space_free _ 0 _ [] (fun _ => by simp)
    (fun j _ a' ha' => by rw [tok_replicate_none] at ha'; cases ha')
    (TOK_ARG - TOK_CMD) (by decide) a h

/-- A 353 line never reaches `proc_names`: with an argument field the dispatch returns at
line 983 with the state unchanged (the field holds one token at most), without one the
first `strtok` is handed `NULL`. -/
theorem names_reply_ignored (env : Env) (st : State) (nicksrv user : Option (List Char))
    (line : List Char) (h : tok (tokenize line) 0 = some "353".toList) :
    dispatch env st nicksrv user (tokenize line) = .ok st ∨
    dispatch env st nicksrv user (tokenize line) = .error .undef := by
  unfold dispatch
  have e1 : ¬ ("353".toList = "PONG".toList) := by decide
  have e2 : ¬ ("353".toList = "PING".toList) := by decide
  simp only [h, e1, e2, if_false, if_true]
  cases ha : tok (tokenize line) (TOK_ARG - TOK_CMD) with
  | none => right; rfl
  | some a =>
    left
    simp only
    rw [strtok_all_plain ' ' a [] (arg_field_space_free line a ha)]
    split_ifs <;> rfl

/-! ## C1: the 353 reply -/

set_option maxRecDepth 100000 in
/-- C1 (code defect): with the default prefix table, tracking enabled and `#chat` in the
directory with an empty roster, `proc_server_cmd` on the line
`:irc.example 353 me = #chat :@alice +bob carol` changes nothing: the tokenizer stores `=`
as the argument field and `#chat :@alice +bob carol` as the text field, the second `strtok`
on the argument field yields `NULL`, and the function returns at line 983 before
`proc_names`. `proc_names` itself, handed the channel and the names, builds the roster the
claim describes. -/
theorem c1_names_reply_not_registered :
    chat_session.channels.map (fun c => (c.name, c.nicks)) = [("#chat".toList, []), ([], [])] ∧
    chat_session.trackprefix = true ∧ cstr chat_session.upref = "~&@%+".toList ∧
    tokenize "353 me = #chat :@alice +bob carol".toList
      = [some "353".toList, some "me".toList, some "=".toList,
         some "#chat :@alice +bob carol".toList] ∧
    proc_server_cmd std_env chat_session ":irc.example 353 me = #chat :@alice +bob carol".toList
      = .ok chat_session ∧
    (proc_names chat_session "#chat".toList (some "@alice +bob carol".toList) []).map
        (fun st => st.channels.map (fun c => (c.name, c.nicks)))
      = .ok [("#chat".toList, [⟨"carol".toList, NUL⟩, ⟨"bob".toList, '+'⟩, ⟨"alice".toList, '@'⟩]),
             ([], [])] := by
  decide

/-! ## C2: trailing text -/

set_option maxRecDepth 100000 in
/-- C2 (counterexample): in `USER guest 0 * :Real Name` the token `:Real Name` follows a
space and has text behind its colon, yet the text field is `* :Real Name`: four fields
precede the colon and the field budget ends the splitting behind the third. -/
theorem c2_counterexample :
    tok (tokenize "USER guest 0 * :Real Name".toList) (TOK_TEXT - TOK_CMD)
      = some "* :Real Name".toList ∧
    tok (tokenize "USER guest 0 * :Real Name".toList) (TOK_TEXT - TOK_CMD)
      ≠ some "Real Name".toList := by
  decide

/-- C2 (amended): for every line made of optional leading spaces, a non-empty first field
and at most two further fields, each ended by one space and none of the further ones
beginning with a colon, followed by a colon and at least one more character, the text field
produced by `tokenize` is exactly the text behind that colon, interior spaces included. -/
theorem c2_trailing_text_within_budget (k : Nat) (f1 : List Char) (fs : List (List Char))
    (d : Char) (t : List Char)
    (h1 : f1 ≠ []) (hs1 : ∀ c ∈ f1, c ≠ ' ') (hlen : fs.length ≤ 2)
    (hfs : ∀ g ∈ fs, (∀ c ∈ g, c ≠ ' ') ∧ g.head? ≠ some ':')
    (hnul : ∀ c ∈ f1 ++ ' ' :: ((fs.map (fun g => g ++ [' '])).flatten ++ ':' :: d :: t), c ≠ NUL) :
    tok (tokenize (List.replicate k ' '
        ++ (f1 ++ ' ' :: ((fs.map (fun g => g ++ [' '])).flatten ++ ':' :: d :: t))))
      (TOK_TEXT - TOK_CMD) = some (d :: t) := by
  have hhead : (f1 ++ ' ' :: ((fs.map (fun g => g ++ [' '])).flatten ++ ':' :: d :: t)).head?
      ≠ some ' ' := by
    cases f1 with
    | nil => exact absurd rfl h1
    | cons c f =>
      have := hs1 c (List.mem_cons_self _ _)
      simpa using this
  rw [tokenize_line k _ hhead hnul]
  exact fields_then_colon d t fs 0 _ [] f1
    (by simp only [textoffset, TOK_TEXT, TOK_CMD]; omega) (by simp) hs1 hfs

set_option maxRecDepth 100000 in
/-- C2 (witness): the amended statement at ` PRIVMSG #chat :hi there`. -/
theorem c2_trailing_text_witness :
    tok (tokenize (List.replicate 1 ' '
        ++ ("PRIVMSG".toList ++ ' ' :: ((["#chat".toList].map (fun g => g ++ [' '])).flatten
          ++ ':' :: 'h' :: "i there".toList))))
      (TOK_TEXT - TOK_CMD) = some ('h' :: "i there".toList) :=
  c2_trailing_text_within_budget 1 "PRIVMSG".toList ["#chat".toList] 'h' "i there".toList
    (by decide) (by decide) (by decide) (by decide) (by decide)

/-! ## C3: numeric replies -/

set_option maxRecDepth 100000 in
/-- C3 (counterexample): the first field of `353 me = #chat :@alice +bob carol` parses as
the positive integer 353, yet `tokenize` goes on splitting: `me` and `=` become fields of
their own, and only what follows them is returned whole. -/
theorem c3_counterexample :
    strtol "353".toList > 0 ∧
    tokenize "353 me = #chat :@alice +bob carol".toList
      = [some "353".toList, some "me".toList, some "=".toList,
         some "#chat :@alice +bob carol".toList] ∧
    tokenize "353 me = #chat :@alice +bob carol".toList
      ≠ [some "353".toList, some "me = #chat :@alice +bob carol".toList, none, none] := by
  decide

/-- C3 (amended): for every line whose first field parses as a positive decimal integer and
is followed by two more space-ended fields (neither beginning with a colon) and a non-empty
remainder that does not begin with a colon, `tokenize` returns the integer as command
field, the two fields as channel and argument fields, and the entire remainder as the one
text field, interior spaces included. -/
theorem c3_numeric_line_fields (f1 f2 f3 rest : List Char)
    (h1 : f1 ≠ []) (hnum : strtol f1 > 0)
    (hs1 : ∀ c ∈ f1, c ≠ ' ') (hs2 : ∀ c ∈ f2, c ≠ ' ') (hs3 : ∀ c ∈ f3, c ≠ ' ')
    (hc2 : f2.head? ≠ some ':') (hc3 : f3.head? ≠ some ':')
    (hr : rest ≠ []) (hcr : rest.head? ≠ some ':')
    (hnul : ∀ c ∈ f1 ++ ' ' :: (f2 ++ ' ' :: (f3 ++ ' ' :: rest)), c ≠ NUL) :
    tokenize (f1 ++ ' ' :: (f2 ++ ' ' :: (f3 ++ ' ' :: rest)))
      = [some f1, some f2, some f3, some rest] := by
  have hhead : (f1 ++ ' ' :: (f2 ++ ' ' :: (f3 ++ ' ' :: rest))).head? ≠ some ' ' := by
    cases f1 with
    | nil => exact absurd rfl h1
    | cons c f =>
      have := hs1 c (List.mem_cons_self _ _)
      simpa using this
  have hrest : ∀ d t, rest ≠ ':' :: d :: t := by
    intro d t h
    exact hcr (by simp [h])
  have e := tokenize_line 0 _ hhead hnul
  simp only [List.replicate_zero, List.nil_append] at e
  rw [e, tokenize_loop_field f1 hs1 0 (by decide) _ [] _ (not_colon_form f2 _ hc2),
    tokenize_loop_field f2 hs2 1 (by decide) _ [] _ (not_colon_form f3 _ hc3),
    tokenize_loop_field f3 hs3 2 (by decide) _ [] _ hrest]
  have := tokenize_loop_tail
    ((((List.replicate reslen none).set 0 (some ([] ++ f1))).set 1 (some ([] ++ f2))).set 2
      (some ([] ++ f3))) [] rest (by simpa using hr)
  simp only [textoffset, TOK_TEXT, TOK_CMD] at this
  rw [this]
  simp [reslen, TOK_LAST, TOK_CMD, List.replicate]

set_option maxRecDepth 100000 in
/-- C3 (witness): the amended statement at `353 me = #chat :@alice +bob carol`. -/
theorem c3_numeric_line_witness :
    tokenize ("353".toList ++ ' ' :: ("me".toList ++ ' ' :: ("=".toList ++ ' '
        :: "#chat :@alice +bob carol".toList)))
      = [some "353".toList, some "me".toList, some "=".toList,
         some "#chat :@alice +bob carol".toList] :=
  c3_numeric_line_fields "353".toList "me".toList "=".toList "#chat :@alice +bob carol".toList
    (by decide) (by decide) (by decide) (by decide) (by decide) (by decide) (by decide)
    (by decide) (by decide) (by decide)

/-! ## C4: the normal form -/

theorem dropWhile_head_not {p : Char → Bool} (l : List Char) (b : Char) (r : List Char)
    (h : l.dropWhile p = b :: r) : p b = false := by
  induction l with
  | nil => simp at h
  | cons c l ih =>
    by_cases hc : p c = true
    · rw [List.dropWhile_cons, if_pos hc] at h
      exact ih h
    · rw [List.dropWhile_cons, if_neg hc] at h
      simp only [List.cons.injEq] at h
      rw [← h.1]
      simpa using hc

/-- A name that reaches behind its leading run, as a block: leading run, name part. -/
theorem name_split (upref x : List Char) (hx : ∀ c ∈ x, c ≠ NUL)
    (hr : x.dropWhile (is_lead upref) ≠ []) :
    (∀ a ∈ x.takeWhile (is_lead upref), advances upref a) ∧
    (∃ b C', x.dropWhile (is_lead upref) = b :: C' ∧ ¬ advances upref b) ∧
    (∀ c ∈ x.dropWhile (is_lead upref), c ≠ NUL) := by
  have hmemd : ∀ c ∈ x.dropWhile (is_lead upref), c ∈ x := fun c hc =>
    (List.dropWhile_sublist _).subset hc
  refine ⟨?_, ?_, fun c hc => hx c (hmemd c hc)⟩
  · intro a ha
    rw [advances_iff upref a (hx a ((List.takeWhile_sublist _).subset ha))]
    exact List.mem_takeWhile_imp ha
  · cases hd : x.dropWhile (is_lead upref) with
    | nil => exact absurd hd hr
    | cons b C' =>
      refine ⟨b, C', rfl, ?_⟩
      have hb : b ≠ NUL := hx b (hmemd b (by rw [hd]; exact List.mem_cons_self _ _))
      rw [advances_iff upref b hb, dropWhile_head_not x b C' hd]
      simp

set_option maxRecDepth 100000 in
/-- C4 (counterexample): with the default prefix table, `channel_normalize_name` on `#Chat`
leaves `#chat` in the caller's buffer, not `chat`: the leading run stays in the buffer; and
on `a#b` it leaves `ab`: `#` and `&` behind the leading run are deleted too. -/
theorem c4_counterexample :
    (channel_normalize_name (setup session0).upref ("#Chat".toList ++ [NUL])).map cstr
      = some "#chat".toList ∧
    claimed_normal_form (setup session0).upref "#Chat".toList = "chat".toList ∧
    (channel_normalize_name (setup session0).upref ("a#b".toList ++ [NUL])).map cstr
      = some "ab".toList ∧
    claimed_normal_form (setup session0).upref "a#b".toList = "a#b".toList := by
  decide

/-- C4 (amended): for every prefix table and every name `x` that has a character behind its
leading run of `&`, `#` and prefix-table characters, `channel_normalize_name` leaves in the
caller's buffer that leading run unchanged, followed by the remainder with every space,
comma, `&`, `#` and bell character deleted and every letter lower-cased; no other character
is removed or changed. `junk` is whatever follows the terminator in memory. -/
theorem c4_normal_form (upref x junk : List Char) (hx : ∀ c ∈ x, c ≠ NUL)
    (hr : x.dropWhile (is_lead upref) ≠ []) :
    ∃ m, channel_normalize_name upref (x ++ NUL :: junk) = some m ∧
      cstr m = x.takeWhile (is_lead upref)
        ++ ((x.dropWhile (is_lead upref)).filter (fun c => !is_noise c)).map Char.toLower := by
  obtain ⟨hA, hb, hC⟩ := name_split upref x hx hr
  have hm : x ++ NUL :: junk
      = x.takeWhile (is_lead upref) ++ x.dropWhile (is_lead upref) ++ NUL :: junk := by
    rw [List.takeWhile_append_dropWhile]
  refine ⟨_, by rw [hm]; exact normalize_eq upref _ _ junk hA hb hC, ?_⟩
  apply cstr_append_nul
  intro c hc
  rcases List.mem_append.1 hc with h | h
  · exact hx c ((List.takeWhile_sublist _).subset h)
  · exact canon_ne_nul _ hC c h

set_option maxRecDepth 100000 in
/-- C4 (witness): the amended statement at the name `@#Ch at,X` under the default table. -/
theorem c4_normal_form_witness :
    ∃ m, channel_normalize_name (setup session0).upref ("@#Ch at,X".toList ++ NUL :: []) = some m ∧
      cstr m = "@#Ch at,X".toList.takeWhile (is_lead (setup session0).upref)
        ++ (("@#Ch at,X".toList.dropWhile (is_lead (setup session0).upref)).filter
            (fun c => !is_noise c)).map Char.toLower :=
  c4_normal_form (setup session0).upref "@#Ch at,X".toList [] (by decide) (by decide)

/-! ## C5: lookup under different spellings -/

theorem canon_of_same (a b : List Char) (h : same_modulo_noise a b) : canon a = canon b := by
  induction h with
  | nil => rfl
  | letter c d a b hcd _ ih =>
    have hn : is_noise c = is_noise d := by
      rw [← noise_toLower c, ← noise_toLower d, hcd]
    rw [canon_cons, canon_cons, ih, hcd, hn]
  | left c a b hc _ ih => rw [canon_cons, hc, ih]; simp
  | right c a b hc _ ih => rw [canon_cons, hc, ih]; simp

theorem strlcpy_short (x : List Char) (n : Nat) (hx : ∀ c ∈ x, c ≠ NUL) (hl : x.length < n) :
    strlcpy x n = x := by
  unfold strlcpy
  rw [cstr_eq_self hx]
  exact List.take_of_length_le (by omega)

/-- `channel_find` on a name that reaches behind its leading run. -/
theorem channel_find_eq (st : State) (L r : List Char)
    (hL : ∀ c ∈ L, is_lead st.upref c = true)
    (hr : ∃ b r', r = b :: r' ∧ is_lead st.upref b = false)
    (hn : ∀ c ∈ L ++ r, c ≠ NUL) (hlen : (L ++ r).length < IRC_CHANNEL_MAX) :
    channel_find st (L ++ r) = .ok (find_name (L ++ canon r) st.channels) := by
  obtain ⟨b, r', rfl, hb⟩ := hr
  have hA : ∀ a ∈ L, advances st.upref a := fun a ha =>
    (advances_iff st.upref a (hn a (List.mem_append_left _ ha))).2 (hL a ha)
  have hbn : b ≠ NUL := hn b (List.mem_append_right _ (List.mem_cons_self _ _))
  have hb' : ¬ advances st.upref b := by
    rw [advances_iff st.upref b hbn, hb]
    simp
  have hC : ∀ c ∈ b :: r', c ≠ NUL := fun c hc => hn c (List.mem_append_right _ hc)
  unfold channel_find
  rw [strlcpy_short _ _ hn hlen, normalize_eq st.upref L (b :: r') [] hA ⟨b, r', rfl, hb'⟩ hC]
  simp only
  rw [cstr_append_nul]
  intro c hc
  rcases List.mem_append.1 hc with h | h
  · exact hn c (List.mem_append_left _ h)
  · exact canon_ne_nul _ hC c h

set_option maxRecDepth 100000 in
/-- C5 (counterexample): with `#chat` in the directory and the default prefix table,
`channel_find` finds the channel under `#chat` and finds nothing under `chat` or `&chat`:
the sigil stays part of the compared name. -/
theorem c5_counterexample :
    chat_session.channels.map (fun c => c.name) = ["#chat".toList, []] ∧
    channel_find chat_session "#chat".toList = .ok (some 0) ∧
    channel_find chat_session "chat".toList = .ok none ∧
    channel_find chat_session "&chat".toList = .ok none := by
  decide

/-- C5 (amended): for every directory state with its prefix table and any two names shorter
than `IRC_CHANNEL_MAX` that begin with the same leading run `L` of `&`, `#` and
prefix-table characters and whose remainders, each starting with a character outside that
set, differ only in letter case or in spaces, commas, bells, `&` or `#`, `channel_find`
returns, and returns the same result for both. -/
theorem c5_lookup_ignores_case_and_noise (st : State) (L rx ry : List Char)
    (hL : ∀ c ∈ L, is_lead st.upref c = true)
    (hrx : ∃ b r, rx = b :: r ∧ is_lead st.upref b = false)
    (hry : ∃ b r, ry = b :: r ∧ is_lead st.upref b = false)
    (hnx : ∀ c ∈ L ++ rx, c ≠ NUL) (hny : ∀ c ∈ L ++ ry, c ≠ NUL)
    (hlx : (L ++ rx).length < IRC_CHANNEL_MAX) (hly : (L ++ ry).length < IRC_CHANNEL_MAX)
    (hsame : same_modulo_noise rx ry) :
    channel_find st (L ++ rx) = channel_find st (L ++ ry) ∧
    ∃ found, channel_find st (L ++ rx) = .ok found := by
  rw [channel_find_eq st L rx hL hrx hnx hlx, channel_find_eq st L ry hL hry hny hly,
    canon_of_same rx ry hsame]
  exact ⟨rfl, _, rfl⟩

set_option maxRecDepth 100000 in
/-- C5 (witness): the amended statement at `#Chat` and `#ch at` in the session that holds
`#chat`. -/
theorem c5_lookup_witness :
    channel_find chat_session ("#".toList ++ "Chat".toList)
      = channel_find chat_session ("#".toList ++ "ch at".toList) ∧
    ∃ found, channel_find chat_session ("#".toList ++ "Chat".toList) = .ok found :=
  c5_lookup_ignores_case_and_noise chat_session "#".toList "Chat".toList "ch at".toList
    (by decide) ⟨'C', "hat".toList, by decide, by decide⟩ ⟨'c', "h at".toList, by decide, by decide⟩
    (by decide) (by decide) (by decide) (by decide)
    (.letter 'C' 'c' _ _ (by decide) (.letter 'h' 'h' _ _ (by decide)
      (.right ' ' _ _ (by decide) (.letter 'a' 'a' _ _ (by decide)
        (.letter 't' 't' _ _ (by decide) .nil)))))

/-! ## C6: idempotence -/

/-- C6: for every prefix table and every name `x`, stored with its terminator in a block of
memory that ends with a terminator and holds an ordinary character in the name or behind it
(so that the first loop of `channel_normalize_name` stops inside the block), normalising
returns, and normalising the normalised buffer again returns and leaves the same name in
the buffer: normalize(normalize(x)) = normalize(x). -/
theorem c6_normalize_idempotent (upref x junk : List Char)
    (hend : (x ++ NUL :: junk).getLast? = some NUL)
    (hord : ∃ s ∈ x ++ junk, ordinary upref s = true) :
    ∃ m1 m2, channel_normalize_name upref (x ++ NUL :: junk) = some m1 ∧
      channel_normalize_name upref m1 = some m2 ∧ cstr m2 = cstr m1 := by
  obtain ⟨s, hs1, hs2⟩ := hord
  obtain ⟨o1, o2, o3, o4⟩ := ordinary_stops upref s hs2
  have hsm : s ∈ x ++ NUL :: junk := by
    rcases List.mem_append.1 hs1 with h | h
    · exact List.mem_append_left _ h
    · exact List.mem_append_right _ (List.mem_cons_of_mem _ h)
  obtain ⟨A, C, D, e, hA, hb, hC⟩ := block_split upref (x ++ NUL :: junk) ⟨s, hsm, o2⟩ hend
  have hsCD : s ∈ C ++ D := by
    rw [e] at hsm
    rcases List.mem_append.1 hsm with h | h
    · rcases List.mem_append.1 h with h | h
      · exact absurd (hA s h) o2
      · exact List.mem_append_left _ h
    · rcases List.mem_cons.1 h with h | h
      · exact absurd h o1
      · exact List.mem_append_right _ h
  obtain ⟨m2, h2, h3⟩ := normalize_twice upref A C D hA hC ⟨s, hsCD, hs2⟩ (e ▸ hend)
  exact ⟨_, m2, by rw [e]; exact normalize_eq upref A C D hA hb hC, h2, h3⟩

set_option maxRecDepth 100000 in
/-- C6 (witness): the statement at the name `#`, followed in memory by `a` and a terminator,
under the default prefix table. -/
theorem c6_normalize_idempotent_witness :
    ∃ m1 m2, channel_normalize_name (setup session0).upref ("#".toList ++ NUL :: ['a', NUL]) = some m1 ∧
      channel_normalize_name (setup session0).upref m1 = some m2 ∧ cstr m2 = cstr m1 :=
  c6_normalize_idempotent (setup session0).upref "#".toList ['a', NUL] (by decide)
    ⟨'a', by decide, by decide⟩

/-! ## C7: the mode scenario -/

/-- The tables after the built-in defaults and the two capability strings: the new pairs
overwrite the first two of the five default pairs. -/
theorem negotiated_eq (st : State) (hup : st.upref = (setup session0).upref)
    (hum : st.umodes = (setup session0).umodes) :
    negotiated st = { st with
      umodes := "ovohv".toList ++ List.replicate 5 NUL,
      upref := "@+@%+".toList ++ List.replicate 5 NUL,
      cmodes := "b,k,l,imnt".toList } := by
  cases st
  simp only at hup hum
  subst hup hum
  rfl

set_option maxRecDepth 100000 in
/-- C7: for every state `st` that holds the built-in default prefix table (the one `setup`
installs), after `parse_prefix("(ov)@+")` and `parse_cmodes("b,k,l,imnt")`, for every
directory in which `channel_find` resolves `chan`
to a channel whose roster holds alice without prefix (first entry of that name), `name_mode`
on `chan` with mode string `+o-b` and arguments `alice foo!*@*` returns the state in which
alice's prefix is `@` and every other roster entry, in this and every other channel, is as
before; after `+o` the argument pointer stands at `foo!*@*`, and `-b` moves it on, leaving
no argument. -/
theorem c7_mode_scenario (st : State) (chan : List Char) (i : Nat) (c : Channel)
    (front back : List Nick)
    (hup : st.upref = (setup session0).upref)
    (hum : st.umodes = (setup session0).umodes)
    (hfind : channel_find (negotiated st) chan = .ok (some i))
    (hc : st.channels.get? i = some c)
    (hroster : c.nicks = front ++ ⟨"alice".toList, NUL⟩ :: back)
    (hfront : name_find "alice".toList front = none) :
    name_mode (negotiated st) (some chan) (some "+o-b".toList) (some "alice foo!*@*".toList)
      = .ok (set_roster (negotiated st) i (front ++ ⟨"alice".toList, '@'⟩ :: back)) ∧
    (mode_walk (negotiated st).cmodes (negotiated st).umodes (negotiated st).upref
        "+o".toList "alice foo!*@*".toList c.nicks).map (fun w => (w.p, w.rest))
      = .ok (some "foo!*@*".toList, []) ∧
    (mode_walk (negotiated st).cmodes (negotiated st).umodes (negotiated st).upref
        "+o-b".toList "alice foo!*@*".toList c.nicks).map (fun w => (w.p, w.rest))
      = .ok (none, []) := by
  have hneg := negotiated_eq st hup hum
  have hcm : (negotiated st).cmodes
      = "b".toList ++ ',' :: ("k".toList ++ ',' :: ("l".toList ++ ',' :: "imnt".toList)) := by
    rw [hneg]
    rfl
  have hu : (negotiated st).umodes = "ovohv".toList ++ List.replicate 5 NUL := by rw [hneg]
  have hp : (negotiated st).upref = "@+@%+".toList ++ List.replicate 5 NUL := by rw [hneg]
  have hch : (negotiated st).channels.get? i = some c := by rw [hneg]; exact hc
  have hwalk : ∀ md : List Char,
      mode_walk (negotiated st).cmodes (negotiated st).umodes (negotiated st).upref md
          "alice foo!*@*".toList c.nicks
        = .ok (name_mode_loop (negotiated st).cmodes (negotiated st).umodes (negotiated st).upref
            1 3 5 md
            { adding := true, p := some "alice".toList, rest := ["foo!*@*".toList],
              nicks := c.nicks }) := by
    intro md
    have := mode_walk_eq "b".toList "k".toList "l".toList "imnt".toList (negotiated st).umodes
      (negotiated st).upref md "alice foo!*@*".toList c.nicks "alice".toList ["foo!*@*".toList]
      (by decide) (by decide) (by decide) (by decide) (by decide)
    rw [← hcm] at this
    exact this
  have hno : ¬ ((strchr (negotiated st).cmodes 'o').isSome = true ∧ 'o' ≠ ',') := by
    rw [hcm]
    decide
  have ho : strchr (negotiated st).umodes 'o' = some 0 := by
    rw [hu]
    decide
  have hb : strchr (negotiated st).cmodes 'b' = some 0 := by
    rw [hcm]
    decide
  have hat : (negotiated st).upref.getD 0 NUL = '@' := by
    rw [hp]
    decide
  have hj : name_find "alice".toList c.nicks = some front.length := by
    rw [hroster]
    exact name_find_append _ front back _ hfront rfl
  have hset : modify_at (set_mode_pfx true ((negotiated st).upref.getD 0 NUL)) front.length c.nicks
      = front ++ ⟨"alice".toList, '@'⟩ :: back := by
    rw [hroster, modify_at_append, hat]
    rfl
  have hplus_o : ∀ ms : List Char,
      name_mode_loop (negotiated st).cmodes (negotiated st).umodes (negotiated st).upref 1 3 5
          ('+' :: 'o' :: ms)
          { adding := true, p := some "alice".toList, rest := ["foo!*@*".toList], nicks := c.nicks }
        = name_mode_loop (negotiated st).cmodes (negotiated st).umodes (negotiated st).upref 1 3 5 ms
          { adding := true, p := some "foo!*@*".toList, rest := [],
            nicks := front ++ ⟨"alice".toList, '@'⟩ :: back } := by
    intro ms
    rw [loop_plus, loop_prefix_found _ _ _ _ _ _ 'o' ms _ "alice".toList front.length 0
      (by decide) (by decide) hno ho rfl hj]
    simp only [hset, strtok_next, List.head?_cons, List.tail_cons]
  have hfull : name_mode_loop (negotiated st).cmodes (negotiated st).umodes (negotiated st).upref
        1 3 5 "+o-b".toList
        { adding := true, p := some "alice".toList, rest := ["foo!*@*".toList], nicks := c.nicks }
      = { adding := false, p := none, rest := [],
          nicks := front ++ ⟨"alice".toList, '@'⟩ :: back } := by
    have e : "+o-b".toList = '+' :: 'o' :: '-' :: 'b' :: [] := by decide
    rw [e, hplus_o, loop_minus,
      loop_cmode _ _ _ _ _ _ 'b' [] _ 0 (by decide) (by decide) hb (by decide), name_mode_loop]
    rfl
  have hhalf : name_mode_loop (negotiated st).cmodes (negotiated st).umodes (negotiated st).upref
        1 3 5 "+o".toList
        { adding := true, p := some "alice".toList, rest := ["foo!*@*".toList], nicks := c.nicks }
      = { adding := true, p := some "foo!*@*".toList, rest := [],
          nicks := front ++ ⟨"alice".toList, '@'⟩ :: back } := by
    have e : "+o".toList = '+' :: 'o' :: [] := by decide
    rw [e, hplus_o, name_mode_loop]
  refine ⟨?_, ?_, ?_⟩
  · rw [name_mode_eq (negotiated st) chan _ _ i c _ hfind hch (hwalk _), hfull]
  · rw [hwalk, hhalf]
    rfl
  · rw [hwalk, hfull]
    rfl

set_option maxRecDepth 100000 in
/-- C7 (witness): the scenario in the session whose channel `#chat` holds bob (`+`) and
alice (no prefix). -/
theorem c7_mode_scenario_witness :
    name_mode (negotiated roster_session) (some "#chat".toList) (some "+o-b".toList)
        (some "alice foo!*@*".toList)
      = .ok (set_roster (negotiated roster_session) 0
          ([⟨"bob".toList, '+'⟩] ++ ⟨"alice".toList, '@'⟩ :: [])) ∧
    (mode_walk (negotiated roster_session).cmodes (negotiated roster_session).umodes
        (negotiated roster_session).upref "+o".toList "alice foo!*@*".toList
        (⟨1, "#chat".toList, "irc/#chat/in".toList, "irc/#chat/out".toList,
          [⟨"bob".toList, '+'⟩, ⟨"alice".toList, NUL⟩]⟩ : Channel).nicks).map
        (fun w => (w.p, w.rest))
      = .ok (some "foo!*@*".toList, []) ∧
    (mode_walk (negotiated roster_session).cmodes (negotiated roster_session).umodes
        (negotiated roster_session).upref "+o-b".toList "alice foo!*@*".toList
        (⟨1, "#chat".toList, "irc/#chat/in".toList, "irc/#chat/out".toList,
          [⟨"bob".toList, '+'⟩, ⟨"alice".toList, NUL⟩]⟩ : Channel).nicks).map
        (fun w => (w.p, w.rest))
      = .ok (none, []) :=
  c7_mode_scenario roster_session "#chat".toList 0
    ⟨1, "#chat".toList, "irc/#chat/in".toList, "irc/#chat/out".toList,
      [⟨"bob".toList, '+'⟩, ⟨"alice".toList, NUL⟩]⟩
    [⟨"bob".toList, '+'⟩] [] (by decide) (by decide) (by decide) (by decide) (by decide) (by decide)

/-! ## C8: argument consumption -/

theorem strchr_comma_cons (l : List Char) (x : Char) (hx : x ≠ ',') :
    strchr (',' :: l) x = (strchr l x).map (fun i => i + 1) := by
  have h1 : ¬ (',' = x) := fun h => hx h.symm
  have h2 : ¬ (',' = NUL) := by decide
  rw [strchr]
  simp only [h1, h2, if_false]

/-- Pointer comparison and group membership agree: `strchr` finds a letter in `cmodes`
exactly when some group holds it, and `ptr_split` then yields the first such group. -/
theorem group_of_ptr (g1 g2 g3 g4 : List Char) (x : Char)
    (hn : ∀ y ∈ g1 ++ ',' :: (g2 ++ ',' :: (g3 ++ ',' :: g4)), y ≠ NUL)
    (hx : x ≠ ',') (hxn : x ≠ NUL) :
    (mode_group g1 g2 g3 g4 x = 0 ∧
      strchr (g1 ++ ',' :: (g2 ++ ',' :: (g3 ++ ',' :: g4))) x = none) ∨
    (∃ s, strchr (g1 ++ ',' :: (g2 ++ ',' :: (g3 ++ ',' :: g4))) x = some s ∧
      ptr_split s g1.length (g1.length + 1 + g2.length) (g1.length + 1 + g2.length + 1 + g3.length)
        = mode_group g1 g2 g3 g4 x ∧ mode_group g1 g2 g3 g4 x ≠ 0) := by
  have n1 : ∀ y ∈ g1, y ≠ NUL := fun y hy => hn y (List.mem_append_left _ hy)
  have n2 : ∀ y ∈ g2, y ≠ NUL := fun y hy =>
    hn y (List.mem_append_right _ (List.mem_cons_of_mem _ (List.mem_append_left _ hy)))
  have n3 : ∀ y ∈ g3, y ≠ NUL := fun y hy =>
    hn y (List.mem_append_right _ (List.mem_cons_of_mem _ (List.mem_append_right _
      (List.mem_cons_of_mem _ (List.mem_append_left _ hy)))))
  have n4 : ∀ y ∈ g4, y ≠ NUL := fun y hy =>
    hn y (List.mem_append_right _ (List.mem_cons_of_mem _ (List.mem_append_right _
      (List.mem_cons_of_mem _ (List.mem_append_right _ (List.mem_cons_of_mem _ hy))))))
  unfold mode_group
  by_cases m1 : x ∈ g1
  · right
    obtain ⟨i, hi, e⟩ := strchr_of_mem g1 (',' :: (g2 ++ ',' :: (g3 ++ ',' :: g4))) x m1 n1
    refine ⟨i, e, ?_, by simp [hx, m1]⟩
    simp only [hx, m1, if_false, if_true]
    unfold ptr_split
    simp [hi]
  · by_cases m2 : x ∈ g2
    · right
      obtain ⟨i, hi, e⟩ := strchr_of_mem g2 (',' :: (g3 ++ ',' :: g4)) x m2 n2
      refine ⟨i + 1 + g1.length, ?_, ?_, by simp [hx, m1, m2]⟩
      · rw [strchr_append_of_not_mem g1 _ x m1 n1, strchr_comma_cons _ x hx, e]
        rfl
      · simp only [hx, m1, m2, if_false, if_true]
        unfold ptr_split
        have a1 : ¬ (i + 1 + g1.length < g1.length) := by omega
        have a2 : i + 1 + g1.length > g1.length ∧ i + 1 + g1.length < g1.length + 1 + g2.length := by
          omega
        simp only [a1, a2, if_false, if_true, and_self]
    · by_cases m3 : x ∈ g3
      · right
        obtain ⟨i, hi, e⟩ := strchr_of_mem g3 (',' :: g4) x m3 n3
        refine ⟨i + 1 + g2.length + 1 + g1.length, ?_, ?_, by simp [hx, m1, m2, m3]⟩
        · rw [strchr_append_of_not_mem g1 _ x m1 n1, strchr_comma_cons _ x hx,
            strchr_append_of_not_mem g2 _ x m2 n2, strchr_comma_cons _ x hx, e]
          rfl
        · simp only [hx, m1, m2, m3, if_false, if_true]
          unfold ptr_split
          have a1 : ¬ (i + 1 + g2.length + 1 + g1.length < g1.length) := by omega
          have a2 : ¬ (i + 1 + g2.length + 1 + g1.length > g1.length ∧
              i + 1 + g2.length + 1 + g1.length < g1.length + 1 + g2.length) := by omega
          have a3 : i + 1 + g2.length + 1 + g1.length > g1.length + 1 + g2.length ∧
              i + 1 + g2.length + 1 + g1.length < g1.length + 1 + g2.length + 1 + g3.length := by
            omega
          simp only [a1, a2, a3, if_false, if_true, and_self]
      · by_cases m4 : x ∈ g4
        · right
          obtain ⟨i, hi, e⟩ := strchr_of_mem g4 [] x m4 n4
          rw [List.append_nil] at e
          refine ⟨i + 1 + g3.length + 1 + g2.length + 1 + g1.length, ?_, ?_,
            by simp [hx, m1, m2, m3, m4]⟩
          · rw [strchr_append_of_not_mem g1 _ x m1 n1, strchr_comma_cons _ x hx,
              strchr_append_of_not_mem g2 _ x m2 n2, strchr_comma_cons _ x hx,
              strchr_append_of_not_mem g3 _ x m3 n3, strchr_comma_cons _ x hx, e]
            rfl
          · simp only [hx, m1, m2, m3, m4, if_false, if_true]
            unfold ptr_split
            have a1 : ¬ (i + 1 + g3.length + 1 + g2.length + 1 + g1.length < g1.length) := by omega
            have a2 : ¬ (i + 1 + g3.length + 1 + g2.length + 1 + g1.length > g1.length ∧
                i + 1 + g3.length + 1 + g2.length + 1 + g1.length < g1.length + 1 + g2.length) := by
              omega
            have a3 : ¬ (i + 1 + g3.length + 1 + g2.length + 1 + g1.length
                  > g1.length + 1 + g2.length ∧
                i + 1 + g3.length + 1 + g2.length + 1 + g1.length
                  < g1.length + 1 + g2.length + 1 + g3.length) := by omega
            simp only [a1, a2, a3, if_false]
        · left
          refine ⟨by simp [hx, m1, m2, m3, m4], ?_⟩
          rw [strchr_append_of_not_mem g1 _ x m1 n1, strchr_comma_cons _ x hx,
            strchr_append_of_not_mem g2 _ x m2 n2, strchr_comma_cons _ x hx,
            strchr_append_of_not_mem g3 _ x m3 n3, strchr_comma_cons _ x hx,
            strchr_none_of_not_mem g4 x m4 hxn n4]
          rfl

theorem scan_snoc (g1 g2 g3 g4 um pre : List Char) (x : Char) :
    (pre ++ [x]).foldl (scan_step g1 g2 g3 g4 um) (true, 0)
      = scan_step g1 g2 g3 g4 um (pre.foldl (scan_step g1 g2 g3 g4 um) (true, 0)) x := by
  simp [List.foldl_append]

theorem consumed_mono (g1 g2 g3 g4 um pre : List Char) (x : Char) :
    consumed_before g1 g2 g3 g4 um pre ≤ consumed_before g1 g2 g3 g4 um (pre ++ [x]) := by
  unfold consumed_before
  rw [scan_snoc]
  unfold scan_step
  split_ifs <;> simp

/-- With the argument tokens used up, the rest of the mode string leaves the roster alone. -/
theorem mode_spec_exhausted (g1 g2 g3 g4 um up : List Char) (toks : List (List Char))
    (post : List Char) :
    ∀ (pre : List Char) (ns : List Nick),
      toks.length ≤ consumed_before g1 g2 g3 g4 um pre →
      mode_spec g1 g2 g3 g4 um up toks pre post ns = ns := by
  induction post with
  | nil => intro pre ns _; rfl
  | cons x post ih =>
    intro pre ns h
    have hnext := ih (pre ++ [x]) ns (le_trans h (consumed_mono g1 g2 g3 g4 um pre x))
    have hget : toks.get? (consumed_before g1 g2 g3 g4 um pre) = none := by
      rw [List.get?_eq_none]
      exact h
    rw [mode_spec]
    split_ifs
    · exact hnext
    · rw [hget]
      cases strchr um x <;> exact hnext

/-- The loop of `name_mode` and the walk of the specification agree on the roster, from any
point of the mode string on. -/
theorem loop_refines (g1 g2 g3 g4 um up : List Char) (toks : List (List Char))
    (hn : ∀ y ∈ g1 ++ ',' :: (g2 ++ ',' :: (g3 ++ ',' :: g4)), y ≠ NUL) (post : List Char) :
    ∀ (pre : List Char) (w : ModeWalk), (∀ y ∈ post, y ≠ NUL) →
      w.adding = adding_at g1 g2 g3 g4 um pre →
      w.p = toks.get? (consumed_before g1 g2 g3 g4 um pre) →
      w.rest = toks.drop (consumed_before g1 g2 g3 g4 um pre + 1) →
      (name_mode_loop (g1 ++ ',' :: (g2 ++ ',' :: (g3 ++ ',' :: g4))) um up g1.length
          (g1.length + 1 + g2.length) (g1.length + 1 + g2.length + 1 + g3.length) post w).nicks
        = mode_spec g1 g2 g3 g4 um up toks pre post w.nicks := by
  induction post with
  | nil => intro pre w _ _ _ _; rfl
  | cons x post ih =>
    intro pre w hpost ha hp hr
    have hxn : x ≠ NUL := hpost x (List.mem_cons_self _ _)
    have hpost' : ∀ y ∈ post, y ≠ NUL := fun y hy => hpost y (List.mem_cons_of_mem _ hy)
    have hnextp : (strtok_next w).p
        = toks.get? (consumed_before g1 g2 g3 g4 um pre + 1) := by
      simp only [strtok_next, hr]
      rw [List.head?_drop]
      simp
    have hnextr : (strtok_next w).rest
        = toks.drop (consumed_before g1 g2 g3 g4 um pre + 1 + 1) := by
      simp only [strtok_next, hr, List.tail_drop]
    by_cases hplus : x = '+'
    · subst hplus
      rw [loop_plus, mode_spec, if_pos (Or.inl rfl)]
      have e : (List.foldl (scan_step g1 g2 g3 g4 um) (true, 0) (pre ++ ['+']))
          = (true, consumed_before g1 g2 g3 g4 um pre) := by
        rw [scan_snoc]
        simp [scan_step, consumed_before]
      exact ih (pre ++ ['+']) { w with adding := true } hpost'
        (by simp [adding_at, e]) (by simp [consumed_before, e] at hp ⊢; exact hp)
        (by simp [consumed_before, e] at hr ⊢; exact hr)
    by_cases hminus : x = '-'
    · subst hminus
      rw [loop_minus, mode_spec, if_pos (Or.inr (Or.inl rfl))]
      have e : (List.foldl (scan_step g1 g2 g3 g4 um) (true, 0) (pre ++ ['-']))
          = (false, consumed_before g1 g2 g3 g4 um pre) := by
        rw [scan_snoc]
        simp [scan_step, consumed_before]
      exact ih (pre ++ ['-']) { w with adding := false } hpost'
        (by simp [adding_at, e]) (by simp [consumed_before, e] at hp ⊢; exact hp)
        (by simp [consumed_before, e] at hr ⊢; exact hr)
    have e : (List.foldl (scan_step g1 g2 g3 g4 um) (true, 0) (pre ++ [x]))
        = (adding_at g1 g2 g3 g4 um pre,
           if letter_consumes g1 g2 g3 g4 um (adding_at g1 g2 g3 g4 um pre) x
           then consumed_before g1 g2 g3 g4 um pre + 1 else consumed_before g1 g2 g3 g4 um pre) := by
      rw [scan_snoc]
      simp [scan_step, consumed_before, adding_at, hplus, hminus]
    have hadd : adding_at g1 g2 g3 g4 um (pre ++ [x]) = adding_at g1 g2 g3 g4 um pre := by
      simp [adding_at, e]
    have hcons : consumed_before g1 g2 g3 g4 um (pre ++ [x])
        = if letter_consumes g1 g2 g3 g4 um (adding_at g1 g2 g3 g4 um pre) x
          then consumed_before g1 g2 g3 g4 um pre + 1 else consumed_before g1 g2 g3 g4 um pre := by
      simp [consumed_before, e]
    by_cases hcomma : x = ','
    · -- a comma is no channel-mode letter: it is looked up in `umodes`
      have hg : mode_group g1 g2 g3 g4 x = 0 := by simp [mode_group, hcomma]
      have hcm : ¬ ((strchr (g1 ++ ',' :: (g2 ++ ',' :: (g3 ++ ',' :: g4))) x).isSome = true
          ∧ x ≠ ',') := fun h => h.2 hcomma
      have hlc : letter_consumes g1 g2 g3 g4 um (adding_at g1 g2 g3 g4 um pre) x
          = (strchr um x).isSome := by simp [letter_consumes, hg]
      rw [mode_spec, if_neg (by simp [hplus, hminus, hg])]
      cases hum : strchr um x with
      | none =>
        rw [loop_unknown _ _ _ _ _ _ x post w hplus hminus hcm hum]
        simp only
        rw [hlc, hum] at hcons
        exact ih (pre ++ [x]) w hpost' (by rw [hadd]; exact ha)
          (by rw [hcons]; simpa using hp) (by rw [hcons]; simpa using hr)
      | some s =>
        rw [hlc, hum] at hcons
        simp only [Option.isSome_some, if_true] at hcons
        cases hwp : w.p with
        | none =>
          rw [loop_prefix_exhausted _ _ _ _ _ _ x post w s hplus hminus hcm hum hwp]
          rw [← hp, hwp]
          simp only
          rw [mode_spec_exhausted]
          rw [hcons]
          have := hp
          rw [hwp] at this
          have := List.get?_eq_none.1 this.symm
          omega
        | some t =>
          rw [← hp, hwp]
          simp only
          cases hj : name_find t w.nicks with
          | none =>
            rw [loop_prefix_absent _ _ _ _ _ _ x post w t s hplus hminus hcm hum hwp hj]
            exact ih (pre ++ [x]) (strtok_next w) hpost' (by rw [hadd]; exact ha)
              (by rw [hcons]; exact hnextp) (by rw [hcons]; exact hnextr)
          | some j =>
            rw [loop_prefix_found _ _ _ _ _ _ x post w t j s hplus hminus hcm hum hwp hj, ← ha]
            exact ih (pre ++ [x])
              (strtok_next { w with nicks := modify_at (set_mode_pfx w.adding (up.getD s NUL)) j w.nicks })
              hpost' (by rw [hadd]; exact ha) (by rw [hcons]; exact hnextp)
              (by rw [hcons]; exact hnextr)
    rcases group_of_ptr g1 g2 g3 g4 x hn hcomma hxn with ⟨hg, hnone⟩ | ⟨s, hs, hsplit, hg⟩
    · -- in no group: a prefix-mode letter or an unrecognised one
      have hcm : ¬ ((strchr (g1 ++ ',' :: (g2 ++ ',' :: (g3 ++ ',' :: g4))) x).isSome = true
          ∧ x ≠ ',') := by
        rw [hnone]
        simp
      have hlc : letter_consumes g1 g2 g3 g4 um (adding_at g1 g2 g3 g4 um pre) x
          = (strchr um x).isSome := by simp [letter_consumes, hg]
      rw [mode_spec, if_neg (by simp [hplus, hminus, hg])]
      cases hum : strchr um x with
      | none =>
        rw [loop_unknown _ _ _ _ _ _ x post w hplus hminus hcm hum]
        simp only
        rw [hlc, hum] at hcons
        exact ih (pre ++ [x]) w hpost' (by rw [hadd]; exact ha)
          (by rw [hcons]; simpa using hp) (by rw [hcons]; simpa using hr)
      | some s =>
        rw [hlc, hum] at hcons
        simp only [Option.isSome_some, if_true] at hcons
        cases hwp : w.p with
        | none =>
          rw [loop_prefix_exhausted _ _ _ _ _ _ x post w s hplus hminus hcm hum hwp]
          rw [← hp, hwp]
          simp only
          rw [mode_spec_exhausted]
          rw [hcons]
          have := hp
          rw [hwp] at this
          have := List.get?_eq_none.1 this.symm
          omega
        | some t =>
          rw [← hp, hwp]
          simp only
          cases hj : name_find t w.nicks with
          | none =>
            rw [loop_prefix_absent _ _ _ _ _ _ x post w t s hplus hminus hcm hum hwp hj]
            exact ih (pre ++ [x]) (strtok_next w) hpost' (by rw [hadd]; exact ha)
              (by rw [hcons]; exact hnextp) (by rw [hcons]; exact hnextr)
          | some j =>
            rw [loop_prefix_found _ _ _ _ _ _ x post w t j s hplus hminus hcm hum hwp hj, ← ha]
            exact ih (pre ++ [x])
              (strtok_next { w with nicks := modify_at (set_mode_pfx w.adding (up.getD s NUL)) j w.nicks })
              hpost' (by rw [hadd]; exact ha) (by rw [hcons]; exact hnextp)
              (by rw [hcons]; exact hnextr)
    · -- a declared channel-mode letter
      rw [loop_cmode _ _ _ _ _ _ x post w s hplus hminus hs hcomma, mode_spec,
        if_pos (Or.inr (Or.inr hg)), hsplit]
      have hlc : letter_consumes g1 g2 g3 g4 um (adding_at g1 g2 g3 g4 um pre) x
          = decide (mode_group g1 g2 g3 g4 x = 1 ∨ mode_group g1 g2 g3 g4 x = 2
              ∨ (mode_group g1 g2 g3 g4 x = 3 ∧ w.adding = true)) := by
        rw [← ha]
        have hle : mode_group g1 g2 g3 g4 x ≤ 4 := by
          unfold mode_group
          split_ifs <;> omega
        unfold letter_consumes
        generalize mode_group g1 g2 g3 g4 x = k at hg hle
        interval_cases k
        · exact absurd rfl hg
        · simp
        · simp
        · cases w.adding <;> simp
        · simp
      by_cases hc : mode_group g1 g2 g3 g4 x = 1 ∨ mode_group g1 g2 g3 g4 x = 2
          ∨ (mode_group g1 g2 g3 g4 x = 3 ∧ w.adding = true)
      · rw [if_pos hc]
        rw [hlc] at hcons
        simp only [hc, decide_True, if_true] at hcons
        exact ih (pre ++ [x]) (strtok_next w) hpost' (by rw [hadd]; exact ha)
          (by rw [hcons]; exact hnextp) (by rw [hcons]; exact hnextr)
      · rw [if_neg hc]
        rw [hlc] at hcons
        simp only [hc, decide_False, Bool.false_eq_true, if_false] at hcons
        exact ih (pre ++ [x]) w hpost' (by rw [hadd]; exact ha)
          (by rw [hcons]; exact hp) (by rw [hcons]; exact hr)

/-- C8: for every stored mode-group string with its three commas (groups `g1`, `g2`, `g3`
free of commas, `g4` the rest), every mode string and every argument text, the roster that
`name_mode` computes (pointer comparisons on `cmodes`, `strtok` on the arguments) is the
roster of the walk that the specification words: the add/remove flag is toggled by `+` and
`-`, and the nick affected by a prefix-mode letter is the argument token whose index is the
number of argument-consuming letters before it, where a declared channel-mode letter
consumes one token iff the first group containing it is group 1 or 2, or group 3 while
adding, group-4 and unrecognised letters consume none and prefix-mode letters consume one. -/
theorem c8_argument_consumption (g1 g2 g3 g4 um up mode args : List Char) (nicks : List Nick)
    (h1 : ',' ∉ g1) (h2 : ',' ∉ g2) (h3 : ',' ∉ g3)
    (hn : ∀ y ∈ g1 ++ ',' :: (g2 ++ ',' :: (g3 ++ ',' :: g4)), y ≠ NUL)
    (hm : ∀ y ∈ mode, y ≠ NUL) :
    (mode_walk (g1 ++ ',' :: (g2 ++ ',' :: (g3 ++ ',' :: g4))) um up mode args nicks).map
        (fun w => w.nicks)
      = .ok (mode_spec g1 g2 g3 g4 um up (strtok_all ' ' [] args) [] mode nicks) := by
  cases htok : strtok_all ' ' [] args with
  | nil =>
    have hw : mode_walk (g1 ++ ',' :: (g2 ++ ',' :: (g3 ++ ',' :: g4))) um up mode args nicks
        = .ok { adding := true, p := none, rest := [], nicks := nicks } := by
      unfold mode_walk
      rw [htok]
    rw [hw, mode_spec_exhausted g1 g2 g3 g4 um up [] mode [] nicks (by simp)]
    rfl
  | cons t ts =>
    rw [mode_walk_eq g1 g2 g3 g4 um up mode args nicks t ts h1 h2 h3 hn htok]
    have := loop_refines g1 g2 g3 g4 um up (t :: ts) hn mode []
      { adding := true, p := some t, rest := ts, nicks := nicks } hm rfl rfl rfl
    simp only [Except.map]
    rw [this]

set_option maxRecDepth 100000 in
/-- C8 (witness): the statement at the default tables, mode string `+k-l+v` and arguments
`key bob`: `k` (group 2) consumes `key`, `-l` (group 3, removing) consumes nothing, so `+v`
acts on `bob`. -/
theorem c8_argument_consumption_witness :
    (mode_walk ("beI".toList ++ ',' :: ("k".toList ++ ',' :: ("l".toList ++ ','
          :: "imMnOPQRstVz".toList)))
        (setup session0).umodes (setup session0).upref "+k-l+v".toList "key bob".toList
        [⟨"bob".toList, NUL⟩, ⟨"alice".toList, NUL⟩]).map (fun w => w.nicks)
      = .ok (mode_spec "beI".toList "k".toList "l".toList "imMnOPQRstVz".toList
          (setup session0).umodes (setup session0).upref (strtok_all ' ' [] "key bob".toList) []
          "+k-l+v".toList [⟨"bob".toList, NUL⟩, ⟨"alice".toList, NUL⟩]) :=
  c8_argument_consumption "beI".toList "k".toList "l".toList "imMnOPQRstVz".toList
    (setup session0).umodes (setup session0).upref "+k-l+v".toList "key bob".toList
    [⟨"bob".toList, NUL⟩, ⟨"alice".toList, NUL⟩]
    (by decide) (by decide) (by decide) (by decide) (by decide)

set_option maxRecDepth 100000 in
/-- The walk of the specification on the witness input gives `bob` the prefix `+`. -/
theorem mode_spec_example :
    mode_spec "beI".toList "k".toList "l".toList "imMnOPQRstVz".toList
        (setup session0).umodes (setup session0).upref (strtok_all ' ' [] "key bob".toList) []
        "+k-l+v".toList [⟨"bob".toList, NUL⟩, ⟨"alice".toList, NUL⟩]
      = [⟨"bob".toList, '+'⟩, ⟨"alice".toList, NUL⟩] := by
  decide

/-! ## C9: grant and revoke -/

theorem set_mode_pfx_round_trip (pc : Char) (n : Nick) (h : n.pfx = NUL) :
    set_mode_pfx false pc (set_mode_pfx true pc n) = n := by
  cases n with
  | mk nm pf =>
    simp only at h
    subst h
    have e1 : set_mode_pfx true pc ⟨nm, NUL⟩ = ⟨nm, pc⟩ := by
      unfold set_mode_pfx
      rw [if_pos ⟨rfl, rfl⟩]
    rw [e1]
    unfold set_mode_pfx
    rw [if_neg (by simp), if_pos ⟨by simp, rfl⟩]

/-- Writing back the roster a channel already has changes nothing. -/
theorem set_roster_same (st : State) (i : Nat) (c : Channel) (hc : st.channels.get? i = some c) :
    set_roster st i c.nicks = st := by
  unfold set_roster
  have : modify_at (fun c' : Channel => { c' with nicks := c.nicks }) i st.channels = st.channels := by
    apply modify_at_fixed
    intro y hy
    rw [hc] at hy
    cases hy
    rfl
  rw [this]

theorem set_roster_twice (st : State) (i : Nat) (a b : List Nick) :
    set_roster (set_roster st i a) i b = set_roster st i b := by
  unfold set_roster
  simp only [modify_at_modify_at]

theorem get?_set_roster (st : State) (i : Nat) (c : Channel) (ns : List Nick)
    (hc : st.channels.get? i = some c) :
    (set_roster st i ns).channels.get? i = some { c with nicks := ns } := by
  unfold set_roster
  simp only [get?_modify_at_eq, hc, Option.map_some']

/-- `channel_find` looks at the prefix table and at the channel names only. -/
theorem channel_find_set_roster (st : State) (i : Nat) (ns : List Nick) (chan : List Char) :
    channel_find (set_roster st i ns) chan = channel_find st chan := by
  unfold channel_find set_roster
  simp only
  cases channel_normalize_name st.upref (strlcpy chan IRC_CHANNEL_MAX ++ [NUL]) with
  | none => rfl
  | some m =>
    simp only
    rw [find_name_modify_at (cstr m) (fun c : Channel => { c with nicks := ns }) (fun _ => rfl)]

/-- C9: for every state in which `channel_find` resolves `chan` to a channel whose roster
holds the nick `n` (one non-empty token without spaces) without prefix, for every
prefix-mode letter `x` of `umodes` that is no declared channel-mode letter (the test of
line 558 fails), and a `cmodes` string with its three commas: `name_mode` with `+x` and argument `n` returns, then `name_mode`
with `-x` and argument `n` returns the state from before the two calls, so `n` has no
prefix again and every roster is as before. Between the calls `n` carries the prefix
`upref[s]` (when `x` is not `+` or `-` itself). -/
theorem c9_grant_revoke_round_trip (st : State) (chan n : List Char) (x : Char) (i j s : Nat)
    (c : Channel) (e : Nick)
    (hfind : channel_find st chan = .ok (some i)) (hc : st.channels.get? i = some c)
    (hj : name_find n c.nicks = some j) (he : c.nicks.get? j = some e) (hpfx : e.pfx = NUL)
    (hne : n ≠ []) (hsp : ∀ ch ∈ n, ch ≠ ' ')
    (hx : strchr st.umodes x = some s)
    (hcm : ¬ ((strchr st.cmodes x).isSome = true ∧ x ≠ ','))
    (hcommas : 3 ≤ st.cmodes.count ',') (hnul : ∀ ch ∈ st.cmodes, ch ≠ NUL) :
    ∃ st1, name_mode st (some chan) (some ['+', x]) (some n) = .ok st1 ∧
      name_mode st1 (some chan) (some ['-', x]) (some n) = .ok st ∧
      (x ≠ '+' → x ≠ '-' → ∃ c1, st1.channels.get? i = some c1 ∧
        c1.nicks.get? j = some { e with pfx := st.upref.getD s NUL }) := by
  obtain ⟨g1, g2, g3, g4, hg, m1, m2, m3⟩ := three_commas_split st.cmodes hcommas
  have hn' : ∀ y ∈ g1 ++ ',' :: (g2 ++ ',' :: (g3 ++ ',' :: g4)), y ≠ NUL := hg ▸ hnul
  have htok : strtok_all ' ' [] n = n :: [] := by
    rw [strtok_all_plain ' ' n [] hsp]
    simp [hne]
  have hwalk : ∀ (md : List Char) (ns : List Nick),
      mode_walk st.cmodes st.umodes st.upref md n ns
        = .ok (name_mode_loop st.cmodes st.umodes st.upref g1.length (g1.length + 1 + g2.length)
            (g1.length + 1 + g2.length + 1 + g3.length) md
            { adding := true, p := some n, rest := [], nicks := ns }) := by
    intro md ns
    have := mode_walk_eq g1 g2 g3 g4 st.umodes st.upref md n ns n [] m1 m2 m3 hn' htok
    rw [← hg] at this
    exact this
  have hback := set_roster_same st i c hc
  by_cases hplus : x = '+'
  · -- `++` and `-+` only set the flag
    subst hplus
    refine ⟨st, ?_, ?_, fun h => absurd rfl h⟩
    · rw [name_mode_eq st chan _ n i c _ hfind hc (hwalk _ _), loop_plus, loop_plus, name_mode_loop]
      exact congrArg _ hback
    · rw [name_mode_eq st chan _ n i c _ hfind hc (hwalk _ _), loop_minus, loop_plus, name_mode_loop]
      exact congrArg _ hback
  by_cases hminus : x = '-'
  · subst hminus
    refine ⟨st, ?_, ?_, fun _ h => absurd rfl h⟩
    · rw [name_mode_eq st chan _ n i c _ hfind hc (hwalk _ _), loop_plus, loop_minus, name_mode_loop]
      exact congrArg _ hback
    · rw [name_mode_eq st chan _ n i c _ hfind hc (hwalk _ _), loop_minus, loop_minus, name_mode_loop]
      exact congrArg _ hback
  -- a proper prefix-mode letter
  have hfirst : name_mode st (some chan) (some ['+', x]) (some n)
      = .ok (set_roster st i (modify_at (set_mode_pfx true (st.upref.getD s NUL)) j c.nicks)) := by
    rw [name_mode_eq st chan _ n i c _ hfind hc (hwalk _ _), loop_plus,
      loop_prefix_found _ _ _ _ _ _ x [] _ n j s hplus hminus hcm hx rfl hj, name_mode_loop]
    rfl
  refine ⟨_, hfirst, ?_, ?_⟩
  · have hfind1 := (channel_find_set_roster st i
      (modify_at (set_mode_pfx true (st.upref.getD s NUL)) j c.nicks) chan).trans hfind
    have hc1 := get?_set_roster st i c
      (modify_at (set_mode_pfx true (st.upref.getD s NUL)) j c.nicks) hc
    have hj1 : name_find n (modify_at (set_mode_pfx true (st.upref.getD s NUL)) j c.nicks) = some j := by
      rw [name_find_modify_at n _ (set_mode_pfx_name _ _) j c.nicks]
      exact hj
    have hr : modify_at (fun y => set_mode_pfx false (st.upref.getD s NUL)
        (set_mode_pfx true (st.upref.getD s NUL) y)) j c.nicks = c.nicks := by
      apply modify_at_fixed
      intro y hy
      rw [he] at hy
      cases hy
      exact set_mode_pfx_round_trip _ e hpfx
    rw [name_mode_eq _ chan _ n i _ _ hfind1 hc1 (hwalk _ _), loop_minus,
      loop_prefix_found _ _ _ _ _ _ x [] _ n j s hplus hminus hcm hx rfl hj1, name_mode_loop]
    simp only [strtok_next, modify_at_modify_at, set_roster_twice, hr, hback]
  · intro _ _
    refine ⟨_, get?_set_roster st i c _ hc, ?_⟩
    show (modify_at _ j c.nicks).get? j = _
    rw [get?_modify_at_eq, he, Option.map_some']
    congr 1
    cases e with
    | mk nm pf =>
      simp only at hpfx
      subst hpfx
      unfold set_mode_pfx
      rw [if_pos ⟨rfl, rfl⟩]

set_option maxRecDepth 100000 in
/-- C9 (witness): granting and revoking `o` for alice in `#chat` of `roster_session`. -/
theorem c9_grant_revoke_witness :
    ∃ st1, name_mode roster_session (some "#chat".toList) (some ['+', 'o']) (some "alice".toList)
        = .ok st1 ∧
      name_mode st1 (some "#chat".toList) (some ['-', 'o']) (some "alice".toList)
        = .ok roster_session ∧
      ('o' ≠ '+' → 'o' ≠ '-' → ∃ c1, st1.channels.get? 0 = some c1 ∧
        c1.nicks.get? 1
          = some { (⟨"alice".toList, NUL⟩ : Nick) with pfx := roster_session.upref.getD 2 NUL }) :=
  c9_grant_revoke_round_trip roster_session "#chat".toList "alice".toList 'o' 0 1 2
    ⟨1, "#chat".toList, "irc/#chat/in".toList, "irc/#chat/out".toList,
      [⟨"bob".toList, '+'⟩, ⟨"alice".toList, NUL⟩]⟩
    ⟨"alice".toList, NUL⟩
    (by decide) (by decide) (by decide) (by decide) (by decide) (by decide) (by decide)
    (by decide) (by decide) (by decide) (by decide)

/-! ## C10: effect of one prefix-mode letter -/

/-- C10: in the loop of `name_mode`, at a prefix-mode letter `x` (not `+`, `-` or a declared
channel-mode letter) found at offset `s` of `umodes`, with the current argument token `t`
naming the roster entry `n` at position `j`: the walk goes on behind `x` with the next
token and a roster of the same length in which every other entry is unchanged and entry
`j` keeps its name; when adding, its prefix becomes `upref[s]` if it was none and is
otherwise unchanged; when removing, its prefix becomes none if it equalled `upref[s]` and
is otherwise unchanged. Removing from a nick with no prefix leaves the roster as it is. -/
theorem c10_prefix_letter_effect (cm um up : List Char) (c1 c2 c3 : Nat) (x : Char)
    (ms : List Char) (w : ModeWalk) (t : List Char) (j s : Nat) (n : Nick)
    (hplus : x ≠ '+') (hminus : x ≠ '-')
    (hcm : ¬ ((strchr cm x).isSome = true ∧ x ≠ ','))
    (hum : strchr um x = some s) (hp : w.p = some t)
    (hj : name_find t w.nicks = some j) (hn : w.nicks.get? j = some n) :
    ∃ ns, name_mode_loop cm um up c1 c2 c3 (x :: ms) w
        = name_mode_loop cm um up c1 c2 c3 ms
            { adding := w.adding, p := w.rest.head?, rest := w.rest.tail, nicks := ns } ∧
      ns.length = w.nicks.length ∧
      (∀ i, i ≠ j → ns.get? i = w.nicks.get? i) ∧
      ns.get? j = some
        { name := n.name,
          pfx := if w.adding = true then (if n.pfx = NUL then up.getD s NUL else n.pfx)
                 else (if n.pfx = up.getD s NUL then NUL else n.pfx) } ∧
      (w.adding = false → n.pfx = NUL → ns = w.nicks) := by
  refine ⟨modify_at (set_mode_pfx w.adding (up.getD s NUL)) j w.nicks, ?_, ?_, ?_, ?_, ?_⟩
  · rw [loop_prefix_found cm um up c1 c2 c3 x ms w t j s hplus hminus hcm hum hp hj]
    rfl
  · exact modify_at_length _ _ _
  · intro i hi
    exact get?_modify_at_ne _ _ _ _ hi
  · rw [get?_modify_at_eq, hn, Option.map_some']
    congr 1
    have h1 := set_mode_pfx_name w.adding (up.getD s NUL) n
    have h2 := set_mode_pfx_pfx w.adding (up.getD s NUL) n
    cases hr : set_mode_pfx w.adding (up.getD s NUL) n with
    | mk nm pf =>
      rw [hr] at h1 h2
      simp only at h1 h2
      rw [h1, h2]
  · intro ha hnul
    apply modify_at_fixed
    intro y hy
    rw [hn] at hy
    cases hy
    rw [ha]
    exact set_mode_pfx_noop _ n hnul

set_option maxRecDepth 100000 in
/-- C10 (witness): the statement at `-o alice` on a roster where alice has no prefix, with
the default tables. -/
theorem c10_prefix_letter_effect_witness :
    ∃ ns, name_mode_loop (setup session0).cmodes (setup session0).umodes (setup session0).upref
          3 5 7 ('o' :: [])
          { adding := false, p := some "alice".toList, rest := [],
            nicks := [⟨"bob".toList, '+'⟩, ⟨"alice".toList, NUL⟩] }
        = name_mode_loop (setup session0).cmodes (setup session0).umodes (setup session0).upref
            3 5 7 []
            { adding := false, p := ([] : List (List Char)).head?, rest := ([] : List (List Char)).tail,
              nicks := ns } ∧
      ns.length = [(⟨"bob".toList, '+'⟩ : Nick), ⟨"alice".toList, NUL⟩].length ∧
      (∀ i, i ≠ 1 → ns.get? i = [(⟨"bob".toList, '+'⟩ : Nick), ⟨"alice".toList, NUL⟩].get? i) ∧
      ns.get? 1 = some
        { name := "alice".toList,
          pfx := if false = true then (if NUL = NUL then (setup session0).upref.getD 2 NUL else NUL)
                 else (if NUL = (setup session0).upref.getD 2 NUL then NUL else NUL) } ∧
      (false = false → NUL = NUL → ns = [⟨"bob".toList, '+'⟩, ⟨"alice".toList, NUL⟩]) :=
  c10_prefix_letter_effect (setup session0).cmodes (setup session0).umodes (setup session0).upref
    3 5 7 'o' [] { adding := false, p := some "alice".toList, rest := [],
                   nicks := [⟨"bob".toList, '+'⟩, ⟨"alice".toList, NUL⟩] }
    "alice".toList 1 2 ⟨"alice".toList, NUL⟩
    (by decide) (by decide) (by decide) (by decide) rfl (by decide) rfl

/-! ## The loop of `parse_prefix` -/

theorem parse_prefix_loop_stop (i : Nat) (r ps : List Char) (t : List Char × List Char) :
    parse_prefix_loop i (')' :: r) ps t = t := by
  cases ps <;> simp [parse_prefix_loop]

theorem take_succ_set {α : Type} (a : List α) (i : Nat) (z : α) (h : i < a.length) :
    (a.set i z).take (i + 1) = a.take i ++ [z] := by
  induction a generalizing i with
  | nil => simp at h
  | cons x xs ih =>
    cases i with
    | zero => simp
    | succ j =>
      simp only [List.length_cons] at h
      simp [ih j (by omega)]

theorem drop_succ_set {α : Type} (a : List α) (i k : Nat) (z : α) :
    (a.set i z).drop (i + 1 + k) = a.drop (i + 1 + k) := by
  induction a generalizing i with
  | nil => simp
  | cons x xs ih =>
    cases i with
    | zero => simp [Nat.add_comm]
    | succ j =>
      have e : j + 1 + 1 + k = (j + 1 + k) + 1 := by omega
      rw [e]
      simp [ih j]

/-- The loop of `parse_prefix` stores the pairs at the positions `i`, `i + 1`, ... and leaves
every other position of the two arrays as it was. -/
theorem parse_prefix_loop_eq (L : List Char) :
    ∀ (C r : List Char) (i : Nat) (t : List Char × List Char), ')' ∉ L → L.length = C.length →
      i + L.length ≤ UMODE_MAX - 1 → i + L.length ≤ t.1.length → i + L.length ≤ t.2.length →
      parse_prefix_loop i (L ++ ')' :: r) C t
        = (t.1.take i ++ L ++ t.1.drop (i + L.length), t.2.take i ++ C ++ t.2.drop (i + L.length)) := by
  induction L with
  | nil =>
    intro C r i t _ hl _ _ _
    have hC : C = [] := List.length_eq_zero.1 hl.symm
    subst hC
    simp [parse_prefix_loop_stop]
  | cons x L ih =>
    intro C r i t hx hl hi h1 h2
    cases C with
    | nil => simp at hl
    | cons y C =>
      have hx1 : x ≠ ')' := fun h => hx (by simp [h])
      have hx2 : ')' ∉ L := fun h => hx (List.mem_cons_of_mem _ h)
      simp only [List.length_cons] at hl hi h1 h2
      have hi9 : i ≠ UMODE_MAX - 1 := by omega
      rw [List.cons_append, parse_prefix_loop]
      simp only [hx1, hi9, ne_eq, not_false_eq_true, and_self, if_true]
      rw [ih C r (i + 1) _ hx2 (by omega) (by omega) (by simp; omega) (by simp; omega)]
      simp only [take_succ_set _ _ _ (show i < t.1.length by omega),
        take_succ_set _ _ _ (show i < t.2.length by omega), drop_succ_set, List.length_cons]
      have e : i + 1 + L.length = i + (L.length + 1) := by omega
      simp [List.append_assoc, e]

/-- `parse_prefix` on a well-formed text `(L)C` with at most `UMODE_MAX - 1` pairs: the
first `L.length` positions of the two arrays hold the new pairs, the positions behind them keep
what they held before. -/
theorem parse_prefix_eq (st : State) (L C : List Char) (hL : ')' ∉ L) (hn : ∀ x ∈ L, x ≠ NUL)
    (hl : L.length = C.length) (hk : L.length ≤ UMODE_MAX - 1)
    (h1 : st.umodes.length = UMODE_MAX) (h2 : st.upref.length = UMODE_MAX) :
    ( parse_prefix st ('(' :: (L ++ ')' :: C))).umodes = L ++ st.umodes.drop L.length ∧
    ( parse_prefix st ('(' :: (L ++ ')' :: C))).upref = C ++ st.upref.drop L.length := by
  have hs : strchr ('(' :: (L ++ ')' :: C)) ')' = some (L.length + 1) := by
    have := strchr_append_of_not_mem ('(' :: L) (')' :: C) ')'
      (by
        intro h
        rcases List.mem_cons.1 h with h | h
        · exact absurd h (by decide)
        · exact hL h)
      (by
        intro x hx
        rcases List.mem_cons.1 hx with h | h
        · rw [h]; decide
        · exact hn x h)
    rw [List.cons_append] at this
    rw [this, strchr_cons_self]
    simp
  unfold parse_prefix
  rw [hs]
  have hcond : ¬ (('(' :: (L ++ ')' :: C)).length < 2 ∨ ('(' :: (L ++ ')' :: C)).head? ≠ some '(' ∨
      (L.length + 1) * 2 ≠ ('(' :: (L ++ ')' :: C)).length) := by
    simp
    omega
  simp only [hcond, if_false]
  have hd1 : ('(' :: (L ++ ')' :: C)).drop 1 = L ++ ')' :: C := by simp
  have hd2 : ('(' :: (L ++ ')' :: C)).drop (L.length + 1 + 1) = C := by
    rw [List.drop_succ_cons]
    have : (L ++ ')' :: C) = (L ++ [')']) ++ C := by simp
    rw [this]
    have hlen : L.length + 1 = (L ++ [')']).length := by simp
    rw [hlen, List.drop_left]
  rw [hd1, hd2, parse_prefix_loop_eq L C C 0 _ hL hl (by omega)
    (by simp only [h1]; omega) (by simp only [h2]; omega)]
  simp

/-! ## The first occurrence found by `strchr` -/

theorem strchr_first (l : List Char) (c : Char) (k : Nat) (h : strchr l c = some k) (hc : c ≠ NUL) :
    l.get? k = some c ∧ ∀ j, j < k → l.get? j ≠ some c := by
  induction l generalizing k with
  | nil => simp [strchr, hc] at h
  | cons x xs ih =>
    rw [strchr] at h
    by_cases hx : x = c
    · simp only [hx, if_true, Option.some.injEq] at h
      subst h
      exact ⟨by simp [hx], fun j hj => absurd hj (Nat.not_lt_zero _)⟩
    · simp only [hx, if_false] at h
      by_cases hn : x = NUL
      · simp [hn] at h
      · simp only [hn, if_false] at h
        cases hs : strchr xs c with
        | none => simp [hs] at h
        | some i =>
          simp only [hs, Option.map_some', Option.some.injEq] at h
          subst h
          obtain ⟨h1, h2⟩ := ih i hs
          refine ⟨by simpa using h1, ?_⟩
          intro j hj
          cases j with
          | zero => simpa using hx
          | succ j' => simpa using h2 j' (by omega)

/-! ## From the line to the dispatch -/

theorem proc_server_cmd_eq (env : Env) (st : State) (buf : List Char)
    (nicksrv user : Option (List Char)) (argv : Tokens) (h : server_line buf nicksrv user argv) :
    proc_server_cmd env st buf = dispatch env st nicksrv user argv := by
  obtain ⟨h1, cmd, h2, h3⟩ := h
  unfold proc_server_cmd
  rw [if_neg h1, h2]
  simp only [h3]

/-! ## Removal from a roster -/

theorem name_rm3_eq (n : List Char) (ns : List Nick) :
    name_rm3 n ns = if holds n ns then some (without n ns, pfx_of n ns) else none := by
  induction ns with
  | nil => rfl
  | cons k ks ih =>
    unfold name_rm3
    by_cases h : n = k.name
    · simp [h, holds, without, pfx_of]
    · rw [if_neg h, ih]
      unfold holds without pfx_of at *
      by_cases h2 : ks.any (fun k => decide (n = k.name)) = true
      · simp [h, h2, List.eraseP_cons, List.find?_cons]
      · simp only [Bool.not_eq_true] at h2
        simp [h, h2, List.any_cons]

theorem holds_iff (n : List Char) (ns : List Nick) : holds n ns = true ↔ n ∈ roster_names ns := by
  unfold holds roster_names
  simp only [List.any_eq_true, decide_eq_true_eq, List.mem_map]
  constructor
  · rintro ⟨k, hk, rfl⟩
    exact ⟨k, hk, rfl⟩
  · rintro ⟨k, hk, e⟩
    exact ⟨k, hk, e.symm⟩

theorem without_names_subset (n : List Char) (ns : List Nick) (x : List Char)
    (h : x ∈ roster_names (without n ns)) : x ∈ roster_names ns := by
  unfold roster_names without at *
  obtain ⟨k, hk, rfl⟩ := List.mem_map.1 h
  exact List.mem_map.2 ⟨k, List.mem_of_mem_eraseP hk, rfl⟩

/-- In a roster that names no nick twice, the removal of the first entry named `n` leaves no
entry named `n`. -/
theorem without_absent (n : List Char) (ns : List Nick) (h : (roster_names ns).Nodup) :
    n ∉ roster_names (without n ns) := by
  induction ns with
  | nil => simp [without, roster_names]
  | cons k ks ih =>
    unfold roster_names at h
    rw [List.map_cons, List.nodup_cons] at h
    by_cases hk : n = k.name
    · have : without n (k :: ks) = ks := by simp [without, hk]
      rw [this, hk]
      exact h.1
    · have : without n (k :: ks) = k :: without n ks := by simp [without, hk, List.eraseP_cons]
      rw [this]
      unfold roster_names
      rw [List.map_cons, List.mem_cons]
      rintro (h1 | h1)
      · exact hk h1
      · exact ih h.2 h1

/-! ## The loop of `name_quit` -/

theorem name_quit_loop_eq (n msg : List Char) (cs : List Channel) :
    name_quit_loop n msg cs
      = (cs.map (fun c => if reached n c then { c with nicks := without n c.nicks } else c),
         (cs.filter (reached n)).map (fun c => (c.outpath, msg))) := by
  induction cs with
  | nil => rfl
  | cons c cs ih =>
    unfold name_quit_loop
    simp only [ih, name_rm3_eq]
    by_cases h1 : c.name = []
    · simp [h1, reached]
    · by_cases h2 : holds n c.nicks = true
      · simp [h1, h2, reached]
      · simp only [Bool.not_eq_true] at h2
        simp [h1, h2, reached]

/-! ## The dispatch on QUIT -/

theorem dispatch_quit (env : Env) (st : State) (n u : List Char) (argv : Tokens)
    (hcmd : tok argv 0 = some "QUIT".toList) :
    dispatch env st (some n) (some u) argv
      = .ok (name_quit st n u (tok argv (TOK_TEXT - TOK_CMD))) := by
  have e1 : ¬ ("QUIT".toList = "PONG".toList) := by decide
  have e2 : ¬ ("QUIT".toList = "PING".toList) := by decide
  have e3 : ¬ ("QUIT".toList = "353".toList) := by decide
  have e4 : ¬ ("QUIT".toList = "005".toList) := by decide
  have e5 : ¬ ("QUIT".toList = "MODE".toList) := by decide
  have e6 : ¬ ("QUIT".toList = "KICK".toList) := by decide
  have e7 : ¬ ("QUIT".toList = "TOPIC".toList) := by decide
  have e8 : ¬ ("QUIT".toList = "ERROR".toList) := by decide
  have e9 : ¬ ("QUIT".toList = "JOIN".toList) := by decide
  have e10 : ¬ ("QUIT".toList = "PART".toList) := by decide
  unfold dispatch
  simp only [hcmd, e1, e2, e3, e4, e5, e6, e7, e8, e9, e10, if_false, if_true, false_and,
    Option.getD_some, reduceCtorEq, or_self]

/-! ## The key a name is looked up and stored under -/

theorem mem_cstr (l : List Char) : ∀ c ∈ cstr l, c ≠ NUL := by
  intro c hc
  unfold cstr at hc
  have := List.mem_takeWhile_imp hc
  simpa using this

theorem strlcpy_ne_nul (x : List Char) (n : Nat) : ∀ c ∈ strlcpy x n, c ≠ NUL := by
  intro c hc
  unfold strlcpy at hc
  exact mem_cstr x c (List.mem_of_mem_take hc)

theorem strlcpy_length (x : List Char) (n : Nat) : (strlcpy x n).length ≤ n - 1 := by
  unfold strlcpy
  rw [List.length_take]
  exact Nat.min_le_left _ _

theorem skip_lead_all (upref nm : List Char) (h : ∀ a ∈ nm, advances upref a) :
    skip_lead upref (nm ++ [NUL]) = none := by
  rw [skip_lead_append upref nm _ h, skip_lead_cons_adv upref NUL [] (advances_nul upref)]
  rfl

/-- A name whose bytes the first loop all advances over is normalised past its terminator;
any other name has a key, the text that `channel_normalize_name` leaves at the start of
every block that begins with the name and a terminator. -/
theorem lookup_key (upref nm : List Char) (hn : ∀ c ∈ nm, c ≠ NUL) :
    channel_normalize_name upref (nm ++ [NUL]) = none ∨
    ∃ key, ∀ D, ∃ m, channel_normalize_name upref (nm ++ NUL :: D) = some m ∧ cstr m = key := by
  rcases first_stop upref nm with h | ⟨A, b, R, h1, h2, h3⟩
  · left
    unfold channel_normalize_name
    rw [skip_lead_all upref nm h]
  · right
    have hC : ∀ c ∈ b :: R, c ≠ NUL := fun c hc => hn c (by rw [h1]; exact List.mem_append_right _ hc)
    have hAn : ∀ c ∈ A, c ≠ NUL := fun c hc => hn c (by rw [h1]; exact List.mem_append_left _ hc)
    refine ⟨A ++ canon (b :: R), fun D =>
      ⟨A ++ canon (b :: R) ++ NUL :: ((b :: R) ++ NUL :: D).drop ((canon (b :: R)).length + 1),
        ?_, ?_⟩⟩
    · rw [h1]
      exact normalize_eq upref A (b :: R) D h2 ⟨b, R, rfl, h3⟩ hC
    · rw [cstr_append_nul]
      intro c hc
      rcases List.mem_append.1 hc with h | h
      · exact hAn c h
      · exact canon_ne_nul _ hC c h

theorem find_name_names (x : List Char) (cs ds : List Channel)
    (h : cs.map (fun c => c.name) = ds.map (fun c => c.name)) :
    find_name x cs = find_name x ds := by
  induction cs generalizing ds with
  | nil =>
    cases ds with
    | nil => rfl
    | cons d ds => simp at h
  | cons c cs ih =>
    cases ds with
    | nil => simp at h
    | cons d ds =>
      simp only [List.map_cons, List.cons.injEq] at h
      simp only [find_name, h.1, ih ds h.2]

/-- `channel_find` looks at the prefix table and at the channel names only. -/
theorem channel_find_congr (st st1 : State) (x : List Char) (hu : st1.upref = st.upref)
    (hc : st1.channels.map (fun c => c.name) = st.channels.map (fun c => c.name)) :
    channel_find st1 x = channel_find st x := by
  unfold channel_find
  rw [hu]
  cases channel_normalize_name st.upref (strlcpy x IRC_CHANNEL_MAX ++ [NUL]) with
  | none => rfl
  | some m => simp only [find_name_names _ _ _ hc]

theorem channel_find_nil (st : State) : channel_find st [] = .error .undef := by
  unfold channel_find
  have : strlcpy [] IRC_CHANNEL_MAX = [] := rfl
  rw [this]
  have h := skip_lead_all st.upref [] (by simp)
  unfold channel_normalize_name
  rw [h]

theorem find_name_get (x : List Char) (cs : List Channel) (i : Nat)
    (h : find_name x cs = some i) : ∃ c, cs.get? i = some c ∧ c.name = x := by
  induction cs generalizing i with
  | nil => simp [find_name] at h
  | cons c cs ih =>
    rw [find_name] at h
    by_cases hx : x = c.name
    · simp only [hx, if_true, Option.some.injEq] at h
      subst h
      exact ⟨c, rfl, hx.symm⟩
    · simp only [hx, if_false] at h
      cases hk : find_name x cs with
      | none => simp [hk] at h
      | some k =>
        simp only [hk, Option.map_some', Option.some.injEq] at h
        subst h
        obtain ⟨d, hd, e⟩ := ih k hk
        exact ⟨d, by simpa using hd, e⟩

/-- A successful lookup returns a position of the directory. -/
theorem channel_find_get (st : State) (x : List Char) (i : Nat)
    (h : channel_find st x = .ok (some i)) : ∃ c, st.channels.get? i = some c := by
  unfold channel_find at h
  cases hm : channel_normalize_name st.upref (strlcpy x IRC_CHANNEL_MAX ++ [NUL]) with
  | none => simp [hm] at h
  | some m =>
    simp only [hm, Except.ok.injEq] at h
    obtain ⟨c, hc, _⟩ := find_name_get _ _ _ h
    exact ⟨c, hc⟩

/-! ## `channel_join` -/

theorem channel_new_inv (env : Env) (st : State) (x : List Char) (c : Channel)
    (h : channel_new env st x = .ok c) :
    c.nicks = [] ∧ c.id = st.next_id ∧
    ∃ m, channel_normalize_name st.upref
        (strlcpy x IRC_CHANNEL_MAX ++ NUL ::
          List.replicate (IRC_CHANNEL_MAX - 1 - (strlcpy x IRC_CHANNEL_MAX).length) NUL) = some m ∧
      c.name = cstr m := by
  unfold channel_new at h
  simp only at h
  have hlen := strlcpy_length x IRC_CHANNEL_MAX
  have hblock : List.replicate (IRC_CHANNEL_MAX - (strlcpy x IRC_CHANNEL_MAX).length) NUL
      = NUL :: List.replicate (IRC_CHANNEL_MAX - 1 - (strlcpy x IRC_CHANNEL_MAX).length) NUL := by
    have : IRC_CHANNEL_MAX - (strlcpy x IRC_CHANNEL_MAX).length
        = (IRC_CHANNEL_MAX - 1 - (strlcpy x IRC_CHANNEL_MAX).length) + 1 := by
      unfold IRC_CHANNEL_MAX at hlen ⊢
      omega
    rw [this, List.replicate_succ]
  rw [hblock] at h
  split at h
  · cases h
  · rename_i m hm
    split at h
    · cases h
    · split at h
      · cases h
      · simp only [Except.ok.injEq] at h
        subst h
        exact ⟨rfl, rfl, m, hm, rfl⟩

/-- `channel_join` returning a channel: the channel stands at the returned position, the
lookup of the name finds it there afterwards, and either the directory is unchanged (the
lookup found it before) or the channel is new, with an empty roster, at the head of the
directory. -/
theorem channel_join_spec (env : Env) (st st1 : State) (x : List Char) (j : Nat)
    (h : channel_join env st x = .ok (st1, some j)) :
    ∃ c, st1.channels.get? j = some c ∧ channel_find st1 x = .ok (some j) ∧
      ((st1 = st ∧ channel_find st x = .ok (some j)) ∨
       (channel_find st x = .ok none ∧ j = 0 ∧ c.nicks = [] ∧
         st1 = { st with channels := c :: st.channels, next_id := st.next_id + 1 })) := by
  unfold channel_join at h
  cases hf : channel_find st x with
  | error e => simp [hf] at h
  | ok r =>
    cases r with
    | some i =>
      simp only [hf, Except.ok.injEq, Prod.mk.injEq, Option.some.injEq] at h
      obtain ⟨h1, h2⟩ := h
      subst h1
      subst h2
      obtain ⟨c, hc⟩ := channel_find_get st x i hf
      exact ⟨c, hc, hf, Or.inl ⟨rfl, rfl⟩⟩
    | none =>
      simp only [hf] at h
      unfold channel_add at h
      cases hn : channel_new env st x with
      | error e => simp [hn] at h
      | ok c =>
        simp only [hn] at h
        by_cases hfifo : env.fifo_ok c.inpath = false
        · simp [hfifo] at h
        · rw [if_neg hfifo] at h
          simp only [Except.ok.injEq, Prod.mk.injEq, Option.some.injEq] at h
          obtain ⟨h1, h2⟩ := h
          subst h1
          subst h2
          obtain ⟨hnicks, _, m, hm, hname⟩ := channel_new_inv env st x c hn
          refine ⟨c, rfl, ?_, Or.inr ⟨rfl, rfl, hnicks, rfl⟩⟩
          rcases lookup_key st.upref (strlcpy x IRC_CHANNEL_MAX) (strlcpy_ne_nul x _) with hk | ⟨key, hk⟩
          · unfold channel_find at hf
            simp [hk] at hf
          · obtain ⟨m0, hm0, hkey0⟩ := hk []
            obtain ⟨m1, hm1, hkey1⟩ := hk
              (List.replicate (IRC_CHANNEL_MAX - 1 - (strlcpy x IRC_CHANNEL_MAX).length) NUL)
            rw [hm] at hm1
            cases hm1
            unfold channel_find
            simp only [hm0, hkey0, find_name]
            rw [if_pos (by rw [hname, hkey1])]

/-! ## The dispatch on PING, PART, PRIVMSG and NICK -/

theorem dispatch_ping (env : Env) (st : State) (nicksrv user : Option (List Char)) (argv : Tokens)
    (t : List Char) (hcmd : tok argv 0 = some "PING".toList)
    (htext : tok argv (TOK_TEXT - TOK_CMD) = some t) :
    dispatch env st nicksrv user argv
      = .ok (ewritestr st (snprintf IRC_MSG_MAX ("PONG ".toList ++ t ++ [CR, LF]))) := by
  have e1 : ¬ ("PING".toList = "PONG".toList) := by decide
  unfold dispatch
  simp only [hcmd, htext, e1, if_false, if_true]

theorem dispatch_part (env : Env) (st : State) (n u ch : List Char) (argv : Tokens)
    (hcmd : tok argv 0 = some "PART".toList) (hchan : tok argv (TOK_CHAN - TOK_CMD) = some ch) :
    dispatch env st (some n) (some u) argv =
      if n = st.nick then .ok st
      else
        match name_rm st ch n with
        | .error e => .error e
        | .ok r =>
          route env r.1 (some n) (some ch) (tok argv (TOK_TEXT - TOK_CMD)) false false
            (snprintf IRC_MSG_MAX
              ("-!- ".toList ++ n ++ "(".toList ++ u ++ ") has left ".toList ++ ch ++ ": ".toList
                ++ [DQ] ++ (tok argv (TOK_TEXT - TOK_CMD)).getD [] ++ [DQ])) := by
  have e1 : ¬ ("PART".toList = "PONG".toList) := by decide
  have e2 : ¬ ("PART".toList = "PING".toList) := by decide
  have e3 : ¬ ("PART".toList = "353".toList) := by decide
  have e4 : ¬ ("PART".toList = "005".toList) := by decide
  have e5 : ¬ ("PART".toList = "MODE".toList) := by decide
  have e6 : ¬ ("PART".toList = "KICK".toList) := by decide
  have e7 : ¬ ("PART".toList = "TOPIC".toList) := by decide
  have e8 : ¬ ("PART".toList = "ERROR".toList) := by decide
  have e9 : ¬ ("PART".toList = "JOIN".toList) := by decide
  unfold dispatch
  simp only [hcmd, hchan, e1, e2, e3, e4, e5, e6, e7, e8, e9, if_false, if_true, false_and,
    true_and, Option.getD_some, reduceCtorEq, or_self, ne_eq, not_false_eq_true,
    Option.some.injEq]

theorem dispatch_privmsg (env : Env) (st : State) (s u : List Char) (argv : Tokens)
    (hcmd : tok argv 0 = some "PRIVMSG".toList) :
    dispatch env st (some s) (some u) argv =
      route env st (some s) (tok argv (TOK_CHAN - TOK_CMD)) (tok argv (TOK_TEXT - TOK_CMD))
        false true [] := by
  have e1 : ¬ ("PRIVMSG".toList = "PONG".toList) := by decide
  have e2 : ¬ ("PRIVMSG".toList = "PING".toList) := by decide
  have e3 : ¬ ("PRIVMSG".toList = "353".toList) := by decide
  have e4 : ¬ ("PRIVMSG".toList = "005".toList) := by decide
  have e5 : ¬ ("PRIVMSG".toList = "MODE".toList) := by decide
  have e6 : ¬ ("PRIVMSG".toList = "KICK".toList) := by decide
  have e7 : ¬ ("PRIVMSG".toList = "TOPIC".toList) := by decide
  have e8 : ¬ ("PRIVMSG".toList = "ERROR".toList) := by decide
  have e9 : ¬ ("PRIVMSG".toList = "JOIN".toList) := by decide
  have e10 : ¬ ("PRIVMSG".toList = "PART".toList) := by decide
  have e11 : ¬ ("PRIVMSG".toList = "QUIT".toList) := by decide
  have e12 : ¬ ("PRIVMSG".toList = "NICK".toList) := by decide
  have e13 : ¬ ("PRIVMSG".toList = "NOTICE".toList) := by decide
  unfold dispatch
  simp only [hcmd, e1, e2, e3, e4, e5, e6, e7, e8, e9, e10, e11, e12, e13, if_false, if_true,
    false_and, reduceCtorEq, or_self]

theorem dispatch_nick (env : Env) (st : State) (old u new : List Char) (argv : Tokens)
    (hcmd : tok argv 0 = some "NICK".toList)
    (htext : tok argv (TOK_TEXT - TOK_CMD) = some new) :
    dispatch env st (some old) (some u) argv =
      if new = st._nick then name_menick { st with nick := strlcpy st._nick 32 } old new
      else name_nick st old new := by
  have e1 : ¬ ("NICK".toList = "PONG".toList) := by decide
  have e2 : ¬ ("NICK".toList = "PING".toList) := by decide
  have e3 : ¬ ("NICK".toList = "353".toList) := by decide
  have e4 : ¬ ("NICK".toList = "005".toList) := by decide
  have e5 : ¬ ("NICK".toList = "MODE".toList) := by decide
  have e6 : ¬ ("NICK".toList = "KICK".toList) := by decide
  have e7 : ¬ ("NICK".toList = "TOPIC".toList) := by decide
  have e8 : ¬ ("NICK".toList = "ERROR".toList) := by decide
  have e9 : ¬ ("NICK".toList = "JOIN".toList) := by decide
  have e10 : ¬ ("NICK".toList = "PART".toList) := by decide
  have e11 : ¬ ("NICK".toList = "QUIT".toList) := by decide
  unfold dispatch
  simp only [hcmd, htext, e1, e2, e3, e4, e5, e6, e7, e8, e9, e10, e11, if_false, if_true,
    false_and, true_and, Option.getD_some, reduceCtorEq, or_self, ne_eq, not_false_eq_true,
    Option.some.injEq]

/-! ## The routing tail of `proc_server_cmd` -/

theorem name_find_entry (s : List Char) (ns : List Nick) :
    (name_find s ns).bind (fun j => ns.get? j) = ns.find? (fun k => decide (s = k.name)) := by
  induction ns with
  | nil => rfl
  | cons k ks ih =>
    rw [name_find]
    by_cases h : s = k.name
    · simp [h]
    · rw [if_neg h, List.find?_cons]
      simp only [h, decide_False]
      rw [← ih]
      cases name_find s ks <;> simp

theorem channel_join_nil (env : Env) (st : State) : channel_join env st [] = .error .undef := by
  unfold channel_join
  rw [channel_find_nil]

/-- The routing of a PRIVMSG whose target is the local nickname. -/
theorem route_privmsg_self (env : Env) (st st1 : State) (s : List Char)
    (text : Option (List Char)) (m0 : List Char) (j : Nat) (c : Channel)
    (hjoin : channel_join env st s = .ok (st1, some j)) (hc : st1.channels.get? j = some c) :
    route env st (some s) (some st.nick) text false true m0
      = .ok (channel_print st1 c
          (snprintf IRC_MSG_MAX ("<".toList ++ s ++ "> ".toList ++ text.getD []))) := by
  have hs : s ≠ [] := by
    intro h
    rw [h, channel_join_nil] at hjoin
    cases hjoin
  unfold route
  simp only [if_true, Bool.false_eq_true, if_false, reduceCtorEq, Option.some.injEq, hs,
    or_self, Option.getD_some, hjoin, hc]

/-- The routing of a line whose channel field is not the local nickname (PRIVMSG or one of
the commands that keep their own text). -/
theorem route_chan (env : Env) (st st1 : State) (s ch : List Char)
    (text : Option (List Char)) (m0 : List Char) (isprivmsg : Bool) (j : Nat) (c : Channel)
    (hne : ch ≠ st.nick)
    (hjoin : channel_join env st ch = .ok (st1, some j)) (hc : st1.channels.get? j = some c) :
    route env st (some s) (some ch) text false isprivmsg m0
      = .ok (channel_print st1 c
          (if isprivmsg then
            snprintf IRC_MSG_MAX ("<".toList
              ++ (if st.trackprefix then stored_prefix s c.nicks else [])
              ++ s ++ "> ".toList ++ text.getD [])
           else m0)) := by
  have hs : ch ≠ [] := by
    intro h
    rw [h, channel_join_nil] at hjoin
    cases hjoin
  obtain ⟨c', hc', _, hcase⟩ := channel_join_spec env st st1 ch j hjoin
  rw [hc] at hc'
  cases hc'
  have hne' : ¬ (some ch = some st.nick) := fun h => hne (Option.some.inj h)
  have hc2 : st1.channels[j]? = some c := by rw [← List.get?_eq_getElem?]; exact hc
  unfold route
  simp only [hne', if_false, Bool.false_eq_true]
  rcases hcase with ⟨h1, hf⟩ | ⟨hf, _, hn, _⟩
  · subst h1
    simp only [hf, hc, name_find_entry]
    by_cases ht : st1.trackprefix = true
    · cases isprivmsg
      · simp [ht, hs, hjoin, hc, hc2]
      · simp [ht, hs, hjoin, hc, hc2, stored_prefix]
    · cases isprivmsg
      · simp [ht, hs, hjoin, hc, hc2]
      · simp [ht, hs, hjoin, hc, hc2, pfx_text]
  · simp only [hf]
    have e : stored_prefix s c.nicks = [] := by rw [hn]; rfl
    by_cases ht : st.trackprefix = true
    · cases isprivmsg
      · simp [ht, hs, hjoin, hc, hc2]
      · simp [ht, hs, hjoin, hc, hc2, e, pfx_text]
    · cases isprivmsg
      · simp [ht, hs, hjoin, hc, hc2]
      · simp [ht, hs, hjoin, hc, hc2, pfx_text]

/-! ## `name_rm` -/

theorem without_of_not_holds (n : List Char) (ns : List Nick) (h : holds n ns = false) :
    without n ns = ns := by
  unfold without
  apply List.eraseP_of_forall_not
  intro k hk hn
  unfold holds at h
  have : ns.any (fun k => decide (n = k.name)) = true := List.any_eq_true.2 ⟨k, hk, hn⟩
  rw [h] at this
  cases this

theorem name_rm_found (st : State) (ch n : List Char) (i : Nat) (c : Channel)
    (hf : channel_find st ch = .ok (some i)) (hc : st.channels.get? i = some c) :
    name_rm st ch n = .ok (set_roster st i (without n c.nicks), holds n c.nicks) := by
  unfold name_rm
  simp only [hf, hc, name_rm3_eq]
  by_cases h : holds n c.nicks = true
  · simp [h]
  · simp only [Bool.not_eq_true] at h
    simp only [h, Bool.false_eq_true, if_false]
    rw [without_of_not_holds n c.nicks h, set_roster_same st i c hc]

theorem name_rm_absent (st : State) (ch n : List Char) (hf : channel_find st ch = .ok none) :
    name_rm st ch n = .ok (st, false) := by
  unfold name_rm
  simp only [hf]

/-! ## The dispatch on JOIN -/

theorem dispatch_join (env : Env) (st : State) (n u ch : List Char) (argv : Tokens)
    (hcmd : tok argv 0 = some "JOIN".toList)
    (hch : (if tok argv (TOK_TEXT - TOK_CMD) ≠ none then tok argv (TOK_TEXT - TOK_CMD)
            else tok argv (TOK_CHAN - TOK_CMD)) = some ch) :
    dispatch env st (some n) (some u) argv =
      match name_add st ch n with
      | .error e => .error e
      | .ok st1 =>
        route env st1 (some n) (some ch) (tok argv (TOK_TEXT - TOK_CMD)) false false
          (snprintf IRC_MSG_MAX
            ("-!- ".toList ++ n ++ "(".toList ++ u ++ ") has joined ".toList ++ ch)) := by
  have e1 : ¬ ("JOIN".toList = "PONG".toList) := by decide
  have e2 : ¬ ("JOIN".toList = "PING".toList) := by decide
  have e3 : ¬ ("JOIN".toList = "353".toList) := by decide
  have e4 : ¬ ("JOIN".toList = "005".toList) := by decide
  have e5 : ¬ ("JOIN".toList = "MODE".toList) := by decide
  have e6 : ¬ ("JOIN".toList = "KICK".toList) := by decide
  have e7 : ¬ ("JOIN".toList = "TOPIC".toList) := by decide
  have e8 : ¬ ("JOIN".toList = "ERROR".toList) := by decide
  have hex : tok argv (TOK_CHAN - TOK_CMD) ≠ none ∨ tok argv (TOK_TEXT - TOK_CMD) ≠ none := by
    by_cases h : tok argv (TOK_TEXT - TOK_CMD) ≠ none
    · exact Or.inr h
    · rw [if_neg h] at hch
      left
      rw [hch]
      simp
  unfold dispatch
  simp only [hcmd, e1, e2, e3, e4, e5, e6, e7, e8, if_false, if_true, false_and,
    true_and, Option.getD_some, reduceCtorEq, or_self, hex, hch]

/-- A JOIN line for a channel that is not in the directory: `name_add` runs before
`channel_join` has created the record, finds no channel and returns, so the channel that
the routing tail then creates has an empty roster. -/
theorem join_of_absent_channel (env : Env) (st st1 : State) (buf n u ch : List Char)
    (argv : Tokens) (j : Nat)
    (hline : server_line buf (some n) (some u) argv)
    (hcmd : tok argv 0 = some "JOIN".toList)
    (hch : (if tok argv (TOK_TEXT - TOK_CMD) ≠ none then tok argv (TOK_TEXT - TOK_CMD)
            else tok argv (TOK_CHAN - TOK_CMD)) = some ch)
    (hne : ch ≠ st.nick) (habs : channel_find st ch = .ok none)
    (hjoin : channel_join env st ch = .ok (st1, some j)) :
    ∃ c, st1.channels = c :: st.channels ∧ c.nicks = [] ∧
      proc_server_cmd env st buf = .ok (channel_print st1 c (snprintf IRC_MSG_MAX
        ("-!- ".toList ++ n ++ "(".toList ++ u ++ ") has joined ".toList ++ ch))) := by
  obtain ⟨c, hc, _, hcase⟩ := channel_join_spec env st st1 ch j hjoin
  rcases hcase with ⟨_, hf⟩ | ⟨_, _, hnil, hst⟩
  · rw [habs] at hf
    cases hf
  · refine ⟨c, by rw [hst], hnil, ?_⟩
    rw [proc_server_cmd_eq env st buf _ _ argv hline, dispatch_join env st n u ch argv hcmd hch]
    have hadd : name_add st ch n = .ok st := by
      unfold name_add name_add3
      rw [habs]
    rw [hadd]
    simp only
    rw [route_chan env st st1 n ch _ _ false j c hne hjoin hc]
    rfl

/-! ## `name_add3` for a nick that is not listed -/

theorem name_find_none (n : List Char) (ns : List Nick) (h : holds n ns = false) :
    name_find n ns = none := by
  induction ns with
  | nil => rfl
  | cons k ks ih =>
    unfold holds at h ih
    rw [List.any_cons, Bool.or_eq_false_iff] at h
    have hk : ¬ (n = k.name) := by simpa using h.1
    rw [name_find, if_neg hk, ih h.2]
    rfl

theorem name_add3_fresh (st : State) (ch new : List Char) (p : Char) (i : Nat) (c : Channel)
    (hf : channel_find st ch = .ok (some i)) (hc : st.channels.get? i = some c)
    (hnew : ∃ b r, new = b :: r ∧ strchr st.upref b = none)
    (hfresh : holds new c.nicks = false) :
    name_add3 st ch new p
      = .ok (set_roster st i ({ name := strlcpy new IRC_NICK_MAX, pfx := p } :: c.nicks)) := by
  obtain ⟨b, r, rfl, hb⟩ := hnew
  unfold name_add3
  simp only [hf, hc]
  unfold roster_add
  simp only [hb, Option.isSome_none, Bool.false_eq_true, if_false, and_false,
    name_find_none _ _ hfresh]

/-! ## The loop of `name_nick` -/

theorem modify_at_split {α : Type} (f : α → α) (i : Nat) (l : List α) (x : α)
    (h : l.get? i = some x) : modify_at f i l = l.take i ++ f x :: l.drop (i + 1) := by
  induction l generalizing i with
  | nil => simp at h
  | cons y ys ih =>
    cases i with
    | zero =>
      simp only [List.get?_cons_zero, Option.some.injEq] at h
      subst h
      rfl
    | succ j =>
      simp only [List.get?_cons_succ] at h
      simp [modify_at, ih j h]

theorem drop_of_get? {α : Type} (l : List α) (i : Nat) (x : α) (h : l.get? i = some x) :
    l.drop i = x :: l.drop (i + 1) := by
  induction l generalizing i with
  | nil => simp at h
  | cons y ys ih =>
    cases i with
    | zero =>
      simp only [List.get?_cons_zero, Option.some.injEq] at h
      subst h
      rfl
    | succ j =>
      simp only [List.get?_cons_succ] at h
      simpa using ih j h

theorem take_succ_of_get? {α : Type} (l : List α) (i : Nat) (x : α) (h : l.get? i = some x) :
    l.take (i + 1) = l.take i ++ [x] := by
  induction l generalizing i with
  | nil => simp at h
  | cons y ys ih =>
    cases i with
    | zero =>
      simp only [List.get?_cons_zero, Option.some.injEq] at h
      subst h
      rfl
    | succ j =>
      simp only [List.get?_cons_succ] at h
      simp [ih j h]

theorem get?_length_lt {α : Type} (l : List α) (i : Nat) (x : α) (h : l.get? i = some x) :
    i < l.length := by
  by_contra hlt
  rw [List.get?_eq_none.2 (by omega)] at h
  cases h

theorem visited_none (f : Channel → Channel) (g : Channel → List (List Char × List Char))
    (k i : Nat) (st : State) (h : st.channels.get? i = none) : visited f g k i st = st := by
  have hlen : st.channels.length ≤ i := List.get?_eq_none.1 h
  have h1 : st.channels.drop i = [] := List.drop_of_length_le hlen
  have h2 : st.channels.drop (i + k) = [] := List.drop_of_length_le (by omega)
  have h3 : st.channels.take i = st.channels := List.take_of_length_le hlen
  unfold visited
  simp [h1, h2, h3]

theorem visited_zero (f : Channel → Channel) (g : Channel → List (List Char × List Char))
    (i : Nat) (st : State) : visited f g 0 i st = st := by
  unfold visited
  simp

theorem visited_succ (f : Channel → Channel) (g : Channel → List (List Char × List Char))
    (k i : Nat) (st st3 : State) (c : Channel) (hc : st.channels.get? i = some c)
    (h3 : st3 = { st with channels := st.channels.take i ++ f c :: st.channels.drop (i + 1),
                          log := st.log ++ g c }) :
    visited f g k (i + 1) st3 = visited f g (k + 1) i st := by
  have hlen : i < st.channels.length := get?_length_lt _ _ _ hc
  have hd := drop_of_get? st.channels i c hc
  have htl : (st.channels.take i).length = i := by
    rw [List.length_take]
    omega
  have e1 : (st.channels.take i ++ f c :: st.channels.drop (i + 1)).take (i + 1)
      = st.channels.take i ++ [f c] := by
    have := @List.take_append _ (st.channels.take i) (f c :: st.channels.drop (i + 1)) 1
    rw [htl] at this
    rw [this]
    rfl
  have e2 : ∀ m, (st.channels.take i ++ f c :: st.channels.drop (i + 1)).drop (i + 1 + m)
      = st.channels.drop (i + 1 + m) := by
    intro m
    have := @List.drop_append _ (st.channels.take i) (f c :: st.channels.drop (i + 1)) (1 + m)
    rw [htl] at this
    rw [show i + 1 + m = i + (1 + m) by omega, this]
    rw [show 1 + m = m + 1 by omega, List.drop_succ_cons, List.drop_drop]
    congr 1
    omega
  subst h3
  unfold visited
  simp only [e1, e2 0, e2 k, Nat.add_zero, hd, List.take_succ_cons, List.map_cons,
    List.flatten_cons]
  have e3 : i + 1 + k = i + (k + 1) := by omega
  simp only [e3, List.append_assoc, List.cons_append, List.nil_append, List.singleton_append]

theorem state_same (st : State) (c : Channel) (i : Nat) (hc : st.channels.get? i = some c) :
    st = { st with channels := st.channels.take i ++ c :: st.channels.drop (i + 1),
                   log := st.log ++ [] } := by
  have : st.channels.take i ++ c :: st.channels.drop (i + 1) = st.channels := by
    rw [← drop_of_get? st.channels i c hc, List.take_append_drop]
  rw [this, List.append_nil]

theorem channel_find_print (st : State) (c : Channel) (m x : List Char) :
    channel_find (channel_print st c m) x = channel_find st x := rfl

theorem rename_in_reached (old new : List Char) (c : Channel) (h : reached old c = true) :
    rename_in old new c = { c with nicks :=
      { name := strlcpy new IRC_NICK_MAX, pfx := pfx_of old c.nicks } :: without old c.nicks } := by
  unfold rename_in
  rw [if_pos h]

theorem rename_in_other (old new : List Char) (c : Channel) (h : reached old c = false) :
    rename_in old new c = c := by
  unfold rename_in
  simp [h]

/-- The loop of `name_nick` in a directory whose named channels are found under their names,
for a new name that does not begin with a prefix-table character and is not listed in any
roster the loop reaches. -/
theorem name_nick_loop_eq (old new : List Char) :
    ∀ (k i : Nat) (st : State),
      (∃ b r, new = b :: r ∧ strchr st.upref b = none) →
      (∀ j c, i ≤ j → st.channels.get? j = some c → c.name ≠ [] →
        channel_find st c.name = .ok (some j)) →
      (∀ j c, i ≤ j → st.channels.get? j = some c → reached old c = true →
        holds new (without old c.nicks) = false) →
      name_nick_loop old new k i st
        = .ok (visited (rename_in old new)
            (fun c => if reached old c then
              [(c.outpath, snprintf IRC_MSG_MAX
                ("-!- ".toList ++ old ++ " changed nick to ".toList ++ [DQ] ++ new ++ [DQ]))]
              else []) k i st) := by
  intro k
  induction k with
  | zero =>
    intro i st _ _ _
    rw [visited_zero]
    rfl
  | succ k ih =>
    intro i st hnew hkeys hfresh
    rw [name_nick_loop]
    cases hc : st.channels.get? i with
    | none =>
      simp only
      rw [visited_none _ _ _ _ _ hc]
    | some c =>
      simp only
      have hk' : ∀ j c, i + 1 ≤ j → st.channels.get? j = some c → c.name ≠ [] →
          channel_find st c.name = .ok (some j) := fun j c hj => hkeys j c (by omega)
      have hf' : ∀ j c, i + 1 ≤ j → st.channels.get? j = some c → reached old c = true →
          holds new (without old c.nicks) = false := fun j c hj => hfresh j c (by omega)
      by_cases hr : reached old c = true
      · have hname : c.name ≠ [] := by
          unfold reached at hr
          simp only [Bool.and_eq_true, decide_eq_true_eq] at hr
          exact hr.1
        have hholds : holds old c.nicks = true := by
          unfold reached at hr
          simp only [Bool.and_eq_true, decide_eq_true_eq] at hr
          exact hr.2
        rw [if_pos hname, name_rm3_eq, if_pos hholds]
        simp only
        have hadd := name_add3_fresh (set_roster st i (without old c.nicks)) c.name new
          (pfx_of old c.nicks) i { c with nicks := without old c.nicks }
          (by rw [channel_find_set_roster]; exact hkeys i c (Nat.le_refl _) hc hname)
          (get?_set_roster st i c _ hc) hnew (hfresh i c (Nat.le_refl _) hc hr)
        rw [hadd, set_roster_twice]
        simp only
        have hget : ∀ j d, i + 1 ≤ j →
            (channel_print (set_roster st i
              ({ name := strlcpy new IRC_NICK_MAX, pfx := pfx_of old c.nicks } :: without old c.nicks))
              c (snprintf IRC_MSG_MAX ("-!- ".toList ++ old ++ " changed nick to ".toList
                ++ [Char.ofNat 34] ++ new ++ [Char.ofNat 34]))).channels.get? j = some d →
            st.channels.get? j = some d := by
          intro j d hj hd
          have := get?_modify_at_ne (fun c' : Channel => { c' with nicks :=
            { name := strlcpy new IRC_NICK_MAX, pfx := pfx_of old c.nicks } :: without old c.nicks })
            i j st.channels (by omega)
          unfold channel_print set_roster at hd
          simp only at hd
          rw [this] at hd
          exact hd
        refine Eq.trans (ih (i + 1) _ ?_ ?_ ?_) ?_
        · exact hnew
        · intro j d hj hd hdn
          rw [channel_find_print, channel_find_set_roster]
          exact hk' j d hj (hget j d hj hd) hdn
        · intro j d hj hd hdr
          exact hf' j d hj (hget j d hj hd) hdr
        · congr 1
          apply visited_succ _ _ k i st _ c hc
          unfold channel_print set_roster
          simp only [modify_at_split _ i st.channels c hc, rename_in_reached old new c hr, hr,
            if_true]
          rfl
      · simp only [Bool.not_eq_true] at hr
        have hstep := visited_succ (rename_in old new)
          (fun c => if reached old c then
            [(c.outpath, snprintf IRC_MSG_MAX
              ("-!- ".toList ++ old ++ " changed nick to ".toList ++ [DQ] ++ new ++ [DQ]))]
            else []) k i st st c hc
          (by
            rw [rename_in_other old new c hr]
            simp only [hr, Bool.false_eq_true, if_false]
            exact state_same st c i hc)
        by_cases hname : c.name ≠ []
        · have hholds : holds old c.nicks = false := by
            unfold reached at hr
            simpa [hname] using hr
          rw [if_pos hname, name_rm3_eq, hholds]
          simp only [Bool.false_eq_true, if_false]
          rw [ih (i + 1) st hnew hk' hf', hstep]
        · rw [if_neg hname, ih (i + 1) st hnew hk' hf', hstep]

/-! ## A loop that has visited every channel -/

theorem visited_all (f : Channel → Channel) (g : Channel → List (List Char × List Char))
    (st : State) :
    visited f g st.channels.length 0 st
      = { st with channels := st.channels.map f, log := st.log ++ (st.channels.map g).flatten } := by
  unfold visited
  simp

theorem flatten_reached (p : Channel → Bool) (h : Channel → List Char × List Char)
    (cs : List Channel) :
    (cs.map (fun c => if p c then [h c] else [])).flatten = (cs.filter p).map h := by
  induction cs with
  | nil => rfl
  | cons c cs ih =>
    by_cases hp : p c = true
    · simp [hp, ih]
    · simp only [Bool.not_eq_true] at hp
      simp [hp, ih]

/-! ## Roster and table operations leave the active nickname alone -/

theorem print_master_nick (st st' : State) (m : List Char) (h : print_master st m = .ok st') :
    st'.nick = st.nick := by
  unfold print_master at h
  split at h
  · cases h
  · split at h
    · cases h
    · cases h
      rfl

theorem name_add3_nick (st st' : State) (ch n : List Char) (p : Char)
    (h : name_add3 st ch n p = .ok st') : st'.nick = st.nick := by
  unfold name_add3 at h
  split at h
  · cases h
  · cases h; rfl
  · split at h
    · cases h; rfl
    · split at h
      · cases h
      · cases h; rfl

theorem proc_names_loop_nick (chan : List Char) (ps : List (List Char)) :
    ∀ (st st' : State), proc_names_loop chan ps st = .ok st' → st'.nick = st.nick := by
  induction ps with
  | nil =>
    intro st st' h
    cases h
    rfl
  | cons p ps ih =>
    intro st st' h
    rw [proc_names_loop] at h
    split at h
    · cases h
    · rename_i st1 h1
      rw [ih st1 st' h]
      exact name_add3_nick st st1 chan p NUL h1

theorem parse_prefix_nick (st : State) (buf : List Char) : ( parse_prefix st buf).nick = st.nick := by
  unfold parse_prefix
  split
  · rfl
  · split <;> rfl

theorem parse_cmodes_nick (st : State) (buf : List Char) : (parse_cmodes st buf).nick = st.nick := by
  unfold parse_cmodes
  split <;> rfl

theorem cap_parse_loop_nick (ps : List (List Char)) :
    ∀ st : State, (cap_parse_loop ps st).nick = st.nick := by
  induction ps with
  | nil => intro st; rfl
  | cons p ps ih =>
    intro st
    rw [cap_parse_loop]
    split
    · rw [ih, parse_prefix_nick]
    · split
      · rw [ih, parse_cmodes_nick]
      · rw [ih]

theorem cap_parse_nick (st : State) (buf : List Char) : (cap_parse st buf).nick = st.nick :=
  cap_parse_loop_nick _ st

theorem name_mode_nick (st st' : State) (chan mode args : Option (List Char))
    (h : name_mode st chan mode args = .ok st') : st'.nick = st.nick := by
  unfold name_mode at h
  split at h
  · cases h
  · split at h
    · cases h
    · cases h; rfl
    · split at h
      · cases h; rfl
      · split at h
        · cases h
        · split at h
          · cases h; rfl
          · split at h
            · cases h
            · cases h; rfl

theorem channel_join_nick (env : Env) (st st1 : State) (x : List Char) (r : Option Nat)
    (h : channel_join env st x = .ok (st1, r)) : st1.nick = st.nick := by
  unfold channel_join at h
  split at h
  · cases h
  · cases h; rfl
  · unfold channel_add at h
    split at h
    · cases h
    · split at h
      · cases h; rfl
      · cases h; rfl

theorem name_rm_nick (st : State) (ch n : List Char) (r : State × Bool)
    (h : name_rm st ch n = .ok r) : r.1.nick = st.nick := by
  unfold name_rm at h
  split at h
  · cases h
  · cases h; rfl
  · split at h
    · cases h; rfl
    · split at h
      · cases h; rfl
      · cases h; rfl

theorem name_quit_nick (st : State) (n u : List Char) (t : Option (List Char)) :
    (name_quit st n u t).nick = st.nick := rfl

theorem name_nick_loop_nick (old new : List Char) :
    ∀ (k i : Nat) (st st' : State), name_nick_loop old new k i st = .ok st' →
      st'.nick = st.nick := by
  intro k
  induction k with
  | zero =>
    intro i st st' h
    cases h
    rfl
  | succ k ih =>
    intro i st st' h
    rw [name_nick_loop] at h
    split at h
    · cases h; rfl
    · split at h
      · split at h
        · split at h
          · cases h
          · rename_i st2 h2
            have e1 := ih _ _ _ h
            have e2 := name_add3_nick _ _ _ _ _ h2
            exact e1.trans e2
        · have e1 := ih _ _ _ h
          exact e1
      · have e1 := ih _ _ _ h
        exact e1

theorem name_menick_loop_nick (old new msg : List Char) :
    ∀ (k i : Nat) (st st' : State), name_menick_loop old new msg k i st = .ok st' →
      st'.nick = st.nick := by
  intro k
  induction k with
  | zero =>
    intro i st st' h
    cases h
    rfl
  | succ k ih =>
    intro i st st' h
    rw [name_menick_loop] at h
    split at h
    · cases h; rfl
    · split at h
      · split at h
        · split at h
          · cases h
          · rename_i st2 h2
            have e1 := ih _ _ _ h
            have e2 := name_add3_nick _ _ _ _ _ h2
            exact e1.trans e2
        · have e1 := ih _ _ _ h
          exact e1
      · have e1 := ih _ _ _ h
        exact e1

/-! ## The dispatcher and the active nickname -/

theorem route_nick (env : Env) (st st' : State) (nicksrv chan text : Option (List Char))
    (isnotice isprivmsg : Bool) (msg : List Char)
    (h : route env st nicksrv chan text isnotice isprivmsg msg = .ok st') :
    st'.nick = st.nick := by
  unfold route at h
  simp only at h
  split at h
  · cases h
  · split at h
    · split at h
      · cases h; rfl
      · exact print_master_nick _ _ _ h
    · split at h
      · cases h
      · rename_i st1 hj
        cases h
        exact channel_join_nick env st _ _ _ hj
      · rename_i st1 i hj
        have e := channel_join_nick env st _ _ _ hj
        split at h
        · cases h; exact e
        · cases h; exact e

theorem proc_names_nick (st st' : State) (chan : List Char) (names : Option (List Char))
    (pending : List (List Char)) (h : proc_names st chan names pending = .ok st') :
    st'.nick = st.nick := proc_names_loop_nick chan _ st st' h

theorem name_nick_nick (st st' : State) (old new : List Char)
    (h : name_nick st old new = .ok st') : st'.nick = st.nick :=
  name_nick_loop_nick old new _ _ st st' h

theorem name_menick_nick (st st' : State) (old new : List Char)
    (h : name_menick st old new = .ok st') : st'.nick = st.nick :=
  name_menick_loop_nick old new _ _ _ st st' h

/-- The dispatch changes the active nickname in one branch only: that of a NICK line with
a user-bearing source whose trailing text equals the pending rename. -/
theorem dispatch_nick_frame (env : Env) (st st' : State) (nicksrv user : Option (List Char))
    (argv : Tokens) (h : dispatch env st nicksrv user argv = .ok st') :
    st'.nick = st.nick ∨
    (nicksrv ≠ none ∧ user ≠ none ∧ tok argv 0 = some "NICK".toList ∧
      tok argv (TOK_TEXT - TOK_CMD) = some st._nick ∧ st'.nick = strlcpy st._nick 32) := by
  unfold dispatch at h
  cases hcmd : tok argv 0 with
  | none =>
    rw [hcmd] at h
    cases h
    exact Or.inl rfl
  | some cmd =>
    rw [hcmd] at h
    dsimp only at h
    by_cases c1 : cmd = "PONG".toList
    · rw [if_pos c1] at h
      cases h; exact Or.inl rfl
    rw [if_neg c1] at h
    by_cases c2 : cmd = "PING".toList
    · rw [if_pos c2] at h
      split at h
      · cases h
      · cases h; exact Or.inl rfl
    rw [if_neg c2] at h
    by_cases c3 : cmd = "353".toList
    · rw [if_pos c3] at h
      split at h
      · cases h
      · split at h
        · split at h
          · cases h
          · rename_i st1 h1
            exact Or.inl ((proc_names_nick _ _ _ _ _ h).trans (print_master_nick _ _ _ h1))
        · cases h; exact Or.inl rfl
    rw [if_neg c3] at h
    by_cases c4 : cmd = "005".toList
    · rw [if_pos c4] at h
      split at h
      · cases h
      · rename_i st1 h1
        have e1 := print_master_nick _ _ _ h1
        split at h
        · cases h
        · split at h
          · cases h
            exact Or.inl ((cap_parse_nick _ _).trans e1)
          · cases h
            exact Or.inl ((cap_parse_nick _ _).trans ((cap_parse_nick _ _).trans e1))
    rw [if_neg c4] at h
    by_cases c5 : cmd = "MODE".toList
    · rw [if_pos c5] at h
      split at h
      · cases h
      · split at h
        · cases h
        · rename_i st1 h1
          left
          refine (route_nick _ _ _ _ _ _ _ _ _ h).trans ?_
          split at h1
          · exact name_mode_nick _ _ _ _ _ h1
          · cases h1; rfl
    rw [if_neg c5] at h
    by_cases c6 : cmd = "KICK".toList ∧ tok argv (TOK_ARG - TOK_CMD) ≠ none
    · rw [if_pos c6] at h
      split at h
      · split at h
        · cases h
        · rename_i r hr
          exact Or.inl ((route_nick _ _ _ _ _ _ _ _ _ h).trans (name_rm_nick _ _ _ _ hr))
      · cases h
    rw [if_neg c6] at h
    by_cases c7 : cmd = "TOPIC".toList
    · rw [if_pos c7] at h
      split at h
      · cases h
      · exact Or.inl (route_nick _ _ _ _ _ _ _ _ _ h)
    rw [if_neg c7] at h
    by_cases hsrc : nicksrv = none ∨ user = none
    · rw [if_pos hsrc] at h
      exact Or.inl (print_master_nick _ _ _ h)
    rw [if_neg hsrc] at h
    by_cases c8 : cmd = "ERROR".toList
    · rw [if_pos c8] at h
      exact Or.inl (route_nick _ _ _ _ _ _ _ _ _ h)
    rw [if_neg c8] at h
    by_cases c9 : cmd = "JOIN".toList ∧
        (tok argv (TOK_CHAN - TOK_CMD) ≠ none ∨ tok argv (TOK_TEXT - TOK_CMD) ≠ none)
    · rw [if_pos c9] at h
      split at h
      · cases h
      · rename_i st1 h1
        exact Or.inl ((route_nick _ _ _ _ _ _ _ _ _ h).trans (name_add3_nick _ _ _ _ _ h1))
    rw [if_neg c9] at h
    by_cases c10 : cmd = "PART".toList ∧ tok argv (TOK_CHAN - TOK_CMD) ≠ none
    · rw [if_pos c10] at h
      split at h
      · cases h; exact Or.inl rfl
      · split at h
        · cases h
        · rename_i r hr
          exact Or.inl ((route_nick _ _ _ _ _ _ _ _ _ h).trans (name_rm_nick _ _ _ _ hr))
    rw [if_neg c10] at h
    by_cases c11 : cmd = "QUIT".toList
    · rw [if_pos c11] at h
      cases h; exact Or.inl rfl
    rw [if_neg c11] at h
    by_cases c12 : cmd = "NICK".toList ∧ tok argv (TOK_TEXT - TOK_CMD) = some st._nick
    · rw [if_pos c12] at h
      right
      have e := name_menick_nick _ _ _ _ h
      simp only [not_or] at hsrc
      exact ⟨hsrc.1, hsrc.2, by rw [c12.1], c12.2, e⟩
    rw [if_neg c12] at h
    by_cases c13 : cmd = "NICK".toList ∧ tok argv (TOK_TEXT - TOK_CMD) ≠ none
    · rw [if_pos c13] at h
      exact Or.inl (name_nick_nick _ _ _ _ h)
    rw [if_neg c13] at h
    by_cases c14 : cmd = "NOTICE".toList
    · rw [if_pos c14] at h
      exact Or.inl (route_nick _ _ _ _ _ _ _ _ _ h)
    rw [if_neg c14] at h
    by_cases c15 : cmd = "PRIVMSG".toList
    · rw [if_pos c15] at h
      exact Or.inl (route_nick _ _ _ _ _ _ _ _ _ h)
    rw [if_neg c15] at h
    cases h
    exact Or.inl rfl

/-! ## `name_menick` returns -/

theorem roster_add_ok ( trackprefix : Bool) (upref : List Char) (nicks : List Nick)
    (new : List Char) (p : Char) (hne : new ≠ []) :
    ∃ ns, roster_add trackprefix upref nicks new p = .ok ns := by
  cases new with
  | nil => exact absurd rfl hne
  | cons c0 rest =>
    unfold roster_add
    dsimp only
    split
    · split
      · exact ⟨_, rfl⟩
      · exact ⟨_, rfl⟩
    · exact ⟨_, rfl⟩

theorem name_add3_ok (st : State) (ch new : List Char) (p : Char) (i : Nat) (c : Channel)
    (hf : channel_find st ch = .ok (some i)) (hc : st.channels.get? i = some c)
    (hne : new ≠ []) : ∃ ns, name_add3 st ch new p = .ok (set_roster st i ns) := by
  obtain ⟨ns, hns⟩ := roster_add_ok st.trackprefix st.upref c.nicks new p hne
  unfold name_add3
  simp only [hf, hc, hns]
  exact ⟨ns, rfl⟩

/-- In a directory whose named channels are found under their names, the loop of
`name_menick` runs to its end for a non-empty new name. -/
theorem name_menick_loop_ok (old new msg : List Char) (hne : new ≠ []) :
    ∀ (k i : Nat) (st : State),
      (∀ j c, i ≤ j → st.channels.get? j = some c → c.name ≠ [] →
        channel_find st c.name = .ok (some j)) →
      ∃ st', name_menick_loop old new msg k i st = .ok st' := by
  intro k
  induction k with
  | zero => intro i st _; exact ⟨st, rfl⟩
  | succ k ih =>
    intro i st hkeys
    rw [name_menick_loop]
    cases hc : st.channels.get? i with
    | none => exact ⟨st, rfl⟩
    | some c =>
      dsimp only
      have hk' : ∀ j d, i + 1 ≤ j → (channel_print st c msg).channels.get? j = some d →
          d.name ≠ [] → channel_find (channel_print st c msg) d.name = .ok (some j) :=
        fun j d hj hd hn => hkeys j d (by omega) hd hn
      by_cases hname : c.name ≠ []
      · rw [if_pos hname]
        cases hq : name_rm3 old c.nicks with
        | none => exact ih (i + 1) _ hk'
        | some q =>
          dsimp only
          obtain ⟨ns, hadd⟩ := name_add3_ok (set_roster st i q.1) c.name new q.2 i
            { c with nicks := q.1 }
            (by rw [channel_find_set_roster]; exact hkeys i c (Nat.le_refl _) hc hname)
            (get?_set_roster st i c _ hc) hne
          rw [hadd, set_roster_twice]
          dsimp only
          apply ih (i + 1)
          intro j d hj hd hn
          have hd' : st.channels.get? j = some d := by
            have := get?_modify_at_ne (fun c' : Channel => { c' with nicks := ns })
              i j st.channels (by omega)
            unfold channel_print set_roster at hd
            simp only at hd
            rw [this] at hd
            exact hd
          rw [channel_find_print, channel_find_set_roster]
          exact hkeys j d (by omega) hd' hn
      · rw [if_neg hname]
        exact ih (i + 1) _ hk'

/-- The dispatch of a NICK line that confirms the pending rename. -/
theorem confirmed_rename (env : Env) (st : State) (old u : List Char) (argv : Tokens)
    (hcmd : tok argv 0 = some "NICK".toList)
    (htext : tok argv (TOK_TEXT - TOK_CMD) = some st._nick)
    (hne : st._nick ≠ []) (hkeys : names_are_keys st) :
    ∃ st', dispatch env st (some old) (some u) argv = .ok st' ∧
      st'.nick = strlcpy st._nick 32 := by
  rw [dispatch_nick env st old u st._nick argv hcmd htext, if_pos rfl]
  obtain ⟨st', h⟩ := name_menick_loop_ok old st._nick
    (snprintf IRC_MSG_MAX ("-!- changed nick to ".toList ++ [Char.ofNat 34] ++ st._nick
      ++ [Char.ofNat 34])) hne st.channels.length 0 { st with nick := strlcpy st._nick 32 }
    (fun j c _ hc hn => hkeys j c hc hn)
  exact ⟨st', h, name_menick_loop_nick _ _ _ _ _ _ _ h⟩

/-! ## Input lines and the active nickname -/

theorem proc_channels_privmsg_nick (st st' : State) (ci : Option Nat) (buf : List Char)
    (h : proc_channels_privmsg st ci buf = .ok st') : st'.nick = st.nick := by
  unfold proc_channels_privmsg at h
  split at h
  · cases h
  · cases h; rfl

theorem input_join_nick (env : Env) (st st' : State) (arg : List Char)
    (h : input_join env st arg = .ok st') : st'.nick = st.nick := by
  unfold input_join at h
  dsimp only at h
  split at h
  · split at h
    · cases h
    · rename_i r hr
      cases h
      exact channel_join_nick env st r.1 _ r.2 hr
  · split at h
    · cases h
    · rename_i r hr
      have e := channel_join_nick env st r.1 _ r.2 hr
      split at h
      · exact (proc_channels_privmsg_nick _ _ _ _ h).trans e
      · cases h; exact e

theorem input_leave_nick (st st' : State) (i : Nat) (long : Bool) (arg : List Char)
    (h : input_leave st i long arg = .ok st') : st'.nick = st.nick := by
  unfold input_leave at h
  split at h
  · cases h
  · split at h
    · cases h; rfl
    · split at h
      · cases h; rfl
      · cases h; rfl

/-- No input line changes the active nickname. -/
theorem proc_channels_input_nick (env : Env) (st st' : State) (i : Nat) (buf : List Char)
    (h : proc_channels_input env st i buf = .ok st') : st'.nick = st.nick := by
  unfold proc_channels_input at h
  split at h
  · cases h; rfl
  · rename_i b0 b1s
    by_cases h0 : b0 ≠ '/'
    · rw [if_pos h0] at h
      exact proc_channels_privmsg_nick _ _ _ _ h
    rw [if_neg h0] at h
    split at h
    · cases h; rfl
    · rename_i b1 b2s
      dsimp only at h
      by_cases hb : b2s.head? = some ' ' ∨ b2s = []
      · rw [if_pos hb] at h
        by_cases c1 : b1 = 'j'
        · rw [if_pos c1] at h
          split at h
          · exact input_join_nick _ _ _ _ h
          · cases h; rfl
        rw [if_neg c1] at h
        by_cases c2 : b1 = 't'
        · rw [if_pos c2] at h
          split at h
          · split at h
            · cases h
            · cases h; rfl
          · cases h; rfl
        rw [if_neg c2] at h
        by_cases c3 : b1 = 'a'
        · rw [if_pos c3] at h
          split at h
          · split at h
            · cases h
            · cases h; rfl
          · cases h; rfl
        rw [if_neg c3] at h
        by_cases c4 : b1 = 'n'
        · rw [if_pos c4] at h
          split at h
          · cases h; rfl
          · cases h; rfl
        rw [if_neg c4] at h
        by_cases c5 : b1 = 'l'
        · rw [if_pos c5] at h
          exact input_leave_nick _ _ _ _ _ h
        rw [if_neg c5] at h
        by_cases c6 : b1 = 'o'
        · rw [if_pos c6] at h
          split at h
          · cases h
          · split at h
            · cases h; rfl
            · split at h
              · cases h; rfl
              · cases h; rfl
        rw [if_neg c6] at h
        by_cases c7 : b1 = 'q'
        · rw [if_pos c7] at h
          cases h; rfl
        rw [if_neg c7] at h
        cases h; rfl
      · rw [if_neg hb] at h
        cases h; rfl

/-- The input line `/n new`. -/
theorem input_nick_line (env : Env) (st : State) (i : Nat) (new : List Char) :
    proc_channels_input env st i ("/n ".toList ++ new)
      = .ok (ewritestr { st with _nick := strlcpy new 32 }
          (snprintf IRC_MSG_MAX ("NICK ".toList ++ new ++ [CR, LF]))) := by
  have e : "/n ".toList ++ new = '/' :: 'n' :: ' ' :: new := rfl
  rw [e]
  unfold proc_channels_input
  simp

/-- The input line `/q t`. -/
theorem input_quit_line (env : Env) (st : State) (i : Nat) (t : List Char) :
    proc_channels_input env st i ("/q ".toList ++ t) = .ok (input_quit st true t) := by
  have e : "/q ".toList ++ t = '/' :: 'q' :: ' ' :: t := rfl
  rw [e]
  unfold proc_channels_input
  simp

/-! ## Server lines and the active nickname -/

theorem proc_server_cmd_nick (env : Env) (st st' : State) (buf : List Char)
    (h : proc_server_cmd env st buf = .ok st') :
    st'.nick = st.nick ∨
    ∃ old u argv, server_line buf (some old) (some u) argv ∧ tok argv 0 = some "NICK".toList ∧
      tok argv (TOK_TEXT - TOK_CMD) = some st._nick ∧ st'.nick = strlcpy st._nick 32 := by
  unfold proc_server_cmd at h
  by_cases h0 : cstr buf = []
  · rw [if_pos h0] at h
    cases h
    exact Or.inl rfl
  · rw [if_neg h0] at h
    cases hs : split_source (cstr buf) with
    | none =>
      rw [hs] at h
      cases h
      exact Or.inl rfl
    | some r =>
      obtain ⟨nicksrv, user, cmd⟩ := r
      rw [hs] at h
      dsimp only at h
      rcases dispatch_nick_frame env st st' nicksrv user _ h with e | ⟨h1, h2, h3, h4, h5⟩
      · exact Or.inl e
      · right
        cases nicksrv with
        | none => exact absurd rfl h1
        | some old =>
          cases user with
          | none => exact absurd rfl h2
          | some u => exact ⟨old, u, _, ⟨h0, cmd, hs, rfl⟩, h3, h4, h5⟩

/-! ## Facts about the scenario states -/

/-- The named channels of `roster_session` are found under their names. -/
theorem roster_session_keys : names_are_keys roster_session := by
  intro i c hc hn
  match i, hc with
  | 0, hc =>
    have h0 : roster_session.channels.get? 0 = some ⟨1, "#chat".toList,
        "irc/#chat/in".toList, "irc/#chat/out".toList,
        [⟨"bob".toList, '+'⟩, ⟨"alice".toList, NUL⟩]⟩ := by decide
    rw [h0] at hc
    have := (Option.some.inj hc).symm
    subst this
    decide
  | 1, hc =>
    have h1 : roster_session.channels.get? 1 = some ⟨0, [], "irc/in".toList,
        "irc/out".toList, []⟩ := by decide
    rw [h1] at hc
    have := (Option.some.inj hc).symm
    subst this
    exact absurd rfl hn
  | n + 2, hc =>
    have h2 : roster_session.channels.get? (n + 2) = none := by
      have : roster_session.channels.length = 2 := by decide
      exact List.get?_eq_none.2 (by omega)
    rw [h2] at hc
    cases hc

theorem rename_session_eq :
    rename_session = { roster_session with
      _nick := "newme".toList,
      wire := roster_session.wire ++ ["NICK newme".toList ++ [CR, LF]] } := by
  decide

/-! ## The end of the loop of `run` -/

theorem run_stopped (env : Env) (host : List Char) (ts : List Turn) (st : State)
    (h : st.isrunning = false) : run env host ts st = .ok (some st) := by
  cases ts with
  | nil => simp [run, h]
  | cons t ts => simp [run, h]

theorem main_exit_of_master (st : State) (h : ∃ c ∈ st.channels, st.channelmaster = some c.id) :
    main_exit st = .ok 0 := by
  obtain ⟨c, hc, hm⟩ := h
  unfold main_exit
  rw [hm]
  have : st.channels.any (fun d => decide (d.id = c.id)) = true :=
    List.any_eq_true.2 ⟨c, hc, by simp⟩
  simp only [this, Bool.true_eq_false, if_false]

/-! ## C11: `parse_prefix` on a well-formed text -/

set_option maxRecDepth 100000 in
/-- C11 (code at the failing input): after `setup` has stored the default pairs
`(qaohv)~&@%+`, the line `:irc.example 005 me PREFIX=(ov)@+ CHANMODES=b,k,l,imnt :are supported`
(and likewise the call `parse_prefix("(ov)@+")`) leaves the mode letters `ovohv` and the
prefix characters `@+@%+` in the two arrays: the pairs at the positions 2, 3 and 4 are those
of the previous table, so `h` is still a declared prefix-mode letter, with prefix `%`. -/
theorem c11_stale_pairs_remain :
    (cstr (setup session0).umodes, cstr (setup session0).upref)
      = ("qaohv".toList, "~&@%+".toList) ∧
    (cstr ( parse_prefix (setup session0) "(ov)@+".toList).umodes,
      cstr ( parse_prefix (setup session0) "(ov)@+".toList).upref)
      = ("ovohv".toList, "@+@%+".toList) ∧
    (proc_server_cmd std_env (setup session0)
        ":irc.example 005 me PREFIX=(ov)@+ CHANMODES=b,k,l,imnt :are supported".toList).map
      (fun st => (cstr st.umodes, cstr st.upref, strchr st.umodes 'h', st.upref.getD 3 NUL))
      = .ok ("ovohv".toList, "@+@%+".toList, some 3, '%') := by
  decide

/-! ## C12: malformed prefix maps -/

/-- C12: a text that lacks the opening `(`, lacks a `)`, or whose letter half (between `(`
and the first `)`) and prefix-character half (behind that `)`) differ in length, leaves the
session, and with it both halves of the prefix table, exactly as it was. -/
theorem c12_malformed_prefix_ignored (st : State) (buf : List Char)
    (h : buf.head? ≠ some '(' ∨ ')' ∉ buf ∨
      ∃ L C, buf = '(' :: (L ++ ')' :: C) ∧ ')' ∉ L ∧ L.length ≠ C.length) :
    parse_prefix st buf = st := by
  unfold parse_prefix
  cases hs : strchr buf ')' with
  | none => rfl
  | some k =>
    simp only
    obtain ⟨hk, hfirst⟩ := strchr_first buf ')' k hs (by decide)
    rcases h with h | h | ⟨L, C, rfl, hL, hne⟩
    · simp [h]
    · exact absurd (List.get?_mem hk) h
    · have hk2 : k = L.length + 1 := by
        rcases Nat.lt_trichotomy k (L.length + 1) with hlt | heq | hgt
        · exfalso
          cases k with
          | zero => simp at hk
          | succ j =>
            have hj : j < L.length := by omega
            simp only [List.get?_cons_succ] at hk
            rw [List.get?_eq_getElem?, List.getElem?_append_left hj] at hk
            exact hL (List.getElem?_mem hk)
        · exact heq
        · exfalso
          refine hfirst (L.length + 1) hgt ?_
          simp only [List.get?_cons_succ]
          rw [List.get?_eq_getElem?, List.getElem?_append_right (Nat.le_refl _)]
          simp
      have hlen : k * 2 ≠ ('(' :: (L ++ ')' :: C)).length := by
        simp only [List.length_cons, List.length_append]
        omega
      rw [if_pos (Or.inr (Or.inr hlen))]

/-- C12 (witness): the texts `ov)@+`, `(ov@+` and `(ov)@` leave the default table as it is. -/
theorem c12_malformed_prefix_witness :
    parse_prefix (setup session0) "ov)@+".toList = setup session0 ∧
    parse_prefix (setup session0) "(ov@+".toList = setup session0 ∧
    parse_prefix (setup session0) "(ov)@".toList = setup session0 :=
  ⟨c12_malformed_prefix_ignored _ _ (Or.inl (by decide)),
   c12_malformed_prefix_ignored _ _ (Or.inr (Or.inl (by decide))),
   c12_malformed_prefix_ignored _ _
     (Or.inr (Or.inr ⟨"ov".toList, "@".toList, by decide, by decide, by decide⟩))⟩

/-! ## C13: QUIT -/

set_option maxRecDepth 100000 in
/-- C13 (counterexample): in the session whose channel `#chat` lists bob and alice, the
QUIT line `:alice QUIT :bye`, whose source carries no user, leaves alice in the roster and
appends `bye` to the master log; and once `:alice!u@h JOIN ,` has put alice on the roster
of the master channel, the line `:alice!u@h QUIT :bye` removes her from `#chat` only. -/
theorem c13_counterexample :
    rosters_and_log roster_session
      = ⟨[("#chat".toList, [⟨"bob".toList, '+'⟩, ⟨"alice".toList, NUL⟩]), ([], [])], []⟩ ∧
    (proc_server_cmd std_env roster_session ":alice QUIT :bye".toList).map rosters_and_log
      = .ok ⟨[("#chat".toList, [⟨"bob".toList, '+'⟩, ⟨"alice".toList, NUL⟩]), ([], [])],
             [("irc/out".toList, "bye".toList)]⟩ ∧
    (proc_server_cmd std_env roster_session ":alice!u@h JOIN ,".toList).map rosters_and_log
      = .ok ⟨[("#chat".toList, [⟨"bob".toList, '+'⟩, ⟨"alice".toList, NUL⟩]),
              ([], [⟨"alice".toList, NUL⟩])],
             [("irc/out".toList, "-!- alice(u@h) has joined ,".toList)]⟩ ∧
    ((proc_server_cmd std_env roster_session ":alice!u@h JOIN ,".toList).bind
        (fun st => proc_server_cmd std_env st ":alice!u@h QUIT :bye".toList)).map rosters_and_log
      = .ok ⟨[("#chat".toList, [⟨"bob".toList, '+'⟩]), ([], [⟨"alice".toList, NUL⟩])],
             [("irc/out".toList, "-!- alice(u@h) has joined ,".toList),
              ("irc/#chat/out".toList,
                "-!- alice(u@h) has quit ".toList ++ [DQ] ++ "bye".toList ++ [DQ])]⟩ := by
  decide

/-- C13 (amended): a QUIT line with a user-bearing source `n!u` removes the first entry
named `n` from the roster of every channel other than the master whose roster has one, and
appends one "has quit" record (cut to the message buffer) to the log of each such channel,
in directory order; the master and the channels whose roster has no such entry are left as
they are, nothing else is logged and nothing else of the session changes. Where a roster
names no nick twice, `n` is absent from it afterwards. -/
theorem c13_quit_reaches_holders (env : Env) (st : State) (buf n u : List Char) (argv : Tokens)
    (hline : server_line buf (some n) (some u) argv) (hcmd : tok argv 0 = some "QUIT".toList) :
    ∃ st', proc_server_cmd env st buf = .ok st' ∧
      st'.channels = st.channels.map
        (fun c => if reached n c then { c with nicks := without n c.nicks } else c) ∧
      st'.log = st.log ++ (st.channels.filter (reached n)).map
        (fun c => (c.outpath, snprintf IRC_MSG_MAX
          ("-!- ".toList ++ n ++ "(".toList ++ u ++ ") has quit ".toList ++ [DQ]
            ++ (tok argv (TOK_TEXT - TOK_CMD)).getD [] ++ [DQ]))) ∧
      st' = { st with channels := st'.channels, log := st'.log } ∧
      (∀ c ∈ st.channels, (roster_names c.nicks).Nodup →
        n ∉ roster_names (without n c.nicks)) := by
  rw [proc_server_cmd_eq env st buf _ _ argv hline, dispatch_quit env st n u argv hcmd]
  refine ⟨_, rfl, ?_, ?_, ?_, fun c _ h => without_absent n c.nicks h⟩
  · simp only [name_quit, name_quit_loop_eq]
  · simp only [name_quit, name_quit_loop_eq]
    rfl
  · simp only [name_quit]

set_option maxRecDepth 100000 in
/-- C13 (witness): the line `:alice!u@h QUIT :bye` in the session whose channel `#chat`
lists bob and alice. -/
theorem c13_quit_witness :
    ∃ st', proc_server_cmd std_env roster_session ":alice!u@h QUIT :bye".toList = .ok st' ∧
      st'.channels = roster_session.channels.map
        (fun c => if reached "alice".toList c
          then { c with nicks := without "alice".toList c.nicks } else c) ∧
      st'.log = roster_session.log ++ (roster_session.channels.filter (reached "alice".toList)).map
        (fun c => (c.outpath, snprintf IRC_MSG_MAX
          ("-!- ".toList ++ "alice".toList ++ "(".toList ++ "u@h".toList
            ++ ") has quit ".toList ++ [DQ]
            ++ (tok (tokenize "QUIT :bye".toList) (TOK_TEXT - TOK_CMD)).getD [] ++ [DQ]))) ∧
      st' = { roster_session with channels := st'.channels, log := st'.log } ∧
      (∀ c ∈ roster_session.channels, (roster_names c.nicks).Nodup →
        "alice".toList ∉ roster_names (without "alice".toList c.nicks)) :=
  c13_quit_reaches_holders std_env roster_session ":alice!u@h QUIT :bye".toList
    "alice".toList "u@h".toList (tokenize "QUIT :bye".toList)
    ⟨by decide, "QUIT :bye".toList, by decide, by decide⟩ (by decide)

/-! ## C14: third-person rename -/

set_option maxRecDepth 100000 in
/-- C14 (counterexample): in the session whose channel `#chat` lists bob (prefix `+`) and
alice (no prefix): the line `:alice NICK :al`, whose source carries no user, leaves the
roster as it is and appends `al` to the master log; the line `:bob!u@h NICK :alice`, whose
new name is listed already, removes bob and leaves alice without prefix; the line
`:alice!u@h NICK :+al` stores the entry `al` with prefix `+`; and once `:bob!u@h JOIN ,` has
put bob on the roster of the master channel, `:bob!u@h NICK :rob` renames him in `#chat`
only. -/
theorem c14_counterexample :
    rosters_and_log roster_session
      = ⟨[("#chat".toList, [⟨"bob".toList, '+'⟩, ⟨"alice".toList, NUL⟩]), ([], [])], []⟩ ∧
    (proc_server_cmd std_env roster_session ":alice NICK :al".toList).map rosters_and_log
      = .ok ⟨[("#chat".toList, [⟨"bob".toList, '+'⟩, ⟨"alice".toList, NUL⟩]), ([], [])],
             [("irc/out".toList, "al".toList)]⟩ ∧
    (proc_server_cmd std_env roster_session ":bob!u@h NICK :alice".toList).map
        (fun st => (rosters_and_log st).rosters)
      = .ok [("#chat".toList, [⟨"alice".toList, NUL⟩]), ([], [])] ∧
    (proc_server_cmd std_env roster_session ":alice!u@h NICK :+al".toList).map
        (fun st => (rosters_and_log st).rosters)
      = .ok [("#chat".toList, [⟨"al".toList, '+'⟩, ⟨"bob".toList, '+'⟩]), ([], [])] ∧
    ((proc_server_cmd std_env roster_session ":bob!u@h JOIN ,".toList).bind
        (fun st => proc_server_cmd std_env st ":bob!u@h NICK :rob".toList)).map
        (fun st => (rosters_and_log st).rosters)
      = .ok [("#chat".toList, [⟨"rob".toList, '+'⟩, ⟨"alice".toList, NUL⟩]),
             ([], [⟨"bob".toList, NUL⟩])] := by
  decide

/-- C14 (amended): a NICK line with the user-bearing source `old!u` whose trailing text
`new` is not the pending local rename, in a directory whose named channels are found under
their stored names, for a `new` that does not begin with a prefix-table character and is
listed in no roster that holds `old` (apart from the entry of `old`): in every channel other
than the master whose roster has an entry named `old`, the first such entry is removed and
an entry named `new` (cut to the bytes of the name array) with the prefix of the removed
entry is put at the head of the roster; every other channel, the master included, is left
as it is; one "changed nick" record is appended to the log of each channel so changed, and
nothing else of the session changes. -/
theorem c14_rename_keeps_prefix (env : Env) (st : State) (buf old u new : List Char)
    (argv : Tokens)
    (hline : server_line buf (some old) (some u) argv)
    (hcmd : tok argv 0 = some "NICK".toList)
    (htext : tok argv (TOK_TEXT - TOK_CMD) = some new)
    (hpend : new ≠ st._nick)
    (hkeys : names_are_keys st)
    (hnew : ∃ b r, new = b :: r ∧ strchr st.upref b = none)
    (hfresh : ∀ c ∈ st.channels, reached old c = true → holds new (without old c.nicks) = false) :
    ∃ st', proc_server_cmd env st buf = .ok st' ∧
      st'.channels = st.channels.map (fun c =>
        if reached old c then
          { c with nicks :=
              { name := strlcpy new IRC_NICK_MAX, pfx := pfx_of old c.nicks } :: without old c.nicks }
        else c) ∧
      st'.log = st.log ++ (st.channels.filter (reached old)).map (fun c =>
        (c.outpath, snprintf IRC_MSG_MAX
          ("-!- ".toList ++ old ++ " changed nick to ".toList ++ [DQ] ++ new ++ [DQ]))) ∧
      st' = { st with channels := st'.channels, log := st'.log } := by
  rw [proc_server_cmd_eq env st buf _ _ argv hline,
    dispatch_nick env st old u new argv hcmd htext, if_neg hpend]
  unfold name_nick
  rw [name_nick_loop_eq old new _ 0 st hnew
    (fun j c _ hc hn => hkeys j c hc hn)
    (fun j c _ hc hr => hfresh c (List.get?_mem hc) hr), visited_all, flatten_reached]
  exact ⟨_, rfl, rfl, rfl, rfl⟩

set_option maxRecDepth 100000 in
/-- C14 (witness): the line `:bob!u@h NICK :rob` in the session whose channel `#chat` lists
bob with the prefix `+`. -/
theorem c14_rename_witness :
    ∃ st', proc_server_cmd std_env roster_session ":bob!u@h NICK :rob".toList = .ok st' ∧
      st'.channels = roster_session.channels.map (fun c =>
        if reached "bob".toList c then
          { c with nicks :=
              { name := strlcpy "rob".toList IRC_NICK_MAX, pfx := pfx_of "bob".toList c.nicks }
                :: without "bob".toList c.nicks }
        else c) ∧
      st'.log = roster_session.log ++ (roster_session.channels.filter (reached "bob".toList)).map
        (fun c => (c.outpath, snprintf IRC_MSG_MAX
          ("-!- ".toList ++ "bob".toList ++ " changed nick to ".toList ++ [DQ] ++ "rob".toList
            ++ [DQ]))) ∧
      st' = { roster_session with channels := st'.channels, log := st'.log } :=
  c14_rename_keeps_prefix std_env roster_session ":bob!u@h NICK :rob".toList
    "bob".toList "u@h".toList "rob".toList (tokenize "NICK :rob".toList)
    ⟨by decide, "NICK :rob".toList, by decide, by decide⟩ (by decide) (by decide) (by decide)
    roster_session_keys
    ⟨'r', "ob".toList, by decide, by decide⟩
    (by decide)

/-! ## C15: JOIN -/

set_option maxRecDepth 100000 in
/-- C15 (code at the failing input): in the session whose directory holds `#chat` and the
master, the line `:carol!u@h JOIN :#new` creates `#new` with an empty roster and appends the
"has joined" record to its log: carol is not registered. The same line for `#chat`, which is
in the directory, registers her, and so does a second copy of the line for `#new`. -/
theorem c15_joiner_not_registered :
    rosters_and_log roster_session
      = ⟨[("#chat".toList, [⟨"bob".toList, '+'⟩, ⟨"alice".toList, NUL⟩]), ([], [])], []⟩ ∧
    (proc_server_cmd std_env roster_session ":carol!u@h JOIN :#new".toList).map rosters_and_log
      = .ok ⟨[("#new".toList, []),
              ("#chat".toList, [⟨"bob".toList, '+'⟩, ⟨"alice".toList, NUL⟩]), ([], [])],
             [("irc/#new/out".toList, "-!- carol(u@h) has joined #new".toList)]⟩ ∧
    (proc_server_cmd std_env roster_session ":carol!u@h JOIN #new".toList).map rosters_and_log
      = .ok ⟨[("#new".toList, []),
              ("#chat".toList, [⟨"bob".toList, '+'⟩, ⟨"alice".toList, NUL⟩]), ([], [])],
             [("irc/#new/out".toList, "-!- carol(u@h) has joined #new".toList)]⟩ ∧
    (proc_server_cmd std_env roster_session ":carol!u@h JOIN :#chat".toList).map rosters_and_log
      = .ok ⟨[("#chat".toList,
                [⟨"carol".toList, NUL⟩, ⟨"bob".toList, '+'⟩, ⟨"alice".toList, NUL⟩]), ([], [])],
             [("irc/#chat/out".toList, "-!- carol(u@h) has joined #chat".toList)]⟩ ∧
    ((proc_server_cmd std_env roster_session ":carol!u@h JOIN :#new".toList).bind
        (fun st => proc_server_cmd std_env st ":carol!u@h JOIN :#new".toList)).map rosters_and_log
      = .ok ⟨[("#new".toList, [⟨"carol".toList, NUL⟩]),
              ("#chat".toList, [⟨"bob".toList, '+'⟩, ⟨"alice".toList, NUL⟩]), ([], [])],
             [("irc/#new/out".toList, "-!- carol(u@h) has joined #new".toList),
              ("irc/#new/out".toList, "-!- carol(u@h) has joined #new".toList)]⟩ := by
  decide

/-! ## C16: PART -/

set_option maxRecDepth 100000 in
/-- C16 (counterexample): in the session whose channel `#chat` lists bob and alice and
whose local nickname is `me`, the line `:alice!u@h PART :#chat`, which names the channel in
its trailing text, changes nothing: alice stays listed and nothing is logged. The line
`:alice!u@h PART me :bye`, whose channel field is the local nickname, is routed to a new
channel `alice`, to whose log the "has left" record goes. -/
theorem c16_counterexample :
    roster_session.nick = "me".toList ∧
    rosters_and_log roster_session
      = ⟨[("#chat".toList, [⟨"bob".toList, '+'⟩, ⟨"alice".toList, NUL⟩]), ([], [])], []⟩ ∧
    proc_server_cmd std_env roster_session ":alice!u@h PART :#chat".toList = .ok roster_session ∧
    (proc_server_cmd std_env roster_session ":alice!u@h PART me :bye".toList).map rosters_and_log
      = .ok ⟨[("alice".toList, []),
              ("#chat".toList, [⟨"bob".toList, '+'⟩, ⟨"alice".toList, NUL⟩]), ([], [])],
             [("irc/alice/out".toList,
               "-!- alice(u@h) has left me: ".toList ++ [DQ] ++ "bye".toList ++ [DQ])]⟩ := by
  decide

/-- C16 (amended): a PART line with the user-bearing source `n!u` and the channel field
`ch`. If `n` is the local nickname the state is returned unchanged. Otherwise, with `ch`
different from the local nickname and `channel_join` returning a channel for `ch` (found in
the directory, or new): the first entry named `n` is removed from the roster of that
channel `c` and one "has left" record (cut to the message buffer) is appended, on the `out`
path of `c`; nothing else changes. Where the roster names no nick twice, `n` is absent from
it afterwards. -/
theorem c16_part_rule (env : Env) (st : State) (buf n u ch : List Char) (argv : Tokens)
    (hline : server_line buf (some n) (some u) argv)
    (hcmd : tok argv 0 = some "PART".toList)
    (hchan : tok argv (TOK_CHAN - TOK_CMD) = some ch) :
    (n = st.nick → proc_server_cmd env st buf = .ok st) ∧
    (n ≠ st.nick → ch ≠ st.nick → ∀ st1 j, channel_join env st ch = .ok (st1, some j) →
      ∃ c, st1.channels.get? j = some c ∧ channel_find st1 ch = .ok (some j) ∧
        (st1 = st ∨ (channel_find st ch = .ok none ∧ c.nicks = [] ∧
          st1 = { st with channels := c :: st.channels, next_id := st.next_id + 1 })) ∧
        proc_server_cmd env st buf
          = .ok (channel_print (set_roster st1 j (without n c.nicks)) c (snprintf IRC_MSG_MAX
              ("-!- ".toList ++ n ++ "(".toList ++ u ++ ") has left ".toList ++ ch ++ ": ".toList
                ++ [DQ] ++ (tok argv (TOK_TEXT - TOK_CMD)).getD [] ++ [DQ]))) ∧
        ((roster_names c.nicks).Nodup → n ∉ roster_names (without n c.nicks))) := by
  rw [proc_server_cmd_eq env st buf _ _ argv hline, dispatch_part env st n u ch argv hcmd hchan]
  constructor
  · intro h
    rw [if_pos h]
  · intro hn hch st1 j hjoin
    rw [if_neg hn]
    obtain ⟨c, hc, hfind, hcase⟩ := channel_join_spec env st st1 ch j hjoin
    refine ⟨c, hc, hfind, ?_, ?_, fun h => without_absent n c.nicks h⟩
    · rcases hcase with ⟨h, _⟩ | ⟨h1, _, h2, h3⟩
      · exact Or.inl h
      · exact Or.inr ⟨h1, h2, h3⟩
    · rcases hcase with ⟨h1, hf⟩ | ⟨hf, _, hnil, _⟩
      · subst h1
        rw [name_rm_found st1 ch n j c hf hc]
        simp only
        have hj2 : channel_join env (set_roster st1 j (without n c.nicks)) ch
            = .ok (set_roster st1 j (without n c.nicks), some j) := by
          unfold channel_join
          rw [channel_find_set_roster, hf]
        have hch2 : ch ≠ (set_roster st1 j (without n c.nicks)).nick := hch
        rw [route_chan env (set_roster st1 j (without n c.nicks))
          (set_roster st1 j (without n c.nicks)) n ch _ _ false j _ hch2 hj2
          (get?_set_roster st1 j c (without n c.nicks) hc)]
        rfl
      · rw [name_rm_absent st ch n hf]
        simp only
        rw [route_chan env st st1 n ch _ _ false j c hch hjoin hc]
        have : without n c.nicks = c.nicks := by rw [hnil]; rfl
        rw [this, set_roster_same st1 j c hc]
        rfl

set_option maxRecDepth 100000 in
/-- C16 (witness): the line `:alice!u@h PART #chat :bye` in the session whose channel
`#chat` lists bob and alice. -/
theorem c16_part_witness :
    ∃ c, roster_session.channels.get? 0 = some c ∧
      channel_find roster_session "#chat".toList = .ok (some 0) ∧
      (roster_session = roster_session ∨
        (channel_find roster_session "#chat".toList = .ok none ∧ c.nicks = [] ∧
          roster_session = { roster_session with
            channels := c :: roster_session.channels, next_id := roster_session.next_id + 1 })) ∧
      proc_server_cmd std_env roster_session ":alice!u@h PART #chat :bye".toList
        = .ok (channel_print (set_roster roster_session 0 (without "alice".toList c.nicks)) c
            (snprintf IRC_MSG_MAX
              ("-!- ".toList ++ "alice".toList ++ "(".toList ++ "u@h".toList
                ++ ") has left ".toList ++ "#chat".toList ++ ": ".toList ++ [DQ]
                ++ (tok (tokenize "PART #chat :bye".toList) (TOK_TEXT - TOK_CMD)).getD []
                ++ [DQ]))) ∧
      ((roster_names c.nicks).Nodup → "alice".toList ∉ roster_names (without "alice".toList c.nicks)) :=
  (c16_part_rule std_env roster_session ":alice!u@h PART #chat :bye".toList
    "alice".toList "u@h".toList "#chat".toList (tokenize "PART #chat :bye".toList)
    ⟨by decide, "PART #chat :bye".toList, by decide, by decide⟩ (by decide) (by decide)).2
    (by decide) (by decide) roster_session 0 (by decide)

/-! ## C17: PRIVMSG routing -/

/-- C17: a PRIVMSG line from the sender `s` (with user) to `target` with the text `t`, in a
state in which `channel_join` returns a channel for the routing key (the sender when the
target equals the local nickname, raw comparison; the target otherwise): that channel `c`
is the one the lookup of the key finds afterwards, it was in the directory before or is
new with an empty roster, and the state returned is the state `channel_join` left with one
record appended, on the `out` path of `c`: `<s> t` when the target is the local nickname,
`<Ps> t` otherwise, `P` being the stored prefix of `s` in the roster of `c` when prefix
tracking is enabled (nothing when `s` is not listed or has no prefix). The text is cut to
the message buffer, which no line of the 512-byte line buffer exceeds. -/
theorem c17_privmsg_routing (env : Env) (st st1 : State) (buf s u target t : List Char)
    (argv : Tokens) (j : Nat)
    (hline : server_line buf (some s) (some u) argv)
    (hcmd : tok argv 0 = some "PRIVMSG".toList)
    (htarget : tok argv (TOK_CHAN - TOK_CMD) = some target)
    (htext : tok argv (TOK_TEXT - TOK_CMD) = some t)
    (hjoin : channel_join env st (if target = st.nick then s else target) = .ok (st1, some j)) :
    ∃ c, st1.channels.get? j = some c ∧
      channel_find st1 (if target = st.nick then s else target) = .ok (some j) ∧
      (st1 = st ∨
        (channel_find st (if target = st.nick then s else target) = .ok none ∧ c.nicks = [] ∧
          st1 = { st with channels := c :: st.channels, next_id := st.next_id + 1 })) ∧
      proc_server_cmd env st buf = .ok (channel_print st1 c (snprintf IRC_MSG_MAX
        ("<".toList
          ++ (if target = st.nick ∨ st.trackprefix = false then [] else stored_prefix s c.nicks)
          ++ s ++ "> ".toList ++ t))) := by
  obtain ⟨c, hc, hfind, hcase⟩ := channel_join_spec env st st1 _ j hjoin
  refine ⟨c, hc, hfind, ?_, ?_⟩
  · rcases hcase with ⟨h, _⟩ | ⟨h1, _, h2, h3⟩
    · exact Or.inl h
    · exact Or.inr ⟨h1, h2, h3⟩
  · rw [proc_server_cmd_eq env st buf _ _ argv hline, dispatch_privmsg env st s u argv hcmd,
      htarget, htext]
    by_cases ht : target = st.nick
    · rw [if_pos ht] at hjoin
      rw [ht, route_privmsg_self env st st1 s (some t) [] j c hjoin hc]
      simp
    · rw [if_neg ht] at hjoin
      rw [route_chan env st st1 s target (some t) [] true j c ht hjoin hc]
      by_cases htr : st.trackprefix = true
      · simp [ht, htr]
      · simp [ht, htr]

set_option maxRecDepth 100000 in
/-- C17 (witness): in the session whose channel `#chat` lists bob with the prefix `+`, the
line `:bob!u@h PRIVMSG #chat :hi all` appends `<+bob> hi all` to the log of `#chat`. -/
theorem c17_privmsg_witness :
    ∃ c, roster_session.channels.get? 0 = some c ∧
      channel_find roster_session
        (if "#chat".toList = roster_session.nick then "bob".toList else "#chat".toList)
        = .ok (some 0) ∧
      (roster_session = roster_session ∨
        (channel_find roster_session
            (if "#chat".toList = roster_session.nick then "bob".toList else "#chat".toList)
            = .ok none ∧ c.nicks = [] ∧
          roster_session = { roster_session with
            channels := c :: roster_session.channels, next_id := roster_session.next_id + 1 })) ∧
      proc_server_cmd std_env roster_session ":bob!u@h PRIVMSG #chat :hi all".toList
        = .ok (channel_print roster_session c (snprintf IRC_MSG_MAX
          ("<".toList
            ++ (if "#chat".toList = roster_session.nick ∨ roster_session.trackprefix = false
                then [] else stored_prefix "bob".toList c.nicks)
            ++ "bob".toList ++ "> ".toList ++ "hi all".toList))) :=
  c17_privmsg_routing std_env roster_session roster_session
    ":bob!u@h PRIVMSG #chat :hi all".toList "bob".toList "u@h".toList "#chat".toList
    "hi all".toList (tokenize "PRIVMSG #chat :hi all".toList) 0
    ⟨by decide, "PRIVMSG #chat :hi all".toList, by decide, by decide⟩
    (by decide) (by decide) (by decide) (by decide)

/-! ## C18: PING -/

/-- C18: a line whose command field is PING and whose text field is `t`, with a reply that
fits the message buffer, makes `proc_server_cmd` hand `PONG t` and CRLF to `ewritestr`
and return the state otherwise unchanged: no log record, the same directory, rosters,
nicknames and mode tables. -/
theorem c18_ping_answered (env : Env) (st : State) (buf t : List Char)
    (nicksrv user : Option (List Char)) (argv : Tokens)
    (hline : server_line buf nicksrv user argv)
    (hcmd : tok argv 0 = some "PING".toList)
    (htext : tok argv (TOK_TEXT - TOK_CMD) = some t)
    (hfit : ("PONG ".toList ++ t ++ [CR, LF]).length < IRC_MSG_MAX) :
    proc_server_cmd env st buf
      = .ok { st with wire := st.wire ++ ["PONG ".toList ++ t ++ [CR, LF]] } := by
  rw [proc_server_cmd_eq env st buf _ _ argv hline,
    dispatch_ping env st nicksrv user argv t hcmd htext]
  unfold ewritestr snprintf
  rw [List.take_of_length_le (by omega)]

set_option maxRecDepth 100000 in
/-- C18 (witness): the line `PING :irc.example`. -/
theorem c18_ping_witness :
    proc_server_cmd std_env roster_session "PING :irc.example".toList
      = .ok { roster_session with
          wire := roster_session.wire ++ ["PONG ".toList ++ "irc.example".toList ++ [CR, LF]] } :=
  c18_ping_answered std_env roster_session "PING :irc.example".toList "irc.example".toList
    none none (tokenize "PING :irc.example".toList)
    ⟨by decide, "PING :irc.example".toList, by decide, by decide⟩
    (by decide) (by decide) (by decide)

/-! ## C19: the active nickname -/

set_option maxRecDepth 100000 in
/-- C19 (counterexample): once the input line `/n newme` has recorded the pending rename
`newme`, the NICK line `:me NICK :newme`, whose new name equals the pending rename but
whose source carries no user, leaves the active nickname `me` (and appends `newme` to the
master log); the line `:me!u@h NICK :newme` sets it to `newme`. -/
theorem c19_counterexample :
    (proc_channels_input std_env roster_session 0 "/n newme".toList).map
        (fun st => (st.nick, st._nick)) = .ok ("me".toList, "newme".toList) ∧
    ((proc_channels_input std_env roster_session 0 "/n newme".toList).bind
        (fun st => proc_server_cmd std_env st ":me NICK :newme".toList)).map
        (fun st => (st.nick, st._nick, st.log))
      = .ok ("me".toList, "newme".toList, [("irc/out".toList, "newme".toList)]) ∧
    ((proc_channels_input std_env roster_session 0 "/n newme".toList).bind
        (fun st => proc_server_cmd std_env st ":me!u@h NICK :newme".toList)).map
        (fun st => (st.nick, st._nick)) = .ok ("newme".toList, "newme".toList) := by
  decide

/-- C19 (amended): the active nickname changes only on a confirmed rename. A NICK line with
a user-bearing source whose trailing text equals the pending rename (a non-empty content of
its 32-byte array), in a directory whose named channels are found under their names,
returns with the active nickname set to that name. Every other server line that returns,
and every input line that returns, leaves the active nickname as it was; the input line
`/n new` returns the state with `new` (cut to the 31 bytes of the array) as the pending
rename and `NICK new` and CRLF (cut to the message buffer) handed to `ewritestr`, and
nothing else changed. -/
theorem c19_nick_changes_on_confirmed_rename (env : Env) (st : State) :
    (∀ buf old u argv, server_line buf (some old) (some u) argv →
      tok argv 0 = some "NICK".toList → tok argv (TOK_TEXT - TOK_CMD) = some st._nick →
      st._nick ≠ [] → strlcpy st._nick 32 = st._nick → names_are_keys st →
      ∃ st', proc_server_cmd env st buf = .ok st' ∧ st'.nick = st._nick) ∧
    (∀ buf st', proc_server_cmd env st buf = .ok st' →
      (¬ ∃ old u argv, server_line buf (some old) (some u) argv ∧
        tok argv 0 = some "NICK".toList ∧ tok argv (TOK_TEXT - TOK_CMD) = some st._nick) →
      st'.nick = st.nick) ∧
    (∀ i buf st', proc_channels_input env st i buf = .ok st' → st'.nick = st.nick) ∧
    (∀ i new, proc_channels_input env st i ("/n ".toList ++ new)
      = .ok { st with _nick := strlcpy new 32,
                      wire := st.wire ++ [snprintf IRC_MSG_MAX ("NICK ".toList ++ new ++ [CR, LF])] }) := by
  refine ⟨?_, ?_, ?_, ?_⟩
  · intro buf old u argv hline hcmd htext hne hfit hkeys
    rw [proc_server_cmd_eq env st buf _ _ argv hline]
    obtain ⟨st', h1, h2⟩ := confirmed_rename env st old u argv hcmd htext hne hkeys
    exact ⟨st', h1, h2.trans hfit⟩
  · intro buf st' h hnot
    rcases proc_server_cmd_nick env st st' buf h with e | ⟨old, u, argv, h1, h2, h3, _⟩
    · exact e
    · exact absurd ⟨old, u, argv, h1, h2, h3⟩ hnot
  · intro i buf st' h
    exact proc_channels_input_nick env st st' i buf h
  · intro i new
    rw [input_nick_line]
    rfl

set_option maxRecDepth 100000 in
/-- C19 (witness): in the session with the pending rename `newme`, the line
`:me!u@h NICK :newme` sets the active nickname to `newme`; the line `:bob!u@h NICK :rob`
and the input line `hello` leave it as it is; and the input line `/n newme` records the
pending rename. -/
theorem c19_nick_witness :
    (∃ st', proc_server_cmd std_env rename_session ":me!u@h NICK :newme".toList = .ok st' ∧
      st'.nick = rename_session._nick) ∧
    (∀ st', proc_server_cmd std_env rename_session ":bob!u@h NICK :rob".toList = .ok st' →
      st'.nick = rename_session.nick) ∧
    (∀ st', proc_channels_input std_env rename_session 0 "hello".toList = .ok st' →
      st'.nick = rename_session.nick) ∧
    proc_channels_input std_env roster_session 0 ("/n ".toList ++ "newme".toList)
      = .ok { roster_session with
          _nick := strlcpy "newme".toList 32,
          wire := roster_session.wire
            ++ [snprintf IRC_MSG_MAX ("NICK ".toList ++ "newme".toList ++ [CR, LF])] } :=
  ⟨(c19_nick_changes_on_confirmed_rename std_env rename_session).1
      ":me!u@h NICK :newme".toList "me".toList "u@h".toList (tokenize "NICK :newme".toList)
      ⟨by decide, "NICK :newme".toList, by decide, by decide⟩ (by decide) (by decide)
      (by decide) (by decide)
      (by
        intro i c hc hn
        have hk := roster_session_keys i c (by rw [rename_session_eq] at hc; exact hc) hn
        rw [rename_session_eq]
        exact hk),
   fun st' h => (c19_nick_changes_on_confirmed_rename std_env rename_session).2.1
      ":bob!u@h NICK :rob".toList st' h
      (by
        rintro ⟨old, u, argv, ⟨_, cmd, h1, h2⟩, _, h3⟩
        have e1 : split_source (cstr ":bob!u@h NICK :rob".toList)
            = some (some "bob".toList, some "u@h".toList, "NICK :rob".toList) := by decide
        rw [e1] at h1
        cases h1
        have e2 : tok (tokenize ("NICK :rob".toList.takeWhile (fun c => c ≠ CR ∧ c ≠ LF)))
            (TOK_TEXT - TOK_CMD) = some "rob".toList := by decide
        rw [← h2, e2] at h3
        have e3 : rename_session._nick = "newme".toList := by decide
        rw [e3] at h3
        exact absurd h3 (by decide)),
   fun st' h => (c19_nick_changes_on_confirmed_rename std_env rename_session).2.2.1
      0 "hello".toList st' h,
   (c19_nick_changes_on_confirmed_rename std_env roster_session).2.2.2 0 "newme".toList⟩

/-! ## C20: the quit command -/

set_option maxRecDepth 1000000 in
/-- C20 (counterexample): the input line `/q ` followed by 508 letters `x` has 511 bytes,
as many as a line read from an input pipe can have; the text handed to `ewritestr` is
`QUIT :` followed by 505 of the letters, without CRLF, and the record appended to each log
is `-!- Quitting: ` followed by 497 of them: both are cut to the 511 bytes of the message
buffer. -/
theorem c20_counterexample :
    ("/q ".toList ++ List.replicate 508 'x').length = 511 ∧
    (proc_channels_input std_env roster_session 0 ("/q ".toList ++ List.replicate 508 'x')).map
        (fun st => (st.wire, st.log))
      = .ok (["QUIT :".toList ++ List.replicate 505 'x'],
             [("irc/#chat/out".toList, "-!- Quitting: ".toList ++ List.replicate 497 'x'),
              ("irc/out".toList, "-!- Quitting: ".toList ++ List.replicate 497 'x')]) := by
  decide

/-- C20 (amended): for every state, every channel position and every text `t` short enough
for `-!- Quitting: t` (and with it `QUIT :t` and CRLF) to fit the message buffer, the input
line `/q t` returns the state in which `QUIT :t` and CRLF have been handed to `ewritestr`,
the record `-!- Quitting: t` has been appended once to the log of every channel of the
directory, in directory order, the running flag is cleared and nothing else has changed,
the directory in particular. With the flag cleared the loop of `run` returns at its next
test, and `main` returns 0 when the master channel is in the directory. -/
theorem c20_quit_command (env : Env) (st : State) (i : Nat) (t : List Char)
    (hfit : ("-!- Quitting: ".toList ++ t).length < IRC_MSG_MAX) :
    ∃ st', proc_channels_input env st i ("/q ".toList ++ t) = .ok st' ∧
      st' = { st with wire := st.wire ++ ["QUIT :".toList ++ t ++ [CR, LF]],
                      log := st.log ++ st.channels.map
                        (fun c => (c.outpath, "-!- Quitting: ".toList ++ t)),
                      isrunning := false } ∧
      (∀ host ts, run env host ts st' = .ok (some st')) ∧
      ((∃ c ∈ st.channels, st.channelmaster = some c.id) → main_exit st' = .ok 0) := by
  have h1 : snprintf IRC_MSG_MAX ("QUIT :".toList ++ t ++ [CR, LF])
      = "QUIT :".toList ++ t ++ [CR, LF] := by
    unfold snprintf
    apply List.take_of_length_le
    simp only [List.length_append] at hfit ⊢
    have e1 : "-!- Quitting: ".toList.length = 14 := by decide
    have e2 : "QUIT :".toList.length = 6 := by decide
    have e3 : [CR, LF].length = 2 := rfl
    rw [e1] at hfit
    rw [e2, e3]
    omega
  have h2 : snprintf IRC_MSG_MAX ("-!- Quitting: ".toList ++ t) = "-!- Quitting: ".toList ++ t := by
    unfold snprintf
    exact List.take_of_length_le (by omega)
  refine ⟨_, input_quit_line env st i t, ?_, ?_, ?_⟩
  · unfold input_quit ewritestr
    simp only [if_true, h1, h2]
  · intro host ts
    exact run_stopped env host ts _ rfl
  · intro hm
    exact main_exit_of_master _ hm

set_option maxRecDepth 100000 in
/-- C20 (witness): the input line `/q goodbye` on `#chat`. -/
theorem c20_quit_witness :
    ∃ st', proc_channels_input std_env roster_session 0 ("/q ".toList ++ "goodbye".toList)
        = .ok st' ∧
      st' = { roster_session with
          wire := roster_session.wire ++ ["QUIT :".toList ++ "goodbye".toList ++ [CR, LF]],
          log := roster_session.log ++ roster_session.channels.map
            (fun c => (c.outpath, "-!- Quitting: ".toList ++ "goodbye".toList)),
          isrunning := false } ∧
      (∀ host ts, run std_env host ts st' = .ok (some st')) ∧
      ((∃ c ∈ roster_session.channels, roster_session.channelmaster = some c.id) →
        main_exit st' = .ok 0) :=
  c20_quit_command std_env roster_session 0 "goodbye".toList (by decide)

/-! ## The leave command -/

theorem input_leave_line (env : Env) (st : State) (i : Nat) (t : List Char) :
    proc_channels_input env st i "/l".toList = input_leave st i false [] ∧
    proc_channels_input env st i ("/l ".toList ++ t) = input_leave st i true t := by
  constructor
  · have e : "/l".toList = ['/', 'l'] := rfl
    rw [e]
    unfold proc_channels_input
    simp
  · have e : "/l ".toList ++ t = '/' :: 'l' :: ' ' :: t := rfl
    rw [e]
    unfold proc_channels_input
    simp

theorem input_leave_master (st : State) (i : Nat) (c : Channel) (long : Bool) (arg : List Char)
    (hc : st.channels.get? i = some c) (hm : st.channelmaster = some c.id) :
    input_leave st i long arg = .ok st := by
  unfold input_leave
  rw [hc]
  simp only [hm, if_true]

theorem input_leave_other (st : State) (i : Nat) (c : Channel) (long : Bool) (arg : List Char)
    (hc : st.channels.get? i = some c) (hm : st.channelmaster ≠ some c.id) :
    ∃ st', input_leave st i long arg = .ok st' ∧ st'.channels = st.channels.eraseIdx i ∧
      st'.channelmaster = st.channelmaster := by
  unfold input_leave
  rw [hc]
  simp only [hm, if_false]
  by_cases hs : is_sigil c.name.head? = true
  · rw [if_pos hs]
    exact ⟨_, rfl, rfl, rfl⟩
  · rw [if_neg hs]
    exact ⟨_, rfl, rfl, rfl⟩

theorem get?_eraseIdx_lt {α : Type} (l : List α) (i j : Nat) (h : j < i) :
    (l.eraseIdx i).get? j = l.get? j := by
  induction l generalizing i j with
  | nil => rfl
  | cons x xs ih =>
    cases i with
    | zero => omega
    | succ i =>
      cases j with
      | zero => rfl
      | succ j => exact ih i j (by omega)

theorem get?_eraseIdx_ge {α : Type} (l : List α) (i j : Nat) (h : i ≤ j) :
    (l.eraseIdx i).get? j = l.get? (j + 1) := by
  induction l generalizing i j with
  | nil => rfl
  | cons x xs ih =>
    cases i with
    | zero => rfl
    | succ i =>
      cases j with
      | zero => omega
      | succ j => exact ih i j (by omega)

theorem length_eraseIdx_of_get? {α : Type} (l : List α) (i : Nat) (x : α)
    (h : l.get? i = some x) : (l.eraseIdx i).length + 1 = l.length := by
  induction l generalizing i with
  | nil => cases h
  | cons y ys ih =>
    cases i with
    | zero => rfl
    | succ i =>
      have := ih i h
      simp only [List.eraseIdx, List.length_cons]
      omega

/-! ## C21: the leave command -/

/-- C21: the input line `/l`, or `/l ` followed by any text, read from the channel `c` at
position `i` of the directory. If `c` is the master channel, `proc_channels_input` returns
the state as it was: nothing written, nothing logged, the directory unchanged. Otherwise
it returns a state whose directory is the directory without the record at position `i`:
one record fewer, the records before `i` and the records behind `i` as they were, rosters
included, and in the same order. -/
theorem c21_leave_command (env : Env) (st : State) (i : Nat) (c : Channel) (buf : List Char)
    (hc : st.channels.get? i = some c)
    (hbuf : buf = "/l".toList ∨ ∃ t, buf = "/l ".toList ++ t) :
    (st.channelmaster = some c.id → proc_channels_input env st i buf = .ok st) ∧
    (st.channelmaster ≠ some c.id →
      ∃ st', proc_channels_input env st i buf = .ok st' ∧
        st'.channels = st.channels.eraseIdx i ∧
        st'.channels.length + 1 = st.channels.length ∧
        (∀ j, j < i → st'.channels.get? j = st.channels.get? j) ∧
        (∀ j, i ≤ j → st'.channels.get? j = st.channels.get? (j + 1)) ∧
        st'.channelmaster = st.channelmaster) := by
  have hline : ∃ long arg, proc_channels_input env st i buf = input_leave st i long arg := by
    rcases hbuf with h | ⟨t, h⟩
    · exact ⟨false, [], by rw [h]; exact (input_leave_line env st i []).1⟩
    · exact ⟨true, t, by rw [h]; exact (input_leave_line env st i t).2⟩
  obtain ⟨long, arg, hl⟩ := hline
  constructor
  · intro hm
    rw [hl]
    exact input_leave_master st i c long arg hc hm
  · intro hm
    obtain ⟨st', h1, h2, h3⟩ := input_leave_other st i c long arg hc hm
    refine ⟨st', by rw [hl]; exact h1, h2, ?_, ?_, ?_, h3⟩
    · rw [h2]
      exact length_eraseIdx_of_get? _ i c hc
    · intro j hj
      rw [h2]
      exact get?_eraseIdx_lt _ i j hj
    · intro j hj
      rw [h2]
      exact get?_eraseIdx_ge _ i j hj

set_option maxRecDepth 100000 in
/-- C21 (witness): in the session whose directory holds `#chat` and the master, the line
`/l` read from the master leaves the state as it is, and the line `/l bye` read from
`#chat` leaves a directory that holds the master alone. -/
theorem c21_leave_witness :
    proc_channels_input std_env roster_session 1 "/l".toList = .ok roster_session ∧
    ∃ st', proc_channels_input std_env roster_session 0 "/l bye".toList = .ok st' ∧
      st'.channels = roster_session.channels.eraseIdx 0 ∧
      st'.channels.length + 1 = roster_session.channels.length ∧
      (∀ j, j < 0 → st'.channels.get? j = roster_session.channels.get? j) ∧
      (∀ j, 0 ≤ j → st'.channels.get? j = roster_session.channels.get? (j + 1)) ∧
      st'.channelmaster = roster_session.channelmaster :=
  ⟨(c21_leave_command std_env roster_session 1
      { id := 0, name := [], inpath := "irc/in".toList, outpath := "irc/out".toList, nicks := [] }
      "/l".toList (by decide) (Or.inl rfl)).1 (by decide),
   (c21_leave_command std_env roster_session 0
      { id := 1, name := "#chat".toList, inpath := "irc/#chat/in".toList,
        outpath := "irc/#chat/out".toList,
        nicks := [⟨"bob".toList, '+'⟩, ⟨"alice".toList, NUL⟩] }
      "/l bye".toList (by decide) (Or.inr ⟨"bye".toList, by decide⟩)).2 (by decide)⟩

/-! ## Records that stay in the directory -/

theorem ids_kept_refl (st : State) : ids_kept st st := ⟨rfl, fun _ h => h⟩

theorem ids_kept_trans (a b c : State) (h1 : ids_kept a b) (h2 : ids_kept b c) : ids_kept a c :=
  ⟨h2.1.trans h1.1, fun x hx => h2.2 x (h1.2 x hx)⟩

theorem ids_kept_same (st st' : State) (h1 : st'.channelmaster = st.channelmaster)
    (h2 : dir_ids st' = dir_ids st) : ids_kept st st' :=
  ⟨h1, fun a ha => by rw [h2]; exact ha⟩

theorem map_modify_at {α β : Type} (g : α → β) (f : α → α) (hf : ∀ x, g (f x) = g x) (i : Nat)
    (l : List α) : (modify_at f i l).map g = l.map g := by
  induction l generalizing i with
  | nil => cases i <;> rfl
  | cons a l ih =>
    cases i with
    | zero =>
      unfold modify_at
      simp only [List.map_cons, hf]
    | succ i =>
      unfold modify_at
      simp only [List.map_cons, ih i]

theorem ids_set_roster (st : State) (i : Nat) (ns : List Nick) :
    dir_ids (set_roster st i ns) = dir_ids st := by
  unfold dir_ids set_roster
  exact map_modify_at (fun c : Channel => c.id) (fun c => { c with nicks := ns })
    (fun _ => rfl) i st.channels

theorem ids_kept_set_roster (st : State) (i : Nat) (ns : List Nick) :
    ids_kept st (set_roster st i ns) :=
  ids_kept_same _ _ rfl (ids_set_roster st i ns)

theorem master_present_iff (st : State) :
    master_present st = true ↔ ∃ a, st.channelmaster = some a ∧ a ∈ dir_ids st := by
  unfold master_present dir_ids
  cases hm : st.channelmaster with
  | none => simp
  | some a =>
    simp only [List.any_eq_true, decide_eq_true_eq, Option.some.injEq, List.mem_map,
      exists_eq_left']

theorem master_present_kept (st st' : State) (h : ids_kept st st')
    (hm : master_present st = true) : master_present st' = true := by
  obtain ⟨a, h1, h2⟩ := (master_present_iff st).1 hm
  exact (master_present_iff st').2 ⟨a, h.1.trans h1, h.2 a h2⟩

theorem print_master_keeps (st st' : State) (m : List Char) (h : print_master st m = .ok st') :
    ids_kept st st' := by
  unfold print_master at h
  split at h
  · cases h
  · split at h
    · cases h
    · cases h
      exact ids_kept_refl _

theorem name_add3_keeps (st st' : State) (ch n : List Char) (p : Char)
    (h : name_add3 st ch n p = .ok st') : ids_kept st st' := by
  unfold name_add3 at h
  split at h
  · cases h
  · cases h; exact ids_kept_refl _
  · split at h
    · cases h; exact ids_kept_refl _
    · split at h
      · cases h
      · cases h; exact ids_kept_set_roster _ _ _

theorem proc_names_loop_keeps (chan : List Char) (ps : List (List Char)) :
    ∀ (st st' : State), proc_names_loop chan ps st = .ok st' → ids_kept st st' := by
  induction ps with
  | nil =>
    intro st st' h
    cases h
    exact ids_kept_refl _
  | cons p ps ih =>
    intro st st' h
    rw [proc_names_loop] at h
    split at h
    · cases h
    · rename_i st1 h1
      exact ids_kept_trans _ _ _ (name_add3_keeps st st1 chan p NUL h1) (ih st1 st' h)

theorem parse_prefix_keeps (st : State) (buf : List Char) : ids_kept st ( parse_prefix st buf) := by
  unfold parse_prefix
  split
  · exact ids_kept_refl _
  · split
    · exact ids_kept_refl _
    · exact ids_kept_same _ _ rfl rfl

theorem parse_cmodes_keeps (st : State) (buf : List Char) : ids_kept st (parse_cmodes st buf) := by
  unfold parse_cmodes
  split
  · exact ids_kept_refl _
  · exact ids_kept_same _ _ rfl rfl

theorem cap_parse_loop_keeps (ps : List (List Char)) :
    ∀ st : State, ids_kept st (cap_parse_loop ps st) := by
  induction ps with
  | nil => intro st; exact ids_kept_refl _
  | cons p ps ih =>
    intro st
    rw [cap_parse_loop]
    split
    · exact ids_kept_trans _ _ _ (parse_prefix_keeps _ _) (ih _)
    · split
      · exact ids_kept_trans _ _ _ (parse_cmodes_keeps _ _) (ih _)
      · exact ih _

theorem cap_parse_keeps (st : State) (buf : List Char) : ids_kept st (cap_parse st buf) :=
  cap_parse_loop_keeps _ st

theorem name_mode_keeps (st st' : State) (chan mode args : Option (List Char))
    (h : name_mode st chan mode args = .ok st') : ids_kept st st' := by
  unfold name_mode at h
  split at h
  · cases h
  · split at h
    · cases h
    · cases h; exact ids_kept_refl _
    · split at h
      · cases h; exact ids_kept_refl _
      · split at h
        · cases h
        · split at h
          · cases h; exact ids_kept_refl _
          · split at h
            · cases h
            · cases h; exact ids_kept_set_roster _ _ _

theorem channel_join_keeps (env : Env) (st st1 : State) (x : List Char) (r : Option Nat)
    (h : channel_join env st x = .ok (st1, r)) : ids_kept st st1 := by
  unfold channel_join at h
  split at h
  · cases h
  · cases h; exact ids_kept_refl _
  · unfold channel_add at h
    split at h
    · cases h
    · split at h
      · cases h; exact ids_kept_same _ _ rfl rfl
      · cases h
        exact ⟨rfl, fun a ha => List.mem_cons_of_mem _ ha⟩

theorem name_rm_keeps (st : State) (ch n : List Char) (r : State × Bool)
    (h : name_rm st ch n = .ok r) : ids_kept st r.1 := by
  unfold name_rm at h
  split at h
  · cases h
  · cases h; exact ids_kept_refl _
  · split at h
    · cases h; exact ids_kept_refl _
    · split at h
      · cases h; exact ids_kept_refl _
      · cases h; exact ids_kept_set_roster _ _ _

theorem name_quit_keeps (st : State) (n u : List Char) (t : Option (List Char)) :
    ids_kept st (name_quit st n u t) := by
  refine ids_kept_same st (name_quit st n u t) rfl ?_
  unfold dir_ids name_quit
  simp only [name_quit_loop_eq, List.map_map]
  apply List.map_congr_left
  intro c _
  simp only [Function.comp]
  split <;> rfl

theorem name_nick_loop_keeps (old new : List Char) :
    ∀ (k i : Nat) (st st' : State), name_nick_loop old new k i st = .ok st' →
      ids_kept st st' := by
  intro k
  induction k with
  | zero =>
    intro i st st' h
    cases h
    exact ids_kept_refl _
  | succ k ih =>
    intro i st st' h
    rw [name_nick_loop] at h
    split at h
    · cases h; exact ids_kept_refl _
    · split at h
      · split at h
        · split at h
          · cases h
          · rename_i st2 h2
            have e1 := ih _ _ _ h
            have e2 := name_add3_keeps _ _ _ _ _ h2
            exact ids_kept_trans _ _ _ (ids_kept_set_roster _ _ _)
              (ids_kept_trans _ _ _ e2 (ids_kept_trans _ _ _ (ids_kept_same _ _ rfl rfl) e1))
        · exact ih _ _ _ h
      · exact ih _ _ _ h

theorem name_menick_loop_keeps (old new msg : List Char) :
    ∀ (k i : Nat) (st st' : State), name_menick_loop old new msg k i st = .ok st' →
      ids_kept st st' := by
  intro k
  induction k with
  | zero =>
    intro i st st' h
    cases h
    exact ids_kept_refl _
  | succ k ih =>
    intro i st st' h
    rw [name_menick_loop] at h
    split at h
    · cases h; exact ids_kept_refl _
    · split at h
      · split at h
        · split at h
          · cases h
          · rename_i st2 h2
            have e1 := ih _ _ _ h
            have e2 := name_add3_keeps _ _ _ _ _ h2
            exact ids_kept_trans _ _ _ (ids_kept_set_roster _ _ _)
              (ids_kept_trans _ _ _ e2 (ids_kept_trans _ _ _ (ids_kept_same _ _ rfl rfl) e1))
        · have e1 := ih _ _ _ h
          exact ids_kept_trans _ _ _ (ids_kept_same _ _ rfl rfl) e1
      · have e1 := ih _ _ _ h
        exact ids_kept_trans _ _ _ (ids_kept_same _ _ rfl rfl) e1

theorem route_keeps (env : Env) (st st' : State) (nicksrv chan text : Option (List Char))
    (isnotice isprivmsg : Bool) (msg : List Char)
    (h : route env st nicksrv chan text isnotice isprivmsg msg = .ok st') :
    ids_kept st st' := by
  unfold route at h
  simp only at h
  split at h
  · cases h
  · split at h
    · split at h
      · cases h; exact ids_kept_refl _
      · exact print_master_keeps _ _ _ h
    · split at h
      · cases h
      · rename_i st1 hj
        cases h
        exact channel_join_keeps env st _ _ _ hj
      · rename_i st1 i hj
        have e := channel_join_keeps env st _ _ _ hj
        split at h
        · cases h; exact e
        · cases h; exact ids_kept_trans _ _ _ e (ids_kept_same _ _ rfl rfl)

/-- No branch of the dispatch takes a record out of the directory or changes
`channelmaster`. -/
theorem dispatch_keeps (env : Env) (st st' : State) (nicksrv user : Option (List Char))
    (argv : Tokens) (h : dispatch env st nicksrv user argv = .ok st') : ids_kept st st' := by
  unfold dispatch at h
  cases hcmd : tok argv 0 with
  | none =>
    rw [hcmd] at h
    cases h
    exact ids_kept_refl _
  | some cmd =>
    rw [hcmd] at h
    dsimp only at h
    by_cases c1 : cmd = "PONG".toList
    · rw [if_pos c1] at h
      cases h; exact ids_kept_refl _
    rw [if_neg c1] at h
    by_cases c2 : cmd = "PING".toList
    · rw [if_pos c2] at h
      split at h
      · cases h
      · cases h; exact ids_kept_same _ _ rfl rfl
    rw [if_neg c2] at h
    by_cases c3 : cmd = "353".toList
    · rw [if_pos c3] at h
      split at h
      · cases h
      · split at h
        · split at h
          · cases h
          · rename_i st1 h1
            exact ids_kept_trans _ _ _ (print_master_keeps _ _ _ h1)
              (proc_names_loop_keeps _ _ _ _ h)
        · cases h; exact ids_kept_refl _
    rw [if_neg c3] at h
    by_cases c4 : cmd = "005".toList
    · rw [if_pos c4] at h
      split at h
      · cases h
      · rename_i st1 h1
        have e1 := print_master_keeps _ _ _ h1
        split at h
        · cases h
        · split at h
          · cases h
            exact ids_kept_trans _ _ _ e1 (cap_parse_keeps _ _)
          · cases h
            exact ids_kept_trans _ _ _ e1
              (ids_kept_trans _ _ _ (cap_parse_keeps _ _) (cap_parse_keeps _ _))
    rw [if_neg c4] at h
    by_cases c5 : cmd = "MODE".toList
    · rw [if_pos c5] at h
      split at h
      · cases h
      · split at h
        · cases h
        · rename_i st1 h1
          refine ids_kept_trans _ _ _ ?_ (route_keeps _ _ _ _ _ _ _ _ _ h)
          split at h1
          · exact name_mode_keeps _ _ _ _ _ h1
          · cases h1; exact ids_kept_refl _
    rw [if_neg c5] at h
    by_cases c6 : cmd = "KICK".toList ∧ tok argv (TOK_ARG - TOK_CMD) ≠ none
    · rw [if_pos c6] at h
      split at h
      · split at h
        · cases h
        · rename_i r hr
          exact ids_kept_trans _ _ _ (name_rm_keeps _ _ _ _ hr) (route_keeps _ _ _ _ _ _ _ _ _ h)
      · cases h
    rw [if_neg c6] at h
    by_cases c7 : cmd = "TOPIC".toList
    · rw [if_pos c7] at h
      split at h
      · cases h
      · exact route_keeps _ _ _ _ _ _ _ _ _ h
    rw [if_neg c7] at h
    by_cases hsrc : nicksrv = none ∨ user = none
    · rw [if_pos hsrc] at h
      exact print_master_keeps _ _ _ h
    rw [if_neg hsrc] at h
    by_cases c8 : cmd = "ERROR".toList
    · rw [if_pos c8] at h
      exact route_keeps _ _ _ _ _ _ _ _ _ h
    rw [if_neg c8] at h
    by_cases c9 : cmd = "JOIN".toList ∧
        (tok argv (TOK_CHAN - TOK_CMD) ≠ none ∨ tok argv (TOK_TEXT - TOK_CMD) ≠ none)
    · rw [if_pos c9] at h
      split at h
      · cases h
      · rename_i st1 h1
        exact ids_kept_trans _ _ _ (name_add3_keeps _ _ _ _ _ h1)
          (route_keeps _ _ _ _ _ _ _ _ _ h)
    rw [if_neg c9] at h
    by_cases c10 : cmd = "PART".toList ∧ tok argv (TOK_CHAN - TOK_CMD) ≠ none
    · rw [if_pos c10] at h
      split at h
      · cases h; exact ids_kept_refl _
      · split at h
        · cases h
        · rename_i r hr
          exact ids_kept_trans _ _ _ (name_rm_keeps _ _ _ _ hr) (route_keeps _ _ _ _ _ _ _ _ _ h)
    rw [if_neg c10] at h
    by_cases c11 : cmd = "QUIT".toList
    · rw [if_pos c11] at h
      cases h; exact name_quit_keeps _ _ _ _
    rw [if_neg c11] at h
    by_cases c12 : cmd = "NICK".toList ∧ tok argv (TOK_TEXT - TOK_CMD) = some st._nick
    · rw [if_pos c12] at h
      have e := name_menick_loop_keeps _ _ _ _ _ _ _ h
      exact ids_kept_trans _ _ _ (ids_kept_same _ _ rfl rfl) e
    rw [if_neg c12] at h
    by_cases c13 : cmd = "NICK".toList ∧ tok argv (TOK_TEXT - TOK_CMD) ≠ none
    · rw [if_pos c13] at h
      exact name_nick_loop_keeps _ _ _ _ _ _ h
    rw [if_neg c13] at h
    by_cases c14 : cmd = "NOTICE".toList
    · rw [if_pos c14] at h
      exact route_keeps _ _ _ _ _ _ _ _ _ h
    rw [if_neg c14] at h
    by_cases c15 : cmd = "PRIVMSG".toList
    · rw [if_pos c15] at h
      exact route_keeps _ _ _ _ _ _ _ _ _ h
    rw [if_neg c15] at h
    cases h
    exact ids_kept_refl _

/-- No server line takes a record out of the directory or changes `channelmaster`. -/
theorem proc_server_cmd_keeps (env : Env) (st st' : State) (buf : List Char)
    (h : proc_server_cmd env st buf = .ok st') : ids_kept st st' := by
  unfold proc_server_cmd at h
  by_cases h0 : cstr buf = []
  · rw [if_pos h0] at h
    cases h
    exact ids_kept_refl _
  · rw [if_neg h0] at h
    cases hs : split_source (cstr buf) with
    | none =>
      rw [hs] at h
      cases h
      exact ids_kept_refl _
    | some r =>
      obtain ⟨nicksrv, user, cmd⟩ := r
      rw [hs] at h
      dsimp only at h
      exact dispatch_keeps env st st' nicksrv user _ h

/-! ## The master channel under input lines and turns of the loop -/

theorem master_stays_refl (st : State) : master_stays st st := ⟨rfl, fun h => h⟩

theorem master_stays_trans (a b c : State) (h1 : master_stays a b) (h2 : master_stays b c) :
    master_stays a c :=
  ⟨h2.1.trans h1.1, fun h => h2.2 (h1.2 h)⟩

theorem master_stays_of_kept (st st' : State) (h : ids_kept st st') : master_stays st st' :=
  ⟨h.1, master_present_kept st st' h⟩

theorem mem_eraseIdx_of_ne {α : Type} (l : List α) (i : Nat) (c d : α) (hc : l.get? i = some c)
    (hd : d ∈ l) (hne : d ≠ c) : d ∈ l.eraseIdx i := by
  induction l generalizing i with
  | nil => cases hd
  | cons x xs ih =>
    cases i with
    | zero =>
      have : x = c := by
        simpa using hc
      rcases List.mem_cons.1 hd with h | h
      · exact absurd (h.trans this) hne
      · exact h
    | succ i =>
      rcases List.mem_cons.1 hd with h | h
      · rw [h]
        exact List.mem_cons_self _ _
      · exact List.mem_cons_of_mem _ (ih i hc h)

theorem eraseIdx_of_get?_none {α : Type} (l : List α) (i : Nat) (h : l.get? i = none) :
    l.eraseIdx i = l := by
  induction l generalizing i with
  | nil => rfl
  | cons x xs ih =>
    cases i with
    | zero => cases h
    | succ i =>
      have := ih i h
      simp only [List.eraseIdx, this]

/-- Removing a record that is not the master keeps the master in the directory. -/
theorem channel_rm_master (st : State) (i : Nat)
    (hne : ∀ c, st.channels.get? i = some c → st.channelmaster ≠ some c.id) :
    master_stays st (channel_rm st i) := by
  refine ⟨rfl, fun hm => ?_⟩
  cases hc : st.channels.get? i with
  | none =>
    have : channel_rm st i = st := by
      unfold channel_rm
      rw [eraseIdx_of_get?_none _ _ hc]
    rw [this]
    exact hm
  | some c =>
    obtain ⟨a, h1, h2⟩ := (master_present_iff st).1 hm
    unfold dir_ids at h2
    obtain ⟨d, hd, e⟩ := List.mem_map.1 h2
    have hdc : d ≠ c := by
      intro h
      apply hne c hc
      rw [h1, ← h, e]
    refine (master_present_iff _).2 ⟨a, h1, ?_⟩
    unfold dir_ids channel_rm
    exact List.mem_map.2 ⟨d, mem_eraseIdx_of_ne _ i c d hc hd hdc, e⟩

theorem proc_channels_privmsg_keeps (st st' : State) (ci : Option Nat) (buf : List Char)
    (h : proc_channels_privmsg st ci buf = .ok st') : ids_kept st st' := by
  unfold proc_channels_privmsg at h
  split at h
  · cases h
  · cases h; exact ids_kept_same _ _ rfl rfl

theorem input_join_keeps (env : Env) (st st' : State) (arg : List Char)
    (h : input_join env st arg = .ok st') : ids_kept st st' := by
  unfold input_join at h
  dsimp only at h
  split at h
  · split at h
    · cases h
    · rename_i r hr
      cases h
      exact ids_kept_trans _ _ _ (channel_join_keeps env st r.1 _ r.2 hr)
        (ids_kept_same _ _ rfl rfl)
  · split at h
    · cases h
    · rename_i r hr
      have e := channel_join_keeps env st r.1 _ r.2 hr
      split at h
      · exact ids_kept_trans _ _ _ e (proc_channels_privmsg_keeps _ _ _ _ h)
      · cases h; exact e

theorem channel_rm_after (st s : State) (i : Nat) (c : Channel)
    (h1 : s.channelmaster = st.channelmaster) (h2 : s.channels = st.channels)
    (hc : st.channels.get? i = some c) (hne : ¬ st.channelmaster = some c.id) :
    master_stays st (channel_rm s i) := by
  have k : ids_kept st s := ids_kept_same st s h1 (by unfold dir_ids; rw [h2])
  refine master_stays_trans st s _ (master_stays_of_kept _ _ k) ?_
  apply channel_rm_master
  intro d hd
  rw [h2, hc] at hd
  rw [h1, ← Option.some.inj hd]
  exact hne

theorem input_leave_stays (st st' : State) (i : Nat) (long : Bool) (arg : List Char)
    (h : input_leave st i long arg = .ok st') : master_stays st st' := by
  unfold input_leave at h
  split at h
  · cases h
  · rename_i c hc
    split at h
    · cases h; exact master_stays_refl _
    · rename_i hne
      split at h
      · cases h
        exact channel_rm_after st _ i c rfl rfl hc hne
      · cases h
        exact channel_rm_after st _ i c rfl rfl hc hne

/-- No input line takes the master out of the directory or changes `channelmaster`. -/
theorem proc_channels_input_stays (env : Env) (st st' : State) (i : Nat) (buf : List Char)
    (h : proc_channels_input env st i buf = .ok st') : master_stays st st' := by
  have same : ∀ s : State, s.channelmaster = st.channelmaster → dir_ids s = dir_ids st →
      master_stays st s :=
    fun s h1 h2 => master_stays_of_kept _ _ (ids_kept_same _ _ h1 h2)
  unfold proc_channels_input at h
  split at h
  · cases h; exact master_stays_refl _
  · rename_i b0 b1s
    by_cases h0 : b0 ≠ '/'
    · rw [if_pos h0] at h
      exact master_stays_of_kept _ _ (proc_channels_privmsg_keeps _ _ _ _ h)
    rw [if_neg h0] at h
    split at h
    · cases h; exact master_stays_refl _
    · rename_i b1 b2s
      dsimp only at h
      by_cases hb : b2s.head? = some ' ' ∨ b2s = []
      · rw [if_pos hb] at h
        by_cases c1 : b1 = 'j'
        · rw [if_pos c1] at h
          split at h
          · exact master_stays_of_kept _ _ (input_join_keeps _ _ _ _ h)
          · cases h; exact master_stays_refl _
        rw [if_neg c1] at h
        by_cases c2 : b1 = 't'
        · rw [if_pos c2] at h
          split at h
          · split at h
            · cases h
            · cases h; exact same _ rfl rfl
          · cases h; exact master_stays_refl _
        rw [if_neg c2] at h
        by_cases c3 : b1 = 'a'
        · rw [if_pos c3] at h
          split at h
          · split at h
            · cases h
            · cases h; exact same _ rfl rfl
          · cases h; exact same _ rfl rfl
        rw [if_neg c3] at h
        by_cases c4 : b1 = 'n'
        · rw [if_pos c4] at h
          split at h
          · cases h; exact same _ rfl rfl
          · cases h; exact master_stays_refl _
        rw [if_neg c4] at h
        by_cases c5 : b1 = 'l'
        · rw [if_pos c5] at h
          exact input_leave_stays _ _ _ _ _ h
        rw [if_neg c5] at h
        by_cases c6 : b1 = 'o'
        · rw [if_pos c6] at h
          split at h
          · cases h
          · split at h
            · cases h; exact master_stays_refl _
            · split at h
              · cases h; exact same _ rfl rfl
              · cases h; exact master_stays_refl _
        rw [if_neg c6] at h
        by_cases c7 : b1 = 'q'
        · rw [if_pos c7] at h
          cases h; exact same _ rfl rfl
        rw [if_neg c7] at h
        cases h; exact same _ rfl rfl
      · rw [if_neg hb] at h
        cases h; exact same _ rfl rfl

theorem handle_channels_input_stays (env : Env) (st st' : State) (i : Nat)
    (r : Option (List Char)) (ok : Bool)
    (hsafe : r = none → ok = false →
      ∀ c, st.channels.get? i = some c → st.channelmaster ≠ some c.id)
    (h : handle_channels_input env st i r ok = .ok st') : master_stays st st' := by
  unfold handle_channels_input at h
  cases r with
  | none =>
    simp only at h
    by_cases hok : ok = true
    · rw [if_pos hok] at h
      cases h
      exact master_stays_refl _
    · rw [if_neg hok] at h
      cases h
      exact channel_rm_master st i (hsafe rfl (by simpa using hok))
  | some buf =>
    simp only at h
    exact proc_channels_input_stays env st st' i _ h

theorem findIdx?_id_from (cs : List Channel) (a : Nat) :
    ∀ s i, cs.findIdx? (fun c => decide (c.id = a)) s = some i →
      s ≤ i ∧ ∃ c, cs.get? (i - s) = some c ∧ c.id = a := by
  induction cs with
  | nil =>
    intro s i h
    simp at h
  | cons x xs ih =>
    intro s i h
    rw [List.findIdx?_cons] at h
    by_cases hx : x.id = a
    · simp only [hx, decide_True, if_true, Option.some.injEq] at h
      subst h
      exact ⟨le_refl _, x, by simp, hx⟩
    · simp only [hx, decide_False, Bool.false_eq_true, if_false] at h
      obtain ⟨hle, c, hc, hid⟩ := ih (s + 1) i h
      refine ⟨by omega, c, ?_, hid⟩
      have e : i - s = (i - (s + 1)) + 1 := by omega
      rw [e]
      exact hc

theorem findIdx?_id {cs : List Channel} {a i : Nat}
    (h : cs.findIdx? (fun c => decide (c.id = a)) = some i) :
    ∃ c, cs.get? i = some c ∧ c.id = a := by
  obtain ⟨_, c, hc, hid⟩ := findIdx?_id_from cs a 0 i h
  exact ⟨c, hc, hid⟩

theorem run_inputs_stays (env : Env) (inputs : List (Nat × Option (List Char) × Bool))
    (master : Option Nat)
    (hsafe : ∀ a, master = some a → inputs.lookup a ≠ some (none, false)) :
    ∀ (ids : List Nat) (st st' : State), st.channelmaster = master →
      run_inputs env inputs ids st = .ok st' → master_stays st st' := by
  intro ids
  induction ids with
  | nil =>
    intro st st' _ h
    cases h
    exact master_stays_refl _
  | cons a rest ih =>
    intro st st' hm h
    rw [run_inputs] at h
    split at h
    · cases h
    · rename_i i hi
      obtain ⟨c, hc, hid⟩ := findIdx?_id hi
      split at h
      · exact ih st st' hm h
      · rename_i io hio
        split at h
        · cases h
        · rename_i st1 h1
          have s1 : master_stays st st1 := by
            apply handle_channels_input_stays env st st1 i io.1 io.2 _ h1
            intro hr hok d hd hmd
            rw [hc] at hd
            have hdc : d = c := (Option.some.inj hd).symm
            apply hsafe a
            · rw [← hm, hmd, hdc, hid]
            · rw [hio]
              obtain ⟨x, y⟩ := io
              simp only at hr hok
              rw [hr, hok]
          exact master_stays_trans _ _ _ s1 (ih st1 st' (s1.1.trans hm) h)

/-- A turn of the loop keeps the master in the directory unless the read from the master's
pipe fails and the reopen fails as well. -/
theorem run_turn_stays (env : Env) (host : List Char) (t : Turn) (st st' : State)
    (hsafe : master_pipe_ok st.channelmaster t = true)
    (h : run_turn env host t st = .ok st') : master_stays st st' := by
  cases t with
  | interrupted term =>
    unfold run_turn at h
    simp only at h
    cases h
    cases term
    · exact master_stays_refl _
    · exact master_stays_of_kept _ _ (ids_kept_same _ _ rfl rfl)
  | select_failed =>
    unfold run_turn at h
    cases h
  | idle expired =>
    unfold run_turn at h
    simp only at h
    split at h
    · cases h
    · cases h
      exact master_stays_of_kept _ _ (ids_kept_same _ _ rfl rfl)
  | ready server inputs =>
    unfold run_turn at h
    simp only at h
    have hsafe2 : ∀ a, st.channelmaster = some a → inputs.lookup a ≠ some (none, false) := by
      intro a ha
      unfold master_pipe_ok at hsafe
      rw [ha] at hsafe
      simpa using hsafe
    cases server with
    | none =>
      simp only at h
      exact run_inputs_stays env inputs st.channelmaster hsafe2 _ st st' rfl h
    | some r =>
      simp only at h
      cases r with
      | none =>
        unfold handle_server_output at h
        simp only at h
        cases h
      | some buf =>
        unfold handle_server_output at h
        simp only at h
        cases hp : proc_server_cmd env st buf with
        | error e =>
          rw [hp] at h
          cases h
        | ok st1 =>
          rw [hp] at h
          simp only at h
          have k := proc_server_cmd_keeps env st st1 buf hp
          exact master_stays_trans _ _ _ (master_stays_of_kept _ _ k)
            (run_inputs_stays env inputs st.channelmaster hsafe2 _ st1 st' k.1 h)

/-- The loop of `run` keeps the master in the directory over every sequence of turns in
which it does not happen that the read from the master's pipe and the reopen both fail. -/
theorem run_stays (env : Env) (host : List Char) (ts : List Turn) :
    ∀ (st st' : State), (∀ t ∈ ts, master_pipe_ok st.channelmaster t = true) →
      run env host ts st = .ok (some st') → master_stays st st' := by
  induction ts with
  | nil =>
    intro st st' _ h
    unfold run at h
    split at h
    · cases h
    · cases h
      exact master_stays_refl _
  | cons t ts ih =>
    intro st st' hsafe h
    unfold run at h
    split at h
    · split at h
      · cases h
      · rename_i st1 h1
        have s1 := run_turn_stays env host t st st1 (hsafe t (List.mem_cons_self _ _)) h1
        refine master_stays_trans _ _ _ s1 (ih st1 st' ?_ h)
        intro u hu
        rw [s1.1]
        exact hsafe u (List.mem_cons_of_mem _ hu)
    · cases h
      exact master_stays_refl _

/-! ## C22: the master channel -/

set_option maxRecDepth 100000 in
/-- C22 (failing run): in the session whose directory holds `#chat` and the master, a turn
of the loop in which the read from the master's pipe fails and `channel_reopen` fails as
well returns with the running flag set, `channelmaster` as it was and a directory that
holds `#chat` alone: `handle_channels_input` has handed the master to `channel_rm`. A
server message dispatched in that state, and the end of `main` once the loop is left, use
the freed record. With a reopen that succeeds the same turn leaves the state as it was. -/
theorem c22_master_removed_on_reopen_failure :
    master_present roster_session = true ∧
    (run_turn std_env "irc.example".toList (.ready none [(0, none, false)]) roster_session).map
        (fun st => (st.isrunning, st.channels.map (fun c => c.name), st.channelmaster,
          master_present st))
      = .ok (true, ["#chat".toList], some 0, false) ∧
    (run_turn std_env "irc.example".toList (.ready none [(0, none, false)]) roster_session).bind
        (fun st => proc_server_cmd std_env st ":irc.example NOTICE * :hi".toList)
      = .error .undef ∧
    (run std_env "irc.example".toList [.ready none [(0, none, false)], .interrupted true]
        roster_session).map (fun o => o.map master_present) = .ok (some false) ∧
    (run_turn std_env "irc.example".toList (.ready none [(0, none, false)]) roster_session).bind
        main_exit = .error .undef ∧
    run_turn std_env "irc.example".toList (.ready none [(0, none, true)]) roster_session
      = .ok roster_session := by
  decide

/-! ## Stored names under `channel_join` -/

theorem find_name_none_iff (x : List Char) (cs : List Channel) :
    find_name x cs = none ↔ x ∉ cs.map (fun c => c.name) := by
  induction cs with
  | nil => simp [find_name]
  | cons c cs ih =>
    unfold find_name
    by_cases h : x = c.name
    · simp [h]
    · rw [if_neg h]
      simp only [Option.map_eq_none', ih, List.map_cons, List.mem_cons, not_or]
      exact ⟨fun h1 => ⟨h, h1⟩, fun h1 => h1.2⟩

/-- What `channel_join` does to the directory: nothing, or one new record in front whose
stored name no record of the directory has. -/
theorem channel_join_names (env : Env) (st : State) (x : List Char) (r : State × Option Nat)
    (h : channel_join env st x = .ok r) :
    r.1.upref = st.upref ∧
    (r.1.channels = st.channels ∨
      ∃ c, r.1.channels = c :: st.channels ∧ c.name ∉ st.channels.map (fun c => c.name)) := by
  obtain ⟨st1, o⟩ := r
  cases o with
  | none =>
    unfold channel_join at h
    cases hf : channel_find st x with
    | error e => simp [hf] at h
    | ok q =>
      cases q with
      | some i => simp [hf] at h
      | none =>
        simp only [hf] at h
        unfold channel_add at h
        cases hn : channel_new env st x with
        | error e => simp [hn] at h
        | ok c =>
          simp only [hn] at h
          by_cases hfifo : env.fifo_ok c.inpath = false
          · rw [if_pos hfifo] at h
            simp only [Except.ok.injEq, Prod.mk.injEq, and_true] at h
            subst h
            exact ⟨rfl, Or.inl rfl⟩
          · rw [if_neg hfifo] at h
            simp at h
  | some j =>
    obtain ⟨c, _, hfind1, hcase⟩ := channel_join_spec env st st1 x j h
    rcases hcase with ⟨h1, _⟩ | ⟨hfind, hj, _, h1⟩
    · subst h1
      exact ⟨rfl, Or.inl rfl⟩
    · subst hj
      refine ⟨by rw [h1], Or.inr ⟨c, by rw [h1], ?_⟩⟩
      have hu : st1.upref = st.upref := by rw [h1]
      have hch : st1.channels = c :: st.channels := by rw [h1]
      unfold channel_find at hfind hfind1
      rw [hu, hch] at hfind1
      cases hm : channel_normalize_name st.upref (strlcpy x IRC_CHANNEL_MAX ++ [NUL]) with
      | none => simp [hm] at hfind
      | some m =>
        simp only [hm, Except.ok.injEq] at hfind hfind1
        have hname : cstr m = c.name := by
          unfold find_name at hfind1
          by_cases e : cstr m = c.name
          · exact e
          · rw [if_neg e, hfind] at hfind1
            cases hfind1
        rw [← hname]
        exact (find_name_none_iff _ _).1 hfind

theorem dir_step_names (env : Env) (st st' : State) (op : DirOp)
    (h0 : names_unique st) (h : dir_step env st op = .ok st') : names_unique st' := by
  unfold names_unique at h0 ⊢
  cases op with
  | join name =>
    unfold dir_step at h
    cases hj : channel_join env st name with
    | error e => simp [hj] at h
    | ok r =>
      simp only [hj, Except.ok.injEq] at h
      subst h
      rcases (channel_join_names env st name r hj).2 with e | ⟨c, e, hc⟩
      · rw [e]
        exact h0
      · rw [e, List.map_cons]
        exact List.nodup_cons.2 ⟨hc, h0⟩
  | rm i =>
    unfold dir_step at h
    simp only [Except.ok.injEq] at h
    subst h
    unfold channel_rm
    exact List.Nodup.sublist (List.Sublist.map _ (List.eraseIdx_sublist _ _)) h0
  | table text =>
    unfold dir_step at h
    simp only [Except.ok.injEq] at h
    subst h
    have : ( parse_prefix st text).channels = st.channels := by
      unfold parse_prefix
      split
      · rfl
      · split <;> rfl
    rw [this]
    exact h0

/-! ## C23: channel names are unique keys -/

/-- C23: from a directory in which no two channels have the same stored name (the
directory that holds the master channel alone is one), every sequence of calls of
`channel_join`, `channel_rm` (to which `channel_leave` comes down) and `parse_prefix` that
returns leaves a directory in which no two channels have the same stored name. -/
theorem c23_names_stay_unique (env : Env) (ops : List DirOp) (st st' : State)
    (h0 : names_unique st) (hrun : dir_run env ops st = .ok st') : names_unique st' := by
  induction ops generalizing st with
  | nil =>
    unfold dir_run at hrun
    cases hrun
    exact h0
  | cons op ops ih =>
    unfold dir_run at hrun
    cases hs : dir_step env st op with
    | error e => simp [hs] at hrun
    | ok st1 =>
      simp only [hs] at hrun
      exact ih st1 (dir_step_names env st st1 op h0 hs) hrun

set_option maxRecDepth 100000 in
/-- C23 (witness): from the directory that holds the master alone, the joins of `#chat`,
`#Chat`, `&help`, `bob`, `+CHAT` and `# c,hat`, with a new prefix table and a leave in
between, end in a directory of four channels with four different stored names. -/
theorem c23_names_witness :
    (setup session0).channels.map (fun c => c.name) = [[]] ∧
    dir_run std_env directory_ops (setup session0) = .ok directory_session ∧
    directory_session.channels.map (fun c => c.name)
      = ["+chat".toList, "bob".toList, "#chat".toList, []] ∧
    names_unique directory_session :=
  ⟨by decide, by decide, by decide,
   c23_names_stay_unique std_env directory_ops (setup session0) directory_session
     (by unfold names_unique; decide) (by decide)⟩

/-! ## The characters of a path -/

theorem isUpper_iff (c : Char) : c.isUpper = true ↔ 65 ≤ c.toNat ∧ c.toNat ≤ 90 := by
  unfold Char.isUpper
  simp only [ge_iff_le, Bool.and_eq_true, decide_eq_true_eq]
  exact Iff.rfl

/-- The assignment of lines 176-179 is the specification's `sanitized`. -/
theorem sanitize_eq (c : Char) (hc : c ≠ NUL) :
    (if c.isAlpha then c.toLower
     else if !c.isDigit && (strchr ".#&+!-".toList c).isNone then '_'
     else c) = sanitized c := by
  unfold sanitized
  by_cases ha : c.isAlpha = true
  · rw [if_pos ha, if_pos ha]
  · rw [if_neg ha, if_neg ha]
    have hs : (strchr ".#&+!-".toList c).isSome = true ↔ c ∈ ".#&+!-".toList := by
      rw [strchr_isSome_iff _ c hc]
      have : cstr ".#&+!-".toList = ".#&+!-".toList := by decide
      rw [this]
    by_cases hd : c.isDigit = true
    · rw [hd, if_pos (Or.inl rfl)]
      rfl
    · have hd1 : c.isDigit = false := by
        cases h : c.isDigit with
        | false => rfl
        | true => exact absurd h hd
      by_cases hm : c ∈ ".#&+!-".toList
      · have h1 := hs.2 hm
        have h2 : (strchr ".#&+!-".toList c).isNone = false := by
          cases h : strchr ".#&+!-".toList c with
          | none =>
            rw [h] at h1
            simp at h1
          | some k => rfl
        rw [h2, if_pos (Or.inr hm), Bool.and_false]
        rfl
      · have h2 : (strchr ".#&+!-".toList c).isNone = true := by
          cases h : strchr ".#&+!-".toList c with
          | none => rfl
          | some k =>
            have : (strchr ".#&+!-".toList c).isSome = true := by rw [h]; rfl
            exact absurd (hs.1 this) hm
        have hno : ¬ (false = true ∨ c ∈ ".#&+!-".toList) := by
          intro h
          rcases h with h | h
          · cases h
          · exact hm h
        rw [h2, hd1, if_neg hno]
        rfl

theorem path_char_sanitized (c : Char) : path_char (sanitized c) = true := by
  by_cases hu : 65 ≤ c.toNat ∧ c.toNat ≤ 90
  · have e : c = Char.ofNat c.toNat := (Char.ofNat_toNat c).symm
    rw [e]
    generalize c.toNat = n at hu
    obtain ⟨h1, h2⟩ := hu
    interval_cases n <;> decide
  · unfold sanitized
    by_cases ha : c.isAlpha = true
    · rw [if_pos ha]
      have hl : c.toLower = c := by
        unfold Char.toLower
        simp only [ge_iff_le]
        rw [if_neg hu]
      rw [hl]
      have hnu : c.isUpper = false := by
        cases h : c.isUpper with
        | false => rfl
        | true => exact absurd ((isUpper_iff c).1 h) hu
      unfold Char.isAlpha at ha
      rw [hnu, Bool.false_or] at ha
      unfold path_char
      rw [ha]
      rfl
    · rw [if_neg ha]
      by_cases hd : c.isDigit = true ∨ c ∈ ".#&+!-".toList
      · rw [if_pos hd]
        unfold path_char
        rcases hd with hd | hm
        · rw [hd]
          simp
        · have hm2 : c ∈ ".#&+!-_".toList := by
            have e : ".#&+!-_".toList = ".#&+!-".toList ++ ['_'] := by decide
            rw [e]
            exact List.mem_append_left _ hm
          have : ".#&+!-_".toList.contains c = true := List.elem_eq_true_of_mem hm2
          rw [this]
          simp
      · rw [if_neg hd]
        decide

theorem channel_normalize_path_eq (s : List Char) (hs : ∀ c ∈ s, c ≠ NUL) :
    channel_normalize_path s = s.map sanitized := by
  unfold channel_normalize_path
  apply List.map_congr_left
  intro c hc
  exact sanitize_eq c (hs c hc)

theorem channel_normalize_path_loop_eq (s rest : List Char) (hs : ∀ c ∈ s, c ≠ NUL) :
    channel_normalize_path_loop (s ++ NUL :: rest) = s.map sanitized ++ NUL :: rest := by
  induction s with
  | nil =>
    unfold channel_normalize_path_loop
    simp
  | cons c s ih =>
    have hc : c ≠ NUL := hs c (List.mem_cons_self _ _)
    rw [List.cons_append]
    unfold channel_normalize_path_loop
    rw [if_neg hc, ih (fun x hx => hs x (List.mem_cons_of_mem _ hx)), sanitize_eq c hc]
    rfl

theorem channel_normalize_path_loop_end (s : List Char) (hs : ∀ c ∈ s, c ≠ NUL) :
    channel_normalize_path_loop s = s.map sanitized := by
  induction s with
  | nil => rfl
  | cons c s ih =>
    have hc : c ≠ NUL := hs c (List.mem_cons_self _ _)
    unfold channel_normalize_path_loop
    rw [if_neg hc, ih (fun x hx => hs x (List.mem_cons_of_mem _ hx)), sanitize_eq c hc]
    rfl

/-! ## C24: path sanitizing -/

/-- C24: `channel_normalize_path` on a buffer that holds the string `s`, followed by its
terminator and any bytes `rest`. The loop rewrites the bytes of `s` one by one, each into
its `sanitized` form (a letter into its lowercase form, a digit and each of `.#&+!-` into
itself, everything else into `_`), and leaves the terminator and the bytes behind it; so
does the definition `channel_normalize_path` on the content. The result has the length of
`s`, consists of lowercase letters, digits and the characters `.#&+!-_`, and holds no
`/`. -/
theorem c24_path_sanitizing (mem rest : List Char) :
    channel_normalize_path_loop (cstr mem ++ NUL :: rest)
      = (cstr mem).map sanitized ++ NUL :: rest ∧
    channel_normalize_path (cstr mem) = (cstr mem).map sanitized ∧
    (∀ i, (channel_normalize_path (cstr mem)).get? i = ((cstr mem).get? i).map sanitized) ∧
    (channel_normalize_path (cstr mem)).length = (cstr mem).length ∧
    (∀ c ∈ channel_normalize_path (cstr mem), path_char c = true) ∧
    '/' ∉ channel_normalize_path (cstr mem) := by
  have e := channel_normalize_path_eq (cstr mem) (mem_cstr mem)
  have hall : ∀ c ∈ channel_normalize_path (cstr mem), path_char c = true := by
    intro c hc
    rw [e] at hc
    obtain ⟨d, _, hd⟩ := List.mem_map.1 hc
    rw [← hd]
    exact path_char_sanitized d
  refine ⟨channel_normalize_path_loop_eq _ rest (mem_cstr mem), e, ?_, ?_, hall, ?_⟩
  · intro i
    rw [e]
    simp only [List.get?_eq_getElem?, List.getElem?_map]
  · rw [e, List.length_map]
  · intro h
    have := hall _ h
    revert this
    decide

/-! ## C25: the delimiters of the channel-mode string -/

set_option maxRecDepth 1000000 in
/-- C25 (failing run): after `setup` the stored channel-mode string has three commas. The
text `long_modes`, fifty letters followed by `,k,l,imnt`, has three commas as well and
passes the test of line 780, but `strlcpy` stores its first 49 bytes, which hold no comma.
The line `:irc.example 005 me CHANMODES=` followed by that text and ` :are supported`
brings this about through `proc_server_cmd`; the MODE line `:op!u@h MODE #chat +o alice`,
which gives alice the prefix `@` in the session as it was, then makes `name_mode` look for
the second comma from a null pointer. -/
theorem c25_cut_text_has_no_comma :
    roster_session.cmodes = "beI,k,l,imMnOPQRstVz".toList ∧
    roster_session.cmodes.count ',' = 3 ∧
    long_modes.count ',' = 3 ∧
    (parse_cmodes roster_session long_modes).cmodes = List.replicate 49 'x' ∧
    (parse_cmodes roster_session long_modes).cmodes.count ',' = 0 ∧
    name_mode (parse_cmodes roster_session long_modes)
      (some "#chat".toList) (some "+o".toList) (some "alice".toList) = .error .undef ∧
    (proc_server_cmd std_env roster_session
        (":irc.example 005 me CHANMODES=".toList ++ long_modes ++ " :are supported".toList)).map
        (fun st => st.cmodes) = .ok (List.replicate 49 'x') ∧
    (proc_server_cmd std_env roster_session
        (":irc.example 005 me CHANMODES=".toList ++ long_modes ++ " :are supported".toList)).bind
        (fun st => proc_server_cmd std_env st ":op!u@h MODE #chat +o alice".toList)
      = .error .undef ∧
    (proc_server_cmd std_env roster_session ":op!u@h MODE #chat +o alice".toList).map
        (fun st => st.channels.map (fun c => c.nicks))
      = .ok [[⟨"bob".toList, '+'⟩, ⟨"alice".toList, '@'⟩], []] := by
  decide

/-! ## Rosters without double names -/

theorem mem_modify_at {α : Type} (f : α → α) (i : Nat) (l : List α) (x : α)
    (h : x ∈ modify_at f i l) : x ∈ l ∨ ∃ y ∈ l, l.get? i = some y ∧ x = f y := by
  induction l generalizing i with
  | nil =>
    cases i with
    | zero => cases h
    | succ i => cases h
  | cons a l ih =>
    cases i with
    | zero =>
      unfold modify_at at h
      rcases List.mem_cons.1 h with h1 | h1
      · exact Or.inr ⟨a, List.mem_cons_self _ _, rfl, h1⟩
      · exact Or.inl (List.mem_cons_of_mem _ h1)
    | succ i =>
      unfold modify_at at h
      rcases List.mem_cons.1 h with h1 | h1
      · exact Or.inl (by rw [h1]; exact List.mem_cons_self _ _)
      · rcases ih i h1 with h2 | ⟨y, hy, hg, hx⟩
        · exact Or.inl (List.mem_cons_of_mem _ h2)
        · exact Or.inr ⟨y, List.mem_cons_of_mem _ hy, hg, hx⟩

theorem roster_names_modify_at (f : Nick → Nick) (hf : ∀ n, (f n).name = n.name) (i : Nat)
    (l : List Nick) : roster_names (modify_at f i l) = roster_names l := by
  induction l generalizing i with
  | nil => cases i <;> rfl
  | cons a l ih =>
    cases i with
    | zero =>
      unfold modify_at roster_names
      simp only [List.map_cons, hf]
    | succ i =>
      have := ih i
      unfold roster_names at this ⊢
      unfold modify_at
      simp only [List.map_cons, this]

theorem name_find_absent (n : List Char) (ns : List Nick) (h : name_find n ns = none) :
    n ∉ roster_names ns := by
  induction ns with
  | nil => simp [roster_names]
  | cons a ns ih =>
    unfold name_find at h
    by_cases e : n = a.name
    · rw [if_pos e] at h
      cases h
    · rw [if_neg e] at h
      have h1 : name_find n ns = none := by
        cases hf : name_find n ns with
        | none => rfl
        | some k => rw [hf] at h; cases h
      unfold roster_names
      simp only [List.map_cons, List.mem_cons, not_or]
      exact ⟨e, ih h1⟩

theorem fits_nick_tail (c : Char) (r : List Char) (h : fits_nick (c :: r)) : fits_nick r := by
  obtain ⟨h1, h2⟩ := h
  refine ⟨fun x hx => h1 x (List.mem_cons_of_mem _ hx), ?_⟩
  simp only [List.length_cons] at h2
  omega

/-- The part of `name_add3` behind `channel_find` keeps a roster free of double names when
the name fits the name array. -/
theorem roster_add_unique ( trackprefix : Bool) (upref : List Char) (nicks ns : List Nick)
    (name : List Char) (modes : Char) (hfit : fits_nick name)
    (hu : (roster_names nicks).Nodup)
    (h : roster_add trackprefix upref nicks name modes = .ok ns) : (roster_names ns).Nodup := by
  unfold roster_add at h
  cases name with
  | nil => cases h
  | cons c0 rest =>
    simp only at h
    have hnm : fits_nick (if (strchr upref c0).isSome = true then rest else c0 :: rest) := by
      by_cases hm : (strchr upref c0).isSome = true
      · rw [if_pos hm]
        exact fits_nick_tail c0 rest hfit
      · rw [if_neg hm]
        exact hfit
    generalize (if (strchr upref c0).isSome = true then rest else c0 :: rest) = nm at h hnm
    cases hf : name_find nm nicks with
    | some i =>
      simp only [hf] at h
      by_cases hc : trackprefix = true ∧ (strchr upref c0).isSome = true
      · rw [if_pos hc] at h
        cases h
        rw [roster_names_modify_at (fun n => { n with pfx := c0 }) (fun _ => rfl)]
        exact hu
      · rw [if_neg hc] at h
        cases h
        exact hu
    | none =>
      simp only [hf] at h
      cases h
      unfold roster_names
      rw [List.map_cons]
      simp only
      rw [strlcpy_short nm IRC_NICK_MAX hnm.1 hnm.2]
      exact List.nodup_cons.2 ⟨name_find_absent nm nicks hf, hu⟩

theorem set_roster_unique (st : State) (i : Nat) (ns : List Nick) (h0 : rosters_unique st)
    (hns : (roster_names ns).Nodup) : rosters_unique (set_roster st i ns) := by
  intro c hc
  unfold set_roster at hc
  rcases mem_modify_at _ i st.channels c hc with h | ⟨y, _, _, hx⟩
  · exact h0 c h
  · rw [hx]
    exact hns

theorem rosters_unique_congr (st st' : State) (h : st'.channels = st.channels)
    (h0 : rosters_unique st) : rosters_unique st' := by
  intro c hc
  rw [h] at hc
  exact h0 c hc

theorem mem_of_get? {α : Type} (l : List α) (i : Nat) (x : α) (h : l.get? i = some x) : x ∈ l := by
  rw [List.get?_eq_getElem?] at h
  exact List.getElem?_mem h

theorem without_nodup (n : List Char) (ns : List Nick) (h : (roster_names ns).Nodup) :
    (roster_names (without n ns)).Nodup := by
  unfold roster_names at h ⊢
  unfold without
  exact List.Nodup.sublist (List.Sublist.map _ (List.eraseP_sublist _)) h

theorem name_rm3_unique (n : List Char) (ns : List Nick) (q : List Nick × Char)
    (h : name_rm3 n ns = some q) (hu : (roster_names ns).Nodup) : (roster_names q.1).Nodup := by
  rw [name_rm3_eq] at h
  by_cases hh : holds n ns = true
  · rw [if_pos hh] at h
    cases h
    exact without_nodup n ns hu
  · rw [if_neg hh] at h
    cases h

theorem name_add3_unique (st st' : State) (ch n : List Char) (p : Char) (hfit : fits_nick n)
    (h0 : rosters_unique st) (h : name_add3 st ch n p = .ok st') : rosters_unique st' := by
  unfold name_add3 at h
  split at h
  · cases h
  · cases h
    exact h0
  · split at h
    · cases h
      exact h0
    · rename_i c hc
      split at h
      · cases h
      · rename_i ns hns
        cases h
        exact set_roster_unique st _ ns h0
          (roster_add_unique _ _ _ ns n p hfit (h0 c (mem_of_get? _ _ c hc)) hns)

theorem name_rm_unique (st : State) (ch n : List Char) (r : State × Bool)
    (h0 : rosters_unique st) (h : name_rm st ch n = .ok r) : rosters_unique r.1 := by
  unfold name_rm at h
  split at h
  · cases h
  · cases h
    exact h0
  · split at h
    · cases h
      exact h0
    · rename_i c hc
      split at h
      · cases h
        exact h0
      · rename_i q hq
        cases h
        exact set_roster_unique st _ q.1 h0
          (name_rm3_unique n c.nicks q hq (h0 c (mem_of_get? _ _ c hc)))

theorem name_quit_unique (st : State) (n u : List Char) (t : Option (List Char))
    (h0 : rosters_unique st) : rosters_unique (name_quit st n u t) := by
  intro c hc
  unfold name_quit at hc
  simp only [name_quit_loop_eq] at hc
  obtain ⟨d, hd, e⟩ := List.mem_map.1 hc
  by_cases hr : reached n d = true
  · rw [if_pos hr] at e
    rw [← e]
    exact without_nodup n d.nicks (h0 d hd)
  · rw [if_neg hr] at e
    rw [← e]
    exact h0 d hd

theorem name_mode_loop_names (cm um up : List Char) (c1 c2 c3 : Nat) (md : List Char) :
    ∀ w : ModeWalk,
      roster_names (name_mode_loop cm um up c1 c2 c3 md w).nicks = roster_names w.nicks := by
  induction md with
  | nil =>
    intro w
    rfl
  | cons m ms ih =>
    intro w
    unfold name_mode_loop
    repeat' split
    all_goals first
      | rfl
      | (rw [ih]
         try first
          | rfl
          | exact roster_names_modify_at _ (set_mode_pfx_name _ _) _ _)

theorem mode_walk_names (cm um up md a : List Char) (ns : List Nick) (w : ModeWalk)
    (h : mode_walk cm um up md a ns = .ok w) : roster_names w.nicks = roster_names ns := by
  unfold mode_walk at h
  split at h
  · cases h
    rfl
  · split at h
    · cases h
    · split at h
      · cases h
      · split at h
        · cases h
        · cases h
          exact name_mode_loop_names _ _ _ _ _ _ _ _

theorem name_mode_unique (st st' : State) (chan mode args : Option (List Char))
    (h0 : rosters_unique st) (h : name_mode st chan mode args = .ok st') :
    rosters_unique st' := by
  unfold name_mode at h
  split at h
  · cases h
  · split at h
    · cases h
    · cases h
      exact h0
    · split at h
      · cases h
        exact h0
      · split at h
        · cases h
        · split at h
          · cases h
            exact h0
          · rename_i c hc
            split at h
            · cases h
            · rename_i w hw
              cases h
              apply set_roster_unique st _ _ h0
              rw [mode_walk_names _ _ _ _ _ _ w hw]
              exact h0 c (mem_of_get? _ _ c hc)

theorem name_nick_loop_unique (old new : List Char) (hfit : fits_nick new) :
    ∀ (k i : Nat) (st st' : State), rosters_unique st →
      name_nick_loop old new k i st = .ok st' → rosters_unique st' := by
  intro k
  induction k with
  | zero =>
    intro i st st' h0 h
    cases h
    exact h0
  | succ k ih =>
    intro i st st' h0 h
    rw [name_nick_loop] at h
    split at h
    · cases h
      exact h0
    · rename_i c hc
      split at h
      · split at h
        · rename_i q hq
          split at h
          · cases h
          · rename_i st2 h2
            have u1 : rosters_unique (set_roster st i q.1) :=
              set_roster_unique st i q.1 h0
                (name_rm3_unique old c.nicks q hq (h0 c (mem_of_get? _ _ c hc)))
            have u2 := name_add3_unique _ st2 _ _ _ hfit u1 h2
            refine ih _ _ _ ?_ h
            exact rosters_unique_congr st2 _ rfl u2
        · exact ih _ _ _ h0 h
      · exact ih _ _ _ h0 h

theorem name_menick_loop_unique (old new msg : List Char) (hfit : fits_nick new) :
    ∀ (k i : Nat) (st st' : State), rosters_unique st →
      name_menick_loop old new msg k i st = .ok st' → rosters_unique st' := by
  intro k
  induction k with
  | zero =>
    intro i st st' h0 h
    cases h
    exact h0
  | succ k ih =>
    intro i st st' h0 h
    rw [name_menick_loop] at h
    split at h
    · cases h
      exact h0
    · rename_i c hc
      split at h
      · split at h
        · rename_i q hq
          split at h
          · cases h
          · rename_i st2 h2
            have u1 : rosters_unique (set_roster st i q.1) :=
              set_roster_unique st i q.1 h0
                (name_rm3_unique old c.nicks q hq (h0 c (mem_of_get? _ _ c hc)))
            have u2 := name_add3_unique _ st2 _ _ _ hfit u1 h2
            refine ih _ _ _ ?_ h
            exact rosters_unique_congr st2 _ rfl u2
        · refine ih _ _ _ ?_ h
          exact rosters_unique_congr st _ rfl h0
      · refine ih _ _ _ ?_ h
        exact rosters_unique_congr st _ rfl h0

/-- One call of a roster function keeps the rosters free of double names when the name it
hands to `name_add3` fits the name array. -/
theorem roster_step_unique (st st' : State) (op : RosterOp)
    (hfit : ∀ n, op.stores = some n → fits_nick n)
    (h0 : rosters_unique st) (h : roster_step st op = .ok st') : rosters_unique st' := by
  cases op with
  | add3 chan name modes =>
    exact name_add3_unique st st' chan name modes (hfit name rfl) h0 h
  | rm chan name =>
    unfold roster_step at h
    cases hr : name_rm st chan name with
    | error e => simp [hr] at h
    | ok r =>
      simp only [hr, Except.ok.injEq] at h
      rw [← h]
      exact name_rm_unique st chan name r h0 hr
  | quit name user text =>
    unfold roster_step at h
    cases h
    exact name_quit_unique st name user text h0
  | nick old new =>
    exact name_nick_loop_unique old new (hfit new rfl) _ _ st st' h0 h
  | menick old new =>
    exact name_menick_loop_unique old new _ (hfit new rfl) _ _ st st' h0 h
  | mode chan md args =>
    exact name_mode_unique st st' chan md args h0 h

/-! ## C26: nick names within a roster -/

set_option maxRecDepth 1000000 in
/-- C26 (counterexample): two calls `name_add3("#chat", n, 0)` with the same name `n` of two
hundred bytes, on the empty roster of `#chat`, leave a roster of two entries, both named by
the first 199 bytes of `n`: the second call compares `n` itself with the stored name. Two
JOIN lines from a sender of that name do the same through `proc_server_cmd`. -/
theorem c26_counterexample :
    (chat_session.channels.map (fun c => c.nicks)) = [[], []] ∧
    (roster_run [.add3 "#chat".toList long_nick NUL, .add3 "#chat".toList long_nick NUL]
        chat_session).map (fun st => st.channels.map (fun c => c.nicks))
      = .ok [[⟨List.replicate 199 'a', NUL⟩, ⟨List.replicate 199 'a', NUL⟩], []] ∧
    ((proc_server_cmd std_env chat_session
          (":".toList ++ long_nick ++ "!u@h JOIN #chat".toList)).bind
        (fun st => proc_server_cmd std_env st
          (":".toList ++ long_nick ++ "!u@h JOIN #chat".toList))).map
        (fun st => st.channels.map (fun c => c.nicks))
      = .ok [[⟨List.replicate 199 'a', NUL⟩, ⟨List.replicate 199 'a', NUL⟩], []] := by
  decide

/-- C26 (amended): from a state in which no roster has two entries with the same name
(empty rosters are the case in point), every sequence of calls of `name_add3`, `name_rm`,
`name_quit`, `name_nick`, `name_menick` and `name_mode` that returns, and in which every
name handed to `name_add3` for storing is a string of fewer than `IRC_NICK_MAX` bytes,
leaves a state in which no roster has two entries with the same name. -/
theorem c26_rosters_stay_unique (ops : List RosterOp) (st st' : State)
    (h0 : rosters_unique st)
    (hfit : ∀ op ∈ ops, ∀ n ∈ op.stores, fits_nick n)
    (hrun : roster_run ops st = .ok st') : rosters_unique st' := by
  induction ops generalizing st with
  | nil =>
    unfold roster_run at hrun
    cases hrun
    exact h0
  | cons op ops ih =>
    unfold roster_run at hrun
    cases hs : roster_step st op with
    | error e => simp [hs] at hrun
    | ok st1 =>
      simp only [hs] at hrun
      exact ih st1
        (roster_step_unique st st1 op (fun n hn => hfit op (List.mem_cons_self _ _) n hn) h0 hs)
        (fun o ho => hfit o (List.mem_cons_of_mem _ ho)) hrun

set_option maxRecDepth 100000 in
/-- C26 (witness): the calls `roster_ops` on the session whose rosters are empty: additions
(one of a name already listed), two renames (one to a name already listed), a mode change,
a quit, a removal and a rename of the local nick leave `#chat` with the entries `erin` and
`bob`. -/
theorem c26_rosters_witness :
    chat_session.channels.map (fun c => c.nicks) = [[], []] ∧
    roster_run roster_ops chat_session = .ok unique_session ∧
    unique_session.channels.map (fun c => c.nicks)
      = [[⟨"erin".toList, '+'⟩, ⟨"bob".toList, '+'⟩], []] ∧
    rosters_unique unique_session :=
  ⟨by decide, by decide, by decide,
   c26_rosters_stay_unique roster_ops chat_session unique_session
     (by
       intro c hc
       have e : chat_session.channels.map (fun c => c.nicks) = [[], []] := by decide
       have hm : c.nicks ∈ chat_session.channels.map (fun c => c.nicks) :=
         List.mem_map.2 ⟨c, hc, rfl⟩
       rw [e] at hm
       have : c.nicks = [] := by
         rcases List.mem_cons.1 hm with h | h
         · exact h
         · rcases List.mem_cons.1 h with h | h
           · exact h
           · cases h
       rw [this]
       exact List.nodup_nil)
     (by decide) (by decide)⟩

/-! ## The tokenizer without the branch for numeric commands -/

theorem reslen_eq : reslen = 4 := rfl
theorem argoffset_eq : argoffset = 2 := rfl
theorem textoffset_eq : textoffset = 3 := rfl

theorem tokenize_loop_plain_tail (res : Tokens) (p n : List Char) (h : p ++ n ≠ []) :
    tokenize_loop_plain textoffset res p n = res.set textoffset (some (p ++ n)) := by
  induction n generalizing p with
  | nil =>
    have hp : p ≠ [] := by simpa using h
    unfold tokenize_loop_plain
    simp [reslen_eq, textoffset_eq, hp]
  | cons c n ih =>
    unfold tokenize_loop_plain
    rw [if_neg (by rw [reslen_eq, textoffset_eq]; omega),
      if_neg (by intro h; exact absurd h.1 (by omega)), ih (p ++ [c]) (by simp)]
    simp

/-- The loop of `tokenize` and the loop without the branch of lines 688-692 return the
same array. -/
theorem tokenize_loop_eq_plain (n : List Char) (i : Nat) (res : Tokens) (p : List Char) :
    tokenize_loop i res p n = tokenize_loop_plain i res p n := by
  induction n generalizing i res p with
  | nil =>
    unfold tokenize_loop tokenize_loop_plain
    rfl
  | cons c n ih =>
    by_cases h1 : i ≥ reslen
    · unfold tokenize_loop tokenize_loop_plain
      rw [if_pos h1, if_pos h1]
    · by_cases h2 : i > argoffset ∧ c = ' ' ∧ numeric_cmd res = true
      · have hi : i = textoffset := by
          have := h2.1
          rw [reslen_eq] at h1
          rw [argoffset_eq] at this
          rw [textoffset_eq]
          omega
        subst hi
        rw [tokenize_loop_tail res p (c :: n) (by simp),
          tokenize_loop_plain_tail res p (c :: n) (by simp)]
      · by_cases h3 : i < textoffset ∧ c = ' '
        · unfold tokenize_loop tokenize_loop_plain
          rw [if_neg h1, if_neg h2, if_pos h3, if_neg h1, if_pos h3]
          split
          · rfl
          · rename_i hn
            exact ih _ _ _
        · unfold tokenize_loop tokenize_loop_plain
          rw [if_neg h1, if_neg h2, if_neg h3, if_neg h1, if_neg h3]
          exact ih _ _ _

theorem tokenize_eq_plain (str : List Char) : tokenize str = tokenize_plain str := by
  unfold tokenize tokenize_plain
  exact tokenize_loop_eq_plain _ _ _ _

/-! ## The tokenizer on the line buffer without the branch for numeric commands -/

/-- With the field budget used up, the loop without the branch walks to the end of the line
and stores `p` as the last entry; the bytes from `p` to `n` hold no terminator. -/
theorem tokenize_mem_plain_tail (k n p : Nat) (m : TokMem) (hpn : p ≤ n)
    (inv : ∀ j, p ≤ j → j < n → m.buf.getD j NUL ≠ NUL)
    (h : p < n ∨ (0 < k ∧ m.buf.getD n NUL ≠ NUL)) :
    tokenize_mem_loop_plain k textoffset p n m
      = { m with result := m.result.set textoffset (some p) } := by
  induction k generalizing n with
  | zero =>
    have hlt : p < n := by
      rcases h with h | h
      · exact h
      · omega
    unfold tokenize_mem_loop_plain tokenize_last
    rw [if_pos ⟨by rw [reslen_eq, textoffset_eq]; omega, hlt, inv p (le_refl p) hlt⟩]
  | succ k ih =>
    unfold tokenize_mem_loop_plain
    by_cases hn : m.buf.getD n NUL = NUL
    · have hlt : p < n := by
        rcases h with h | h
        · exact h
        · exact absurd hn h.2
      rw [if_pos hn]
      unfold tokenize_last
      rw [if_pos ⟨by rw [reslen_eq, textoffset_eq]; omega, hlt, inv p (le_refl p) hlt⟩]
    · rw [if_neg hn, if_neg (by rw [reslen_eq, textoffset_eq]; omega),
        if_neg (by intro h; exact absurd h.1 (by omega))]
      apply ih (n + 1) (by omega)
      · intro j hj1 hj2
        by_cases e : j = n
        · rw [e]
          exact hn
        · exact inv j hj1 (by omega)
      · left
        omega

/-- The loop of `tokenize` and the loop without the branch of lines 688-692 leave the same
array and the same line. -/
theorem tokenize_mem_loop_eq_plain (k i p n : Nat) (m : TokMem) (hpn : p ≤ n)
    (inv : ∀ j, p ≤ j → j < n → m.buf.getD j NUL ≠ NUL) :
    tokenize_mem_loop k i p n m = tokenize_mem_loop_plain k i p n m := by
  induction k generalizing i p n m with
  | zero =>
    unfold tokenize_mem_loop tokenize_mem_loop_plain
    rfl
  | succ k ih =>
    by_cases hn : m.buf.getD n NUL = NUL
    · unfold tokenize_mem_loop tokenize_mem_loop_plain
      rw [if_pos hn, if_pos hn]
    · by_cases h1 : i ≥ reslen
      · unfold tokenize_mem_loop tokenize_mem_loop_plain
        rw [if_neg hn, if_neg hn, if_pos h1, if_pos h1]
      · by_cases h2 : i > argoffset ∧ m.buf.getD n NUL = ' ' ∧ numeric_at m = true
        · have hi : i = textoffset := by
            have := h2.1
            rw [reslen_eq] at h1
            rw [argoffset_eq] at this
            rw [textoffset_eq]
            omega
          subst hi
          rw [tokenize_mem_plain_tail (k + 1) n p m hpn inv (Or.inr ⟨by omega, hn⟩)]
          unfold tokenize_mem_loop
          rw [if_neg hn, if_neg h1, if_pos h2]
        · by_cases h3 : i < textoffset ∧ m.buf.getD n NUL = ' '
          · unfold tokenize_mem_loop tokenize_mem_loop_plain
            rw [if_neg hn, if_neg hn, if_neg h1, if_neg h1, if_neg h2, if_pos h3, if_pos h3]
            by_cases h4 : m.buf.getD (n + 1) NUL = ':' ∧ m.buf.getD (n + 2) NUL ≠ NUL
            · rw [if_pos h4, if_pos h4]
            · rw [if_neg h4, if_neg h4]
              apply ih
              · exact le_refl _
              · intro j hj1 hj2
                omega
          · unfold tokenize_mem_loop tokenize_mem_loop_plain
            rw [if_neg hn, if_neg hn, if_neg h1, if_neg h1, if_neg h2, if_neg h3, if_neg h3]
            apply ih
            · omega
            · intro j hj1 hj2
              by_cases e : j = n
              · rw [e]
                exact hn
              · exact inv j hj1 (by omega)

theorem tokenize_mem_eq_plain (str : List Char) : tokenize_mem str = tokenize_mem_plain str := by
  unfold tokenize_mem tokenize_mem_plain
  apply tokenize_mem_loop_eq_plain
  · exact le_refl _
  · intro j hj1 hj2
    omega

set_option maxRecDepth 100000 in
/-- The two renderings of `tokenize` on the line `353 me = #chat :@alice +bob carol`: the
offsets stored, the line with its delimiters overwritten, and the fields as strings. -/
theorem tokenize_mem_example :
    tokenize_mem "353 me = #chat :@alice +bob carol".toList
      = { result := [some 0, some 4, some 7, some 9],
          buf := "353".toList ++ NUL :: "me".toList ++ NUL :: "=".toList ++ NUL
            :: "#chat :@alice +bob carol".toList } ∧
    (tokenize_mem "353 me = #chat :@alice +bob carol".toList).result.map
        (Option.map (str_at (tokenize_mem "353 me = #chat :@alice +bob carol".toList).buf))
      = tokenize "353 me = #chat :@alice +bob carol".toList ∧
    tokenize_mem "PRIVMSG #chat :hi all".toList
      = { result := [some 0, some 8, none, some 15],
          buf := "PRIVMSG".toList ++ NUL :: "#chat".toList ++ NUL :: NUL :: "hi all".toList } ∧
    (tokenize_mem "PRIVMSG #chat :hi all".toList).result.map
        (Option.map (str_at (tokenize_mem "PRIVMSG #chat :hi all".toList).buf))
      = tokenize "PRIVMSG #chat :hi all".toList := by
  decide

/-! ## The fields behind the command -/

/-- The loop without the branch never reads the array: from the second entry on, what it
stores does not depend on the first entry. -/
theorem tokenize_loop_plain_head (n : List Char) (j : Nat) (res : Tokens) (p : List Char) :
    ∃ g, ∀ a, tokenize_loop_plain (j + 1) (a :: res) p n = a :: g := by
  induction n generalizing j res p with
  | nil =>
    by_cases h : j + 1 < reslen ∧ p ≠ []
    · refine ⟨res.set j (some p), fun a => ?_⟩
      unfold tokenize_loop_plain
      rw [if_pos h]
      rfl
    · refine ⟨res, fun a => ?_⟩
      unfold tokenize_loop_plain
      rw [if_neg h]
  | cons c n ih =>
    by_cases h1 : j + 1 ≥ reslen
    · refine ⟨res, fun a => ?_⟩
      unfold tokenize_loop_plain
      rw [if_pos h1]
    · by_cases h3 : j + 1 < textoffset ∧ c = ' '
      · by_cases hn : ∃ d t, n = ':' :: d :: t
        · obtain ⟨d, t, hn⟩ := hn
          refine ⟨(res.set j (some p)).set (textoffset - 1) (some (d :: t)), fun a => ?_⟩
          unfold tokenize_loop_plain
          rw [if_neg h1, if_pos h3, hn]
          rfl
        · obtain ⟨g, hg⟩ := ih (j + 1) (res.set j (some p)) []
          refine ⟨g, fun a => ?_⟩
          unfold tokenize_loop_plain
          rw [if_neg h1, if_pos h3]
          split
          · rename_i d t
            exact absurd ⟨d, t, rfl⟩ hn
          · exact hg a
      · obtain ⟨g, hg⟩ := ih j res (p ++ [c])
        refine ⟨g, fun a => ?_⟩
        unfold tokenize_loop_plain
        rw [if_neg h1, if_neg h3]
        exact hg a

theorem tokenize_loop_plain_cmd (f n : List Char) (res : Tokens) (p : List Char)
    (hf : ∀ c ∈ f, c ≠ ' ') :
    tokenize_loop_plain 0 res p (f ++ n) = tokenize_loop_plain 0 res (p ++ f) n := by
  induction f generalizing p with
  | nil => simp
  | cons c f ih =>
    rw [List.cons_append]
    have step : tokenize_loop_plain 0 res p (c :: (f ++ n))
        = tokenize_loop_plain 0 res (p ++ [c]) (f ++ n) := by
      conv_lhs => unfold tokenize_loop_plain
      rw [if_neg (by rw [reslen_eq]; omega),
        if_neg (by intro h; exact hf c (List.mem_cons_self _ _) h.2)]
    rw [step, ih (p ++ [c]) (fun x hx => hf x (List.mem_cons_of_mem _ hx))]
    simp

/-- The fields that `tokenize` stores behind the command field are a function of the text
behind the command field alone. -/
theorem tokenize_behind_cmd (rest : List Char) :
    ∃ g, ∀ cmd, cmd ≠ [] → (∀ c ∈ cmd, c ≠ ' ' ∧ c ≠ NUL) →
      tokenize (cmd ++ ' ' :: rest) = some cmd :: g := by
  have hR : List.replicate reslen (none : Option (List Char)) = none :: List.replicate 3 none := rfl
  have key : ∀ cmd, cmd ≠ [] → (∀ c ∈ cmd, c ≠ ' ' ∧ c ≠ NUL) →
      tokenize (cmd ++ ' ' :: rest)
        = tokenize_loop_plain 0 (none :: List.replicate 3 none) cmd (' ' :: cstr rest) := by
    intro cmd hne hc
    rw [tokenize_eq_plain]
    unfold tokenize_plain
    have e1 : cstr (cmd ++ ' ' :: rest) = cmd ++ ' ' :: cstr rest := by
      clear hne
      induction cmd with
      | nil =>
        rw [List.nil_append]
        exact cstr_cons_ne ' ' rest (by decide)
      | cons c cmd ih =>
        rw [List.cons_append, cstr_cons_ne c _ (hc c (List.mem_cons_self _ _)).2,
          ih (fun x hx => hc x (List.mem_cons_of_mem _ hx))]
        rfl
    have e2 : (cmd ++ ' ' :: cstr rest).dropWhile (fun c => decide (c = ' '))
        = cmd ++ ' ' :: cstr rest := by
      cases cmd with
      | nil => exact absurd rfl hne
      | cons c cmd =>
        rw [List.cons_append, List.dropWhile_cons]
        have : decide (c = ' ') = false := by
          simpa using (hc c (List.mem_cons_self _ _)).1
        rw [this]
        rfl
    rw [e1, e2, hR, tokenize_loop_plain_cmd cmd _ _ [] (fun c h => (hc c h).1)]
    rfl
  by_cases hn : ∃ d t, cstr rest = ':' :: d :: t
  · obtain ⟨d, t, hn⟩ := hn
    refine ⟨(List.replicate 3 none).set (textoffset - 1) (some (d :: t)), fun cmd hne hc => ?_⟩
    rw [key cmd hne hc]
    unfold tokenize_loop_plain
    rw [if_neg (by rw [reslen_eq]; omega), if_pos ⟨by rw [textoffset_eq]; omega, rfl⟩, hn]
    rfl
  · obtain ⟨g, hg⟩ := tokenize_loop_plain_head (cstr rest) 0 (List.replicate 3 none) []
    refine ⟨g, fun cmd hne hc => ?_⟩
    rw [key cmd hne hc]
    unfold tokenize_loop_plain
    rw [if_neg (by rw [reslen_eq]; omega), if_pos ⟨by rw [textoffset_eq]; omega, rfl⟩]
    split
    · rename_i d t heq
      exact absurd ⟨d, t, heq⟩ hn
    · exact hg (some cmd)

/-! ## C27: the branch for numeric commands -/

/-- C27: for every line, `tokenize` returns the array, and leaves the line buffer, that
the same function without the branch of lines 688-692 returns and leaves: in the rendering
with the fields as strings and in the rendering with offsets into the buffer. The fields
behind the command field are therefore a function of the text behind the command field:
a line is split in the same way whether or not its command is a positive decimal number. -/
theorem c27_numeric_branch_changes_nothing (str : List Char) :
    tokenize str = tokenize_plain str ∧
    tokenize_mem str = tokenize_mem_plain str ∧
    ∃ g, ∀ cmd, cmd ≠ [] → (∀ c ∈ cmd, c ≠ ' ' ∧ c ≠ NUL) →
      tokenize (cmd ++ ' ' :: str) = some cmd :: g :=
  ⟨tokenize_eq_plain str, tokenize_mem_eq_plain str, tokenize_behind_cmd str⟩

/-! ## The first loop of `channel_normalize_name` at the terminator -/

theorem skip_lead_past_end (upref name rest : List Char) (h : ∀ c ∈ name, advances upref c) :
    skip_lead upref (name ++ NUL :: rest)
      = (skip_lead upref rest).map (fun k => k + (name.length + 1)) := by
  have e : name ++ NUL :: rest = (name ++ [NUL]) ++ rest := by simp
  rw [e, skip_lead_append upref (name ++ [NUL]) rest]
  · simp
  · intro a ha
    rcases List.mem_append.1 ha with h1 | h1
    · exact h a h1
    · rw [List.mem_singleton.1 h1]
      exact advances_nul upref

theorem skip_lead_zeroed (upref : List Char) (n : Nat) :
    skip_lead upref (List.replicate n NUL) = none := by
  have e : List.replicate n NUL = List.replicate n NUL ++ [] := by simp
  rw [e, skip_lead_append upref (List.replicate n NUL) []]
  · rfl
  · intro a ha
    rw [List.eq_of_mem_replicate ha]
    exact advances_nul upref

/-- The call `channel_add("")` of line 1313, in any state. -/
theorem channel_add_nil (env : Env) (st : State) : channel_add env st [] = .error .undef := by
  have hs : strlcpy [] IRC_CHANNEL_MAX = [] := rfl
  unfold channel_add channel_new
  simp only [hs, List.nil_append, List.length_nil, Nat.sub_zero]
  unfold channel_normalize_name
  rw [skip_lead_zeroed]

/-! ## C28: the leading-skip loop -/

/-- C28 (failing inputs): for every prefix table, every name made only of `&`, `#` and
characters that `strchr` finds in the table (the empty name is one), and all bytes `rest`
behind the terminator of the name: the loop of line 191 advances over the name and over its
terminator, which `strchr` finds in every table, and goes on in `rest`. Where it stops it
has advanced by more than the length of the name; where `rest` gives it no byte to stop at
it leaves the memory. The call `channel_add("")` of `main`, whose name array is zeroed, and
the call `channel_find("")` are of the second kind. -/
theorem c28_skip_loop_passes_terminator (env : Env) (st : State) (upref name rest : List Char)
    (h : ∀ c ∈ name, advances upref c) :
    skip_lead upref (name ++ NUL :: rest)
      = (skip_lead upref rest).map (fun k => k + (name.length + 1)) ∧
    (∀ k, skip_lead upref (name ++ NUL :: rest) = some k → name.length < k) ∧
    skip_lead upref (name ++ [NUL]) = none ∧
    channel_add env st [] = .error .undef ∧
    channel_find st [] = .error .undef := by
  refine ⟨skip_lead_past_end upref name rest h, ?_, skip_lead_all upref name h,
    channel_add_nil env st, channel_find_nil st⟩
  intro k hk
  rw [skip_lead_past_end upref name rest h] at hk
  cases hr : skip_lead upref rest with
  | none => simp [hr] at hk
  | some j =>
    simp only [hr, Option.map_some', Option.some.injEq] at hk
    omega

set_option maxRecDepth 100000 in
/-- C28 (witness): with the prefix table of `setup`, the name `&#@` followed by its
terminator and the bytes `xyz`: the loop advances by four bytes, one more than the name
has. The empty name followed by the bytes `+x`: the loop advances by two bytes. -/
theorem c28_skip_loop_witness :
    (skip_lead (setup session0).upref ("&#@".toList ++ NUL :: "xyz".toList) = some 4 ∧
      skip_lead (setup session0).upref ([] ++ NUL :: "+x".toList) = some 2) ∧
    skip_lead (setup session0).upref ("&#@".toList ++ NUL :: "xyz".toList)
      = (skip_lead (setup session0).upref "xyz".toList).map (fun k => k + ("&#@".toList.length + 1)) ∧
    (∀ k, skip_lead (setup session0).upref ("&#@".toList ++ NUL :: "xyz".toList) = some k →
      "&#@".toList.length < k) ∧
    skip_lead (setup session0).upref ("&#@".toList ++ [NUL]) = none ∧
    channel_add std_env boot_state [] = .error .undef ∧
    channel_find boot_state [] = .error .undef :=
  ⟨by decide,
   c28_skip_loop_passes_terminator std_env boot_state (setup session0).upref "&#@".toList
     "xyz".toList (by decide)⟩

/-! ## The loop of `ewritestr` -/

/-- The loop hands over no more bytes than lie behind its offset. -/
theorem ewritestr_loop_length (s : List Char) (ws : List (Option Nat)) (off : Nat)
    (out r : List Char) (h : ewritestr_loop s off ws out = .ok r) :
    r.length ≤ out.length + (s.length - off) := by
  induction ws generalizing off out with
  | nil =>
    unfold ewritestr_loop at h
    by_cases hlt : off < s.length
    · rw [if_pos hlt] at h
      cases h
      simp
    · rw [if_neg hlt] at h
      cases h
      omega
  | cons a ws ih =>
    cases a with
    | none =>
      unfold ewritestr_loop at h
      by_cases hlt : off < s.length
      · rw [if_pos hlt] at h
        cases h
      · rw [if_neg hlt] at h
        cases h
        omega
    | some w =>
      unfold ewritestr_loop at h
      by_cases hlt : off < s.length
      · rw [if_pos hlt] at h
        have := ih (off + w + w) _ h
        simp only [List.length_append, List.length_take, List.length_drop] at this
        omega
      · rw [if_neg hlt] at h
        cases h
        omega

/-- A first call of `write` that takes all of a string that is not empty ends the loop. -/
theorem ewritestr_bytes_full (s : List Char) (ws : List (Option Nat)) (hs : s ≠ []) :
    ewritestr_bytes s (some s.length :: ws) = .ok s ∧ ewritestr_bytes s [] = .ok s := by
  have hpos : 0 < s.length := List.length_pos.2 hs
  unfold ewritestr_bytes
  rw [if_neg hs]
  constructor
  · unfold ewritestr_loop
    rw [if_pos hpos]
    have hge : ¬ (0 + s.length + s.length < s.length) := by omega
    cases ws with
    | nil =>
      unfold ewritestr_loop
      rw [if_neg hge]
      simp
    | cons a ws =>
      cases a with
      | none =>
        unfold ewritestr_loop
        rw [if_neg hge]
        simp
      | some v =>
        unfold ewritestr_loop
        rw [if_neg hge]
        simp
  · unfold ewritestr_loop
    rw [if_pos hpos]
    simp [hs]

/-! ## C29: short writes -/

/-- C29 (failing inputs): for every string `s` and every first result `w` of `write` with
`1 ≤ w < strlen(s)`, whatever the later calls return: the loop goes on at the offset
`2 * w`, because the offset is advanced in the body and again in the loop header, so the
bytes at the offsets from `w` on, up to `2 * w`, are offered to no call; whatever
`ewritestr` hands over when it returns is shorter than `s`, and is not `s`. A first call
that takes the whole string hands over `s`. -/
theorem c29_short_write_loses_bytes (s : List Char) (w : Nat) (ws : List (Option Nat))
    (h1 : 1 ≤ w) (h2 : w < s.length) :
    ewritestr_bytes s (some w :: ws) = ewritestr_loop s (2 * w) ws (s.take w) ∧
    (∀ r, ewritestr_bytes s (some w :: ws) = .ok r → r.length < s.length ∧ r ≠ s) ∧
    ewritestr_bytes s (some s.length :: ws) = .ok s := by
  have hs : s ≠ [] := by
    intro h
    rw [h] at h2
    simp at h2
  have e : ewritestr_bytes s (some w :: ws) = ewritestr_loop s (2 * w) ws (s.take w) := by
    unfold ewritestr_bytes
    rw [if_neg hs]
    conv => lhs; unfold ewritestr_loop
    rw [if_pos (by omega)]
    have : 0 + w + w = 2 * w := by omega
    rw [this]
    simp
  refine ⟨e, ?_, (ewritestr_bytes_full s ws hs).1⟩
  intro r hr
  rw [e] at hr
  have hl := ewritestr_loop_length s ws (2 * w) _ r hr
  simp only [List.length_take] at hl
  have hlt : r.length < s.length := by omega
  refine ⟨hlt, ?_⟩
  intro h
  rw [h] at hlt
  omega

set_option maxRecDepth 100000 in
/-- C29 (witness): the string `abcdef` with two calls of `write` that take two bytes each:
the bytes handed over are `abef`; `cd` is offered to no call. -/
theorem c29_short_write_witness :
    ewritestr_bytes "abcdef".toList [some 2, some 2] = .ok "abef".toList ∧
    ewritestr_bytes "abcdef".toList (some 2 :: [some 2])
      = ewritestr_loop "abcdef".toList (2 * 2) [some 2] ("abcdef".toList.take 2) ∧
    (∀ r, ewritestr_bytes "abcdef".toList (some 2 :: [some 2]) = .ok r →
      r.length < "abcdef".toList.length ∧ r ≠ "abcdef".toList) ∧
    ewritestr_bytes "abcdef".toList (some "abcdef".toList.length :: [some 2])
      = .ok "abcdef".toList :=
  ⟨by decide,
   c29_short_write_loses_bytes "abcdef".toList 2 [some 2] (by decide) (by decide)⟩

end Ii
